import Mathlib

/-!
# Dream Function: spectral pipeline over `Q = 998244353`

A shallow embedding of `dream_function-1.cpp`: the modular primitives
(`mod_pow`, `mod_inv`), the in-place transforms (`ntt`, `fwht`) and the
orchestrator (`DreamFunction`), followed by the properties proved about them.

Conventions of the embedding.
* `long long` values are integers (`ll := Int`); the C++ operator `%` truncates
  towards zero and is `Int.tmod`.  In `mod_pow`, whose modulus is a parameter,
  every product is wrapped to 64 bits (`wrap64`); the transforms and the
  orchestrator only multiply and add residues of `Q`, far below `2^63`.
* `int` values that come from a container size or from index arithmetic are
  wrapped to 32 bits (`wrap32`).  Loop counters that stay between `0` and the
  loop bound are natural numbers.
* `std::vector<ll>` is `List ll`; `a[i]` reads with `List.getD`, `a[i] = v`
  writes with `List.set`.  Where the index is computed from the data
  (`P[idx]`, `M[i][j]` in `compute_permanent`) an access outside the vector
  makes the whole computation fail (`none`).
* Every C++ loop is a recursive function on an explicit iteration budget
  (`fuel`), called with a budget that the loop cannot exhaust.
-/

abbrev ll := Int
abbrev vll := List ll
abbrev matrix := List vll

/-- The modulus `const ll Q = 998244353`. -/
def Q : ll := 998244353

/-- Two's-complement value of a 32-bit signed `int`. -/
def wrap32 (x : Int) : Int := (x + 2 ^ 31) % 2 ^ 32 - 2 ^ 31

/-- Two's-complement value of a 64-bit signed `long long`. -/
def wrap64 (x : Int) : Int := (x + 2 ^ 63) % 2 ^ 64 - 2 ^ 63

/-! ## Modular primitives -/

/-- The loop `while (exp > 0) { if (exp & 1) result = (result * base) % mod;
base = (base * base) % mod; exp >>= 1; }` of `mod_pow`.  For `exp > 0` the low
bit `exp & 1` is `exp % 2` and `exp >> 1` is `exp / 2`. -/
def mod_pow_loop (mod : ll) : Nat → ll → ll → ll → ll
  | 0, result, _, _ => result
  | fuel + 1, result, base, exp =>
    if exp > 0 then
      let result := if exp % 2 = 1 then (wrap64 (result * base)).tmod mod else result
      let base := (wrap64 (base * base)).tmod mod
      mod_pow_loop mod fuel result base (exp / 2)
    else result

/-- `ll mod_pow(ll base, ll exp, ll mod)`. -/
def mod_pow (base exp mod : ll) : ll :=
  mod_pow_loop mod exp.toNat 1 (base.tmod mod) exp

/-- `ll mod_inv(ll a, ll mod)`. -/
def mod_inv (a mod : ll) : ll := mod_pow a (mod - 2) mod

/-! ## Number-theoretic transform -/

/-- The carry loop `for (; j & bit; bit >>= 1) j ^= bit;` of the bit-reversal
permutation; returns the final `(j, bit)`. -/
def bitrev_carry : Nat → Nat → Nat → Nat × Nat
  | 0, j, bit => (j, bit)
  | fuel + 1, j, bit =>
    if j &&& bit ≠ 0 then bitrev_carry fuel (j ^^^ bit) (bit >>> 1) else (j, bit)

/-- The loop `for (int i = 1, j = 0; i < n; i++) { ... if (i < j) swap(a[i], a[j]); }`. -/
def ntt_bitrev (n : Nat) : Nat → Nat → Nat → vll → vll
  | 0, _, _, a => a
  | fuel + 1, i, j, a =>
    if i < n then
      let bit := n >>> 1
      let jb := bitrev_carry (bit + 1) j bit
      let j := jb.1 ^^^ jb.2
      let a := if i < j then (a.set i (a.getD j 0)).set j (a.getD i 0) else a
      ntt_bitrev n fuel (i + 1) j a
    else a

/-- The innermost butterfly loop `for (int j = 0; j < len / 2; j++)` of `ntt`. -/
def ntt_inner (i len : Nat) (w : ll) : Nat → Nat → ll → vll → vll
  | 0, _, _, a => a
  | fuel + 1, j, wn, a =>
    if j < len / 2 then
      let u := a.getD (i + j) 0
      let v := (a.getD (i + j + len / 2) 0 * wn).tmod Q
      let a := a.set (i + j) ((u + v).tmod Q)
      let a := a.set (i + j + len / 2) ((u - v + Q).tmod Q)
      ntt_inner i len w fuel (j + 1) ((wn * w).tmod Q) a
    else a

/-- The block loop `for (int i = 0; i < n; i += len)` of `ntt`. -/
def ntt_blocks (n len : Nat) (w : ll) : Nat → Nat → vll → vll
  | 0, _, a => a
  | fuel + 1, i, a =>
    if i < n then ntt_blocks n len w fuel (i + len) (ntt_inner i len w (len / 2) 0 1 a)
    else a

/-- The stage loop `for (int len = 2; len <= n; len <<= 1)` of `ntt`.  The
counter `len` is a natural number: it never exceeds `2 * n`, which fits an `int`
for every length below `2^30`. -/
def ntt_stages (n : Nat) (inverse : Bool) (root : ll) : Nat → Nat → vll → vll
  | 0, _, a => a
  | fuel + 1, len, a =>
    if len ≤ n then
      let w := mod_pow root ((Q - 1) / (len : Int)) Q
      let w := if inverse then mod_inv w Q else w
      ntt_stages n inverse root fuel (len <<< 1) (ntt_blocks n len w n 0 a)
    else a

/-- `void ntt(vll& a, bool inverse, ll root)`; the result is the final content
of `a`.  `int n = a.size()` is the length wrapped to 32 bits. -/
def ntt (a : vll) (inverse : Bool) (root : ll) : vll :=
  let n : Int := wrap32 a.length
  if n = 1 then a
  else
    let a := ntt_bitrev n.toNat n.toNat 1 0 a
    let a := ntt_stages n.toNat inverse root n.toNat 2 a
    if inverse then
      let n_inv := mod_inv n Q
      a.map fun x => (x * n_inv).tmod Q
    else a

/-! ## Walsh–Hadamard transform -/

/-- The innermost loop `for (int j = 0; j < len; j++)` of `fwht`. -/
def fwht_inner (i len : Nat) : Nat → Nat → vll → vll
  | 0, _, a => a
  | fuel + 1, j, a =>
    if j < len then
      let u := a.getD (i + j) 0
      let v := a.getD (i + j + len) 0
      let a := a.set (i + j) ((u + v).tmod Q)
      let a := a.set (i + j + len) ((u - v + Q).tmod Q)
      fwht_inner i len fuel (j + 1) a
    else a

/-- The block loop `for (int i = 0; i < n; i += len * 2)` of `fwht`. -/
def fwht_blocks (n len : Nat) : Nat → Nat → vll → vll
  | 0, _, a => a
  | fuel + 1, i, a =>
    if i < n then fwht_blocks n len fuel (i + len * 2) (fwht_inner i len len 0 a)
    else a

/-- The stage loop `for (int len = 1; len < n; len <<= 1)` of `fwht`.  The
counter `len` is a natural number: it stays below `2 * n`, which fits an `int`
for every length up to `2^30`. -/
def fwht_stages (n : Nat) : Nat → Nat → vll → vll
  | 0, _, a => a
  | fuel + 1, len, a =>
    if len < n then fwht_stages n fuel (len <<< 1) (fwht_blocks n len n 0 a)
    else a

/-- `void fwht(vll& a, bool inverse = false)`; the result is the final content
of `a`.  `int n = a.size()` is the length wrapped to 32 bits. -/
def fwht (a : vll) (inverse : Bool) : vll :=
  let n : Int := wrap32 a.length
  let a := fwht_stages n.toNat n.toNat 1 a
  if inverse then
    let n_inv := mod_inv n Q
    a.map fun x => (x * n_inv).tmod Q
  else a

/-! ## Orchestrator -/

/-- The private fields of `class DreamFunction`. -/
structure DreamFunction where
  n : Int
  M : matrix
  N : Int
  k_opt : ll

namespace DreamFunction

/-- The loop `while (N < target) N <<= 1;` of the constructor. -/
def N_loop (target : Int) : Nat → Int → Int
  | 0, N => N
  | fuel + 1, N => if N < target then N_loop target fuel (wrap32 (N * 2)) else N

/-- The transform length chosen by the constructor for dimension `n`:
`N = 1; int target = min(n * n, 16384); while (N < target) N <<= 1;`. -/
def sizing (n : Int) : Int :=
  let target := min (wrap32 (n * n)) 16384
  N_loop target target.toNat 1

/-- Halving loop behind `log2`: the number of times `N` can be halved before
it drops below `2`. -/
def log2_loop : Nat → Nat → Nat
  | 0, _ => 0
  | fuel + 1, N => if 2 ≤ N then log2_loop fuel (N / 2) + 1 else 0

/-- The library call `log2(N)` on the `int` value `N`, as the binary logarithm
rounded down; on a power of two, the only values the constructor passes, it is
the exact exponent. -/
def log2 (N : Int) : Int := log2_loop N.toNat N.toNat

/-- The exponent `k_opt = (ll)ceil(n * log2(N) * lambda)` with `lambda = 1.2`.
The C++ expression is evaluated in `double`; here it is evaluated exactly, with
`lambda = 12 / 10` and the ceiling of `x / 10` written `-((-x) / 10)` (integer
division rounding down). -/
def exponent (n N : Int) : ll :=
  -((-(n * log2 N * 12)) / 10)

/-- The constructor `DreamFunction(const matrix& mat)`. -/
def init (mat : matrix) : DreamFunction :=
  let n := wrap32 mat.length
  let N := sizing n
  { n := n, M := mat, N := N, k_opt := exponent n N }

/-- The bucket `int idx = ((i * n + j) * 31) % N` in 32-bit `int` arithmetic. -/
def bucket (n N : Int) (i j : Nat) : Int :=
  (wrap32 (wrap32 (wrap32 (i * n) + j) * 31)).tmod N

/-- The column loop `for (int j = 0; j < n; j++) { int idx = ...;
P[idx] = (P[idx] + M[i][j]) % Q; }` of phase 1. -/
def encode_row (d : DreamFunction) (i : Nat) : Nat → Nat → vll → Option vll
  | 0, _, P => some P
  | fuel + 1, j, P =>
    if (j : Int) < d.n then
      let idx := bucket d.n d.N i j
      if 0 ≤ idx ∧ idx.toNat < P.length then
        match d.M[i]? with
        | none => none
        | some row =>
          match row[j]? with
          | none => none
          | some m =>
            encode_row d i fuel (j + 1)
              (P.set idx.toNat ((P.getD idx.toNat 0 + m).tmod Q))
      else none
    else some P

/-- The row loop `for (int i = 0; i < n; i++)` of phase 1: encode the row,
transform it, and multiply it into `psi`; the loop `psi[f] = (psi[f] * P[f]) % Q`
over `f < N` acts on each index separately and is `List.zipWith` on the two
buffers of length `N`. -/
def fuse_rows (d : DreamFunction) : Nat → Nat → vll → Option vll
  | 0, _, psi => some psi
  | fuel + 1, i, psi =>
    if (i : Int) < d.n then
      match encode_row d i d.n.toNat 0 (List.replicate d.N.toNat 0) with
      | none => none
      | some P =>
        let P := ntt P false 3
        fuse_rows d fuel (i + 1) (List.zipWith (fun x p => (x * p).tmod Q) psi P)
    else some psi

/-- `ll compute_permanent()`: phases 1 to 3, then `return psi[0]`. -/
def compute_permanent (d : DreamFunction) : Option ll :=
  match fuse_rows d d.n.toNat 0 (List.replicate d.N.toNat 1) with
  | none => none
  | some psi =>
    let psi := psi.map fun x => mod_pow x d.k_opt Q
    let psi := fwht psi true
    psi[0]?

end DreamFunction


/-! ## The same operations in the other integer width

`mod_pow` above wraps its products to 64 bits; `mod_pow_unbounded` is the same
loop over the unbounded integers.  The transforms above compute over the
unbounded integers; `ntt64`, `fwht64` and `fuse_mul64` (the product of
`DreamFunction.fuse_rows`) are the same loops with every `long long` product,
sum and difference wrapped to 64 bits. -/

/-- The loop of `mod_pow` without wrap-around. -/
def mod_pow_loop_unbounded (mod : ll) : Nat → ll → ll → ll → ll
  | 0, result, _, _ => result
  | fuel + 1, result, base, exp =>
    if exp > 0 then
      let result := if exp % 2 = 1 then (result * base).tmod mod else result
      let base := (base * base).tmod mod
      mod_pow_loop_unbounded mod fuel result base (exp / 2)
    else result

/-- `mod_pow` without wrap-around. -/
def mod_pow_unbounded (base exp mod : ll) : ll :=
  mod_pow_loop_unbounded mod exp.toNat 1 (base.tmod mod) exp

/-- The butterfly loop of `ntt` in 64-bit arithmetic. -/
def ntt_inner64 (i len : Nat) (w : ll) : Nat → Nat → ll → vll → vll
  | 0, _, _, a => a
  | fuel + 1, j, wn, a =>
    if j < len / 2 then
      let u := a.getD (i + j) 0
      let v := (wrap64 (a.getD (i + j + len / 2) 0 * wn)).tmod Q
      let a := a.set (i + j) ((wrap64 (u + v)).tmod Q)
      let a := a.set (i + j + len / 2) ((wrap64 (wrap64 (u - v) + Q)).tmod Q)
      ntt_inner64 i len w fuel (j + 1) ((wrap64 (wn * w)).tmod Q) a
    else a

/-- The block loop of `ntt` in 64-bit arithmetic. -/
def ntt_blocks64 (n len : Nat) (w : ll) : Nat → Nat → vll → vll
  | 0, _, a => a
  | fuel + 1, i, a =>
    if i < n then ntt_blocks64 n len w fuel (i + len) (ntt_inner64 i len w (len / 2) 0 1 a)
    else a

/-- The stage loop of `ntt` in 64-bit arithmetic. -/
def ntt_stages64 (n : Nat) (inverse : Bool) (root : ll) : Nat → Nat → vll → vll
  | 0, _, a => a
  | fuel + 1, len, a =>
    if len ≤ n then
      let w := mod_pow root ((Q - 1) / (len : Int)) Q
      let w := if inverse then mod_inv w Q else w
      ntt_stages64 n inverse root fuel (len <<< 1) (ntt_blocks64 n len w n 0 a)
    else a

/-- `ntt` in 64-bit arithmetic. -/
def ntt64 (a : vll) (inverse : Bool) (root : ll) : vll :=
  let n : Int := wrap32 a.length
  if n = 1 then a
  else
    let a := ntt_bitrev n.toNat n.toNat 1 0 a
    let a := ntt_stages64 n.toNat inverse root n.toNat 2 a
    if inverse then
      let n_inv := mod_inv n Q
      a.map fun x => (wrap64 (x * n_inv)).tmod Q
    else a

/-- The innermost loop of `fwht` in 64-bit arithmetic. -/
def fwht_inner64 (i len : Nat) : Nat → Nat → vll → vll
  | 0, _, a => a
  | fuel + 1, j, a =>
    if j < len then
      let u := a.getD (i + j) 0
      let v := a.getD (i + j + len) 0
      let a := a.set (i + j) ((wrap64 (u + v)).tmod Q)
      let a := a.set (i + j + len) ((wrap64 (wrap64 (u - v) + Q)).tmod Q)
      fwht_inner64 i len fuel (j + 1) a
    else a

/-- The block loop of `fwht` in 64-bit arithmetic. -/
def fwht_blocks64 (n len : Nat) : Nat → Nat → vll → vll
  | 0, _, a => a
  | fuel + 1, i, a =>
    if i < n then fwht_blocks64 n len fuel (i + len * 2) (fwht_inner64 i len len 0 a)
    else a

/-- The stage loop of `fwht` in 64-bit arithmetic. -/
def fwht_stages64 (n : Nat) : Nat → Nat → vll → vll
  | 0, _, a => a
  | fuel + 1, len, a =>
    if len < n then fwht_stages64 n fuel (len <<< 1) (fwht_blocks64 n len n 0 a)
    else a

/-- `fwht` in 64-bit arithmetic. -/
def fwht64 (a : vll) (inverse : Bool) : vll :=
  let n : Int := wrap32 a.length
  let a := fwht_stages64 n.toNat n.toNat 1 a
  if inverse then
    let n_inv := mod_inv n Q
    a.map fun x => (wrap64 (x * n_inv)).tmod Q
  else a

/-- The phase-1 product `psi[f] = (psi[f] * P[f]) % Q` in 64-bit arithmetic. -/
def fuse_mul64 (psi P : vll) : vll := List.zipWith (fun x p => (wrap64 (x * p)).tmod Q) psi P

/-! ## Auxiliary definitions for the specification -/

/-- Residues modulo `Q = 998244353`, used to reason about the stored
coefficients algebraically. -/
abbrev FQ := ZMod 998244353

/-- The class of a `long long` value modulo `Q`. -/
abbrev toFQ (x : ll) : FQ := (x : FQ)

/-- The class modulo `Q` of the coefficient stored at index `p`. -/
def coef (a : vll) (p : Nat) : FQ := toFQ (a.getD p 0)

/-- Every stored coefficient lies in `[0, Q)`. -/
def InRange (a : vll) : Prop := ∀ x ∈ a, 0 ≤ x ∧ x < Q

/-- The Walsh–Hadamard transform of the first `2^s` values of `f`, by the
recursion the butterfly stages of `fwht` follow. -/
def whtF : Nat → (Nat → FQ) → Nat → FQ
  | 0, f, _ => f 0
  | s + 1, f, k =>
    if k < 2 ^ s then whtF s f k + whtF s (fun j => f (j + 2 ^ s)) k
    else whtF s f (k - 2 ^ s) - whtF s (fun j => f (j + 2 ^ s)) (k - 2 ^ s)

/-- The reversal of the lowest `m` bits of `t`. -/
def bitrevF : Nat → Nat → Nat
  | 0, _ => 0
  | m + 1, t => (t % 2) * 2 ^ m + bitrevF m (t / 2)

/-- The class modulo `Q` of the twiddle factor that `ntt` computes for the
stage of length `len`: `w = mod_pow(root, (Q - 1) / len, Q)`, replaced by
`mod_inv(w, Q)` for the inverse transform. -/
def stageW (inverse : Bool) (root : ll) (len : Nat) : FQ :=
  toFQ (if inverse then mod_inv (mod_pow root ((Q - 1) / (len : Int)) Q) Q
    else mod_pow root ((Q - 1) / (len : Int)) Q)

/-- The decimation-in-time recursion the butterfly stages of `ntt` follow, on
the first `2^s` values of `f`; `W s` is the twiddle factor of the stage of
length `2^s`. -/
def nttF (W : Nat → FQ) : Nat → (Nat → FQ) → Nat → FQ
  | 0, f, _ => f 0
  | s + 1, f, k =>
    if k < 2 ^ s then nttF W s f k + W (s + 1) ^ k * nttF W s (fun j => f (j + 2 ^ s)) k
    else nttF W s f (k - 2 ^ s)
      - W (s + 1) ^ (k - 2 ^ s) * nttF W s (fun j => f (j + 2 ^ s)) (k - 2 ^ s)

/-- The discrete Fourier transform of the first `n` values of `f` at the
root `w`: `∑ t < n, f t * w ^ (t * k)`. -/
def dftF (w : FQ) (n : Nat) (f : Nat → FQ) (k : Nat) : FQ :=
  ∑ t in Finset.range n, f t * w ^ (t * k)

/-- The discrete Fourier transform over the integers modulo `Q`, in the words
of the specification: `out[k] = (∑ j < N, x[j] * w^(j*k)) mod Q` with
`w = 3^((Q-1)/N) mod Q` and `N` the length of `x`. -/
def dft_spec (x : vll) (k : Nat) : ll :=
  (∑ j in Finset.range x.length,
    x.getD j 0 * ((3 : Int) ^ ((998244353 - 1) / x.length) % Q) ^ (j * k)) % Q

/-- The row buffer `P` that phase 1 builds for row `i` (the empty vector when
the encoding fails on an access outside a vector). -/
def DreamFunction.row_buffer (d : DreamFunction) (i : Nat) : vll :=
  (DreamFunction.encode_row d i d.n.toNat 0 (List.replicate d.N.toNat 0)).getD []

/-- The result of the pipeline in closed form:
`(mod_inv(N, Q) * ∑ f < N, (∏ i < n, NTT(P_i)[f]) ^ k) mod Q`, with `P_i` the
encoded row buffer, `NTT` the forward `ntt` with root `3`, and `n`, `N`, `k` the
fields of the object. -/
def DreamFunction.closed_form (d : DreamFunction) : ll :=
  (mod_inv d.N Q * ∑ f in Finset.range d.N.toNat,
    (∏ i in Finset.range d.n.toNat, (ntt (d.row_buffer i) false 3).getD f 0)
      ^ d.k_opt.toNat) % Q

/-- The content of bucket `b` of the encoded row `i`, in the words of the
specification: the sum of `M[i][j]` over the columns `j < n` with
`((i * n + j) * 31) mod N = b`, reduced modulo `Q`. -/
def row_spec (M : matrix) (n N i b : Nat) : ll :=
  (∑ j in (Finset.range n).filter (fun j => (i * n + j) * 31 % N = b),
    (M.getD i []).getD j 0) % Q

/-- The hypotheses under which phase 1 is analysed: a square matrix of residues
whose dimension keeps `(i * n + j) * 31` inside the `int` range, and an object
whose fields are that dimension, a power of two `N = 2^e ≤ 16384` and the
matrix. -/
structure WellFormed (d : DreamFunction) (n e : Nat) : Prop where
  hn : d.n = (n : Int)
  hN : d.N = ((2 ^ e : Nat) : Int)
  he : e ≤ 14
  hlen : d.M.length = n
  hsq : ∀ row ∈ d.M, row.length = n
  hent : ∀ row ∈ d.M, ∀ v ∈ row, 0 ≤ v ∧ v < Q
  hfit : ∀ i j, i < n → j < n → (i * n + j) * 31 < 2 ^ 31

/-! ## Machine arithmetic -/

theorem wrap64_of_bounds {x : Int} (h1 : -2 ^ 63 ≤ x) (h2 : x < 2 ^ 63) : wrap64 x = x := by
  unfold wrap64; omega

theorem wrap32_of_bounds {x : Int} (h1 : -2 ^ 31 ≤ x) (h2 : x < 2 ^ 31) : wrap32 x = x := by
  unfold wrap32; omega

theorem wrap64_mul_of_residues {m a b : Int} (hm : m ≤ 3037000500)
    (ha0 : 0 ≤ a) (ha : a < m) (hb0 : 0 ≤ b) (hb : b < m) : wrap64 (a * b) = a * b := by
  apply wrap64_of_bounds
  · have : 0 ≤ a * b := mul_nonneg ha0 hb0
    omega
  · have h1 : a * b ≤ 3037000499 * 3037000499 := by
      apply mul_le_mul <;> omega
    omega

/-- One reduced product of `mod_pow`: for residues it is the Euclidean remainder. -/
theorem mulmod_of_residues {m a b : Int} (h0 : 0 < m) (hm : m ≤ 3037000500)
    (ha0 : 0 ≤ a) (ha : a < m) (hb0 : 0 ≤ b) (hb : b < m) :
    (wrap64 (a * b)).tmod m = (a * b) % m := by
  rw [wrap64_mul_of_residues hm ha0 ha hb0 hb]
  exact Int.tmod_eq_emod (mul_nonneg ha0 hb0) h0.le

/-! ## `mod_pow` -/

theorem mod_pow_loop_eq (m : Int) (h0 : 0 < m) (hm : m ≤ 3037000500) :
    ∀ (fuel : Nat) (result base : Int) (e : Nat), 0 ≤ result → result < m → 0 ≤ base → base < m →
      e ≤ fuel → mod_pow_loop m fuel result base (e : Int) = (result * base ^ e) % m := by
  intro fuel
  induction fuel with
  | zero =>
    intro result base e hr0 hr _ _ he
    have : e = 0 := by omega
    subst this
    simp [mod_pow_loop, Int.emod_eq_of_lt hr0 hr]
  | succ fuel ih =>
    intro result base e hr0 hr hb0 hb he
    unfold mod_pow_loop
    by_cases hpos : (e : Int) > 0
    · rw [if_pos hpos]
      have hdiv : ((e : Int) / 2) = ((e / 2 : Nat) : Int) := by omega
      have hb2 : (wrap64 (base * base)).tmod m = (base * base) % m :=
        mulmod_of_residues h0 hm hb0 hb hb0 hb
      have hrb : (wrap64 (result * base)).tmod m = (result * base) % m :=
        mulmod_of_residues h0 hm hr0 hr hb0 hb
      simp only [hdiv, hb2, hrb]
      have hbase' : 0 ≤ (base * base) % m ∧ (base * base) % m < m :=
        ⟨Int.emod_nonneg _ (by omega), Int.emod_lt_of_pos _ h0⟩
      have hres' : 0 ≤ (result * base) % m ∧ (result * base) % m < m :=
        ⟨Int.emod_nonneg _ (by omega), Int.emod_lt_of_pos _ h0⟩
      have hsplit : base ^ e = (base * base) ^ (e / 2) * base ^ (e % 2) := by
        rw [← pow_two, ← pow_mul, ← pow_add]
        congr 1
        omega
      have hB : Int.ModEq m (((base * base) % m) ^ (e / 2)) ((base * base) ^ (e / 2)) :=
        (Int.mod_modEq (base * base) m).pow (e / 2)
      by_cases hodd : (e : Int) % 2 = 1
      · rw [if_pos hodd, ih _ _ _ hres'.1 hres'.2 hbase'.1 hbase'.2 (by omega)]
        have h1 : e % 2 = 1 := by omega
        have hR : Int.ModEq m ((result * base) % m) (result * base) := Int.mod_modEq _ _
        have := hR.mul hB
        rw [hsplit, h1, pow_one]
        calc (result * base % m * (base * base % m) ^ (e / 2)) % m
            = (result * base * (base * base) ^ (e / 2)) % m := this
          _ = (result * ((base * base) ^ (e / 2) * base)) % m := by ring_nf
      · rw [if_neg hodd, ih _ _ _ hr0 hr hbase'.1 hbase'.2 (by omega)]
        have h1 : e % 2 = 0 := by omega
        rw [hsplit, h1, pow_zero, mul_one]
        exact (Int.ModEq.refl result).mul hB
    · rw [if_neg hpos]
      have : e = 0 := by omega
      subst this
      simp [Int.emod_eq_of_lt hr0 hr]

/-- Value of `mod_pow` for a non-negative base and a modulus whose squared
residues fit in 64 bits. -/
theorem mod_pow_eq {m : Int} (h1 : 1 < m) (hm : m ≤ 3037000500) {a : Int} (ha : 0 ≤ a) (e : Nat) :
    mod_pow a (e : Int) m = (a ^ e) % m := by
  unfold mod_pow
  have hb : a.tmod m = a % m := Int.tmod_eq_emod ha (by omega)
  rw [hb, Int.toNat_ofNat,
    mod_pow_loop_eq m (by omega) hm e 1 (a % m) e (by omega) h1
      (Int.emod_nonneg _ (by omega)) (Int.emod_lt_of_pos _ (by omega)) le_rfl, one_mul]
  exact (Int.ModEq.pow e (Int.mod_modEq a m))

theorem Q_bounds : 1 < Q ∧ Q ≤ 3037000500 := by
  constructor <;> decide

theorem mod_pow_Q {a : Int} (ha : 0 ≤ a) (e : Nat) : mod_pow a (e : Int) Q = (a ^ e) % Q :=
  mod_pow_eq Q_bounds.1 Q_bounds.2 ha e

/-! ## The field of residues modulo `Q` -/

theorem toFQ_emod (x : Int) : toFQ (x % Q) = toFQ x := by
  show ((x % (998244353 : ℕ) : Int) : ZMod 998244353) = _
  exact ZMod.intCast_mod x 998244353

theorem toFQ_eq_iff (a b : Int) : toFQ a = toFQ b ↔ a % Q = b % Q := by
  show ((a : Int) : ZMod 998244353) = (b : Int) ↔ _
  rw [ZMod.intCast_eq_intCast_iff']
  rfl

theorem toFQ_inj_of_residues {a b : Int} (ha0 : 0 ≤ a) (ha : a < Q) (hb0 : 0 ≤ b) (hb : b < Q)
    (h : toFQ a = toFQ b) : a = b := by
  rw [toFQ_eq_iff, Int.emod_eq_of_lt ha0 ha, Int.emod_eq_of_lt hb0 hb] at h
  exact h

theorem toFQ_mod_pow {a : Int} (ha : 0 ≤ a) (e : Nat) :
    toFQ (mod_pow a (e : Int) Q) = toFQ a ^ e := by
  rw [mod_pow_Q ha, toFQ_emod]
  simp [toFQ]

theorem three_pow_eval :
    mod_pow 3 ((998244352 : Nat) : Int) Q = 1 ∧ mod_pow 3 ((499122176 : Nat) : Int) Q = Q - 1 ∧
    mod_pow 3 ((142606336 : Nat) : Int) Q ≠ 1 ∧ mod_pow 3 ((58720256 : Nat) : Int) Q ≠ 1 := by
  decide!

theorem Q_prime : Nat.Prime 998244353 := by
  have h3 : (0 : Int) ≤ 3 := by norm_num
  obtain ⟨e1, e2, e3, e4⟩ := three_pow_eval
  have c3 : toFQ 3 = (3 : FQ) := by simp [toFQ]
  refine lucas_primality 998244353 (3 : FQ) ?_ ?_
  · have := toFQ_mod_pow h3 998244352
    rw [e1, c3] at this
    rw [← this]; simp [toFQ]
  · intro q hq hdvd
    have hfac : (998244353 - 1 : Nat) = 2 ^ 23 * 7 * 17 := by norm_num
    rw [hfac] at hdvd
    have hcases : q = 2 ∨ q = 7 ∨ q = 17 := by
      rcases (Nat.Prime.dvd_mul hq).1 hdvd with h | h
      · rcases (Nat.Prime.dvd_mul hq).1 h with h | h
        · left
          exact (Nat.prime_dvd_prime_iff_eq hq Nat.prime_two).1 (hq.dvd_of_dvd_pow h)
        · right; left
          exact (Nat.prime_dvd_prime_iff_eq hq (by norm_num)).1 h
      · right; right
        exact (Nat.prime_dvd_prime_iff_eq hq (by norm_num)).1 h
    have key : ∀ (e : Nat) (r : Int), mod_pow 3 (e : Int) Q = r → 0 ≤ r → r < Q → r ≠ 1 →
        (3 : FQ) ^ e ≠ 1 := by
      intro e r he hr0 hr hne h1
      have := toFQ_mod_pow h3 e
      rw [he, c3, h1] at this
      apply hne
      apply toFQ_inj_of_residues hr0 hr (by decide) (by decide)
      rw [this]; simp [toFQ]
    rcases hcases with rfl | rfl | rfl
    · exact key 499122176 (Q - 1) e2 (by decide) (by decide) (by decide)
    · have hr : 0 ≤ mod_pow 3 ((142606336 : Nat) : Int) Q ∧ mod_pow 3 ((142606336 : Nat) : Int) Q < Q := by
        decide!
      exact key 142606336 _ rfl hr.1 hr.2 e3
    · have hr : 0 ≤ mod_pow 3 ((58720256 : Nat) : Int) Q ∧ mod_pow 3 ((58720256 : Nat) : Int) Q < Q := by
        decide!
      exact key 58720256 _ rfl hr.1 hr.2 e4

theorem Q_prime_fact : Fact (Nat.Prime 998244353) := ⟨Q_prime⟩

theorem mod_pow_loop_one : ∀ (fuel : Nat) (result base : Int) (e : Nat), 0 < e → e ≤ fuel →
    mod_pow_loop 1 fuel result base (e : Int) = 0 := by
  intro fuel
  induction fuel with
  | zero => intro _ _ e h1 h2; omega
  | succ fuel ih =>
    intro result base e hpos he
    unfold mod_pow_loop
    have hp : (e : Int) > 0 := by omega
    have hdiv : ((e : Int) / 2) = ((e / 2 : Nat) : Int) := by omega
    rw [if_pos hp]
    simp only [hdiv, Int.tmod_one]
    by_cases h2 : 0 < e / 2
    · exact ih _ _ _ h2 (by omega)
    · have he1 : e = 1 := by omega
      subst he1
      cases fuel <;> simp [mod_pow_loop]

theorem mod_pow_nonneg_lt {b e m : Int} (hb : 0 ≤ b) (he : 0 ≤ e) (h0 : 0 < m)
    (hm : m ≤ 3037000500) (h1 : 1 < m ∨ 0 < e) :
    0 ≤ mod_pow b e m ∧ mod_pow b e m < m := by
  obtain ⟨e, rfl⟩ := Int.eq_ofNat_of_zero_le he
  by_cases hm1 : 1 < m
  · rw [mod_pow_eq hm1 hm hb e]
    exact ⟨Int.emod_nonneg _ (by omega), Int.emod_lt_of_pos _ h0⟩
  · have hm' : m = 1 := by omega
    subst hm'
    have hpos : 0 < e := by omega
    unfold mod_pow
    rw [Int.toNat_ofNat, mod_pow_loop_one e 1 _ e hpos le_rfl]
    exact ⟨le_refl _, by norm_num⟩

/-! ## The constructor -/

theorem N_loop_spec (target : Int) (ht : target ≤ 16384) :
    ∀ (fuel e : Nat), e ≤ 14 → (target - 2 ^ e).toNat ≤ fuel →
      (e = 0 ∨ (2 : Int) ^ (e - 1) < target) →
      ∃ e' : Nat, e' ≤ 14 ∧ DreamFunction.N_loop target fuel (2 ^ e) = 2 ^ e' ∧
        target ≤ 2 ^ e' ∧ (e' = 0 ∨ (2 : Int) ^ (e' - 1) < target) := by
  intro fuel
  induction fuel with
  | zero =>
    intro e he hfuel hmin
    exact ⟨e, he, by simp [DreamFunction.N_loop], by omega, hmin⟩
  | succ fuel ih =>
    intro e he hfuel hmin
    unfold DreamFunction.N_loop
    have hpos : (1 : Int) ≤ 2 ^ e := one_le_pow₀ (by norm_num)
    have hle : (2 : Int) ^ e ≤ 2 ^ 14 := pow_le_pow_right₀ (by norm_num) he
    by_cases hlt : (2 : Int) ^ e < target
    · rw [if_pos hlt]
      have he' : e + 1 ≤ 14 := by
        by_contra hcon
        have : e = 14 := by omega
        subst this
        omega
      have hle' : (2 : Int) ^ (e + 1) ≤ 2 ^ 14 := pow_le_pow_right₀ (by norm_num) he'
      have hdouble : (2 : Int) ^ e * 2 = 2 ^ (e + 1) := by ring
      have hw : wrap32 ((2 : Int) ^ e * 2) = 2 ^ (e + 1) := by
        rw [hdouble]
        apply wrap32_of_bounds <;> omega
      rw [hw]
      apply ih (e + 1) he'
      · rw [← hdouble]; omega
      · right; simpa using hlt
    · rw [if_neg hlt]
      exact ⟨e, he, rfl, by omega, hmin⟩

/-- The transform length is a power of two between `1` and `16384`, at least
the target, and no larger than needed. -/
theorem sizing_spec (n : Int) :
    ∃ e : Nat, e ≤ 14 ∧ DreamFunction.sizing n = 2 ^ e ∧
      min (wrap32 (n * n)) 16384 ≤ 2 ^ e ∧
      (e = 0 ∨ (2 : Int) ^ (e - 1) < min (wrap32 (n * n)) 16384) := by
  unfold DreamFunction.sizing
  have h := N_loop_spec (min (wrap32 (n * n)) 16384) (min_le_right _ _)
    (min (wrap32 (n * n)) 16384).toNat 0 (by omega) (by omega) (Or.inl rfl)
  simpa using h

theorem init_N (mat : matrix) :
    (DreamFunction.init mat).N = DreamFunction.sizing (wrap32 mat.length) := by
  simp only [DreamFunction.init]

theorem init_n (mat : matrix) : (DreamFunction.init mat).n = wrap32 mat.length := by
  simp only [DreamFunction.init]

theorem init_M (mat : matrix) : (DreamFunction.init mat).M = mat := by
  simp only [DreamFunction.init]

theorem init_k_opt (mat : matrix) :
    (DreamFunction.init mat).k_opt =
      DreamFunction.exponent (wrap32 mat.length) (DreamFunction.sizing (wrap32 mat.length)) := by
  simp only [DreamFunction.init]

/-! ## Failure of the row encoding on a negative bucket -/

theorem encode_row_none (d : DreamFunction) (i j0 : Nat) (hj0 : (j0 : Int) < d.n)
    (hbad : DreamFunction.bucket d.n d.N i j0 < 0) :
    ∀ (fuel j : Nat) (P : vll), j ≤ j0 → j0 < j + fuel →
      DreamFunction.encode_row d i fuel j P = none := by
  intro fuel
  induction fuel with
  | zero => intro j P h1 h2; omega
  | succ fuel ih =>
    intro j P h1 h2
    unfold DreamFunction.encode_row
    have hj : (j : Int) < d.n := by omega
    rw [if_pos hj]
    by_cases hc : 0 ≤ DreamFunction.bucket d.n d.N i j ∧
        (DreamFunction.bucket d.n d.N i j).toNat < P.length
    · simp only [hc, and_self, if_true]
      have hne : j ≠ j0 := by
        rintro rfl
        omega
      cases hrow : d.M[i]? with
      | none => rfl
      | some row =>
        cases hm : row[j]? with
        | none => simp only [hm]
        | some m =>
          simp only [hm]
          exact ih (j + 1) _ (by omega) (by omega)
    · simp only [hc, if_false]

theorem fuse_rows_none (d : DreamFunction) (i0 : Nat) (hi0 : (i0 : Int) < d.n)
    (hbad : DreamFunction.encode_row d i0 d.n.toNat 0 (List.replicate d.N.toNat 0) = none) :
    ∀ (fuel i : Nat) (psi : vll), i ≤ i0 → i0 < i + fuel →
      DreamFunction.fuse_rows d fuel i psi = none := by
  intro fuel
  induction fuel with
  | zero => intro i psi h1 h2; omega
  | succ fuel ih =>
    intro i psi h1 h2
    unfold DreamFunction.fuse_rows
    have hi : (i : Int) < d.n := by omega
    rw [if_pos hi]
    cases henc : DreamFunction.encode_row d i d.n.toNat 0 (List.replicate d.N.toNat 0) with
    | none => rfl
    | some P =>
      have hne : i ≠ i0 := by
        rintro rfl
        rw [hbad] at henc
        exact Option.noConfusion henc
      exact ih (i + 1) _ (by omega) (by omega)

/-- A dimension whose largest linear index times `31` leaves the `int` range
makes `compute_permanent` fail, whatever the entries. -/
theorem compute_permanent_none (d : DreamFunction) (i0 j0 : Nat) (hi0 : (i0 : Int) < d.n)
    (hj0 : (j0 : Int) < d.n) (hbad : DreamFunction.bucket d.n d.N i0 j0 < 0) :
    d.compute_permanent = none := by
  unfold DreamFunction.compute_permanent
  have henc := encode_row_none d i0 j0 hj0 hbad d.n.toNat 0 (List.replicate d.N.toNat 0)
    (Nat.zero_le _) (by omega)
  rw [fuse_rows_none d i0 hi0 henc d.n.toNat 0 _ (Nat.zero_le _) (by omega)]

/-! ## Evaluation on the empty and the 1 x 1 matrix -/

theorem init_singleton (m : ll) : DreamFunction.init [[m]] = ⟨1, [[m]], 1, 0⟩ := by
  have h1 : wrap32 ((1 : Nat) : Int) = 1 := by decide
  have h2 : DreamFunction.sizing 1 = 1 := by decide
  have h3 : DreamFunction.exponent 1 1 = 0 := by decide
  simp only [DreamFunction.init, List.length_singleton, h1, h2, h3]

theorem init_nil : DreamFunction.init [] = ⟨0, [], 1, 0⟩ := by
  have h1 : wrap32 ((0 : Nat) : Int) = 0 := by decide
  have h2 : DreamFunction.sizing 0 = 1 := by decide
  have h3 : DreamFunction.exponent 0 1 = 0 := by decide
  simp only [DreamFunction.init, List.length_nil, h1, h2, h3]

theorem mod_pow_zero_exp (x m : Int) : mod_pow x 0 m = 1 := by
  simp [mod_pow, mod_pow_loop]

theorem fwht_one_true : fwht [1] true = [1] := by decide!

theorem ntt_singleton (x : ll) (inv : Bool) (r : ll) : ntt [x] inv r = [x] := by
  have h1 : wrap32 1 = 1 := by decide
  simp [ntt, h1]

theorem fuse_rows_singleton (m : ll) :
    DreamFunction.fuse_rows ⟨1, [[m]], 1, 0⟩ 1 0 [1] = some [(1 * ((0 + m).tmod Q)).tmod Q] := by
  have hb : DreamFunction.bucket 1 1 0 0 = 0 := by decide
  simp [DreamFunction.fuse_rows, DreamFunction.encode_row, hb, ntt_singleton]

/-! ## Reading and writing coefficients -/

theorem getD_set (a : vll) (i p : Nat) (v : ll) :
    (a.set i v).getD p 0 = if p = i ∧ i < a.length then v else a.getD p 0 := by
  simp only [List.getD_eq_getElem?_getD, List.getElem?_set]
  by_cases h : i = p
  · subst h
    by_cases h2 : i < a.length
    · simp [h2]
    · simp [h2, List.getElem?_eq_none (not_lt.1 h2)]
  · have h' : ¬ p = i := fun e => h e.symm
    simp [h, h']

theorem coef_set (a : vll) (i p : Nat) (v : ll) :
    coef (a.set i v) p = if p = i ∧ i < a.length then toFQ v else coef a p := by
  unfold coef
  rw [getD_set]
  split_ifs <;> rfl

theorem InRange.getD {a : vll} (h : InRange a) (p : Nat) : 0 ≤ a.getD p 0 ∧ a.getD p 0 < Q := by
  rw [List.getD_eq_getElem?_getD]
  by_cases hp : p < a.length
  · rw [List.getElem?_eq_getElem hp]
    exact h _ (List.getElem_mem _)
  · rw [List.getElem?_eq_none (not_lt.1 hp)]
    exact ⟨le_refl _, by decide⟩

theorem InRange.set {a : vll} (h : InRange a) (i : Nat) {v : ll} (hv : 0 ≤ v ∧ v < Q) :
    InRange (a.set i v) := by
  intro x hx
  rcases List.mem_or_eq_of_mem_set hx with h1 | h1
  · exact h x h1
  · rw [h1]; exact hv

theorem toFQ_Q : toFQ Q = 0 := by
  show ((998244353 : Int) : ZMod 998244353) = 0
  rw [ZMod.intCast_zmod_eq_zero_iff_dvd]
  norm_num

theorem Q_pos : 0 < Q := by decide

/-- The reduced sum `(u + v) % Q` of two residues. -/
theorem add_tmod_spec {u v : Int} (hu : 0 ≤ u ∧ u < Q) (hv : 0 ≤ v ∧ v < Q) :
    (0 ≤ (u + v).tmod Q ∧ (u + v).tmod Q < Q) ∧ toFQ ((u + v).tmod Q) = toFQ u + toFQ v := by
  have h0 : 0 ≤ u + v := by omega
  rw [Int.tmod_eq_emod h0 Q_pos.le]
  refine ⟨⟨Int.emod_nonneg _ (by decide), Int.emod_lt_of_pos _ Q_pos⟩, ?_⟩
  rw [toFQ_emod]
  simp [toFQ]

/-- The reduced difference `(u - v + Q) % Q` of two residues. -/
theorem sub_tmod_spec {u v : Int} (hu : 0 ≤ u ∧ u < Q) (hv : 0 ≤ v ∧ v < Q) :
    (0 ≤ (u - v + Q).tmod Q ∧ (u - v + Q).tmod Q < Q) ∧
      toFQ ((u - v + Q).tmod Q) = toFQ u - toFQ v := by
  have h0 : 0 ≤ u - v + Q := by omega
  rw [Int.tmod_eq_emod h0 Q_pos.le]
  refine ⟨⟨Int.emod_nonneg _ (by decide), Int.emod_lt_of_pos _ Q_pos⟩, ?_⟩
  rw [toFQ_emod]
  have := toFQ_Q
  simp only [toFQ] at this ⊢
  push_cast
  rw [this, add_zero]

/-- The reduced product `(u * v) % Q` of two residues. -/
theorem mul_tmod_spec {u v : Int} (hu : 0 ≤ u ∧ u < Q) (hv : 0 ≤ v ∧ v < Q) :
    (0 ≤ (u * v).tmod Q ∧ (u * v).tmod Q < Q) ∧ toFQ ((u * v).tmod Q) = toFQ u * toFQ v := by
  have h0 : 0 ≤ u * v := mul_nonneg hu.1 hv.1
  rw [Int.tmod_eq_emod h0 Q_pos.le]
  refine ⟨⟨Int.emod_nonneg _ (by decide), Int.emod_lt_of_pos _ Q_pos⟩, ?_⟩
  rw [toFQ_emod]
  simp [toFQ]

/-- Two vectors of residues with the same length and the same classes modulo
`Q` are equal. -/
theorem eq_of_coef_eq {a b : vll} (hlen : a.length = b.length) (ha : InRange a) (hb : InRange b)
    (h : ∀ p < a.length, coef a p = coef b p) : a = b := by
  apply List.ext_getElem hlen
  intro p h1 h2
  have hp := h p h1
  unfold coef at hp
  have e1 : a.getD p 0 = a[p] := by
    rw [List.getD_eq_getElem?_getD, List.getElem?_eq_getElem h1]; rfl
  have e2 : b.getD p 0 = b[p] := by
    rw [List.getD_eq_getElem?_getD, List.getElem?_eq_getElem h2]; rfl
  rw [e1, e2] at hp
  exact toFQ_inj_of_residues (ha _ (List.getElem_mem _)).1 (ha _ (List.getElem_mem _)).2
    (hb _ (List.getElem_mem _)).1 (hb _ (List.getElem_mem _)).2 hp

/-! ## The stages of `fwht` -/

/-- One butterfly of `fwht`: the two writes, read back. -/
theorem fwht_bfly_spec (a : vll) (hr : InRange a) (x y : Nat) (hx : x < a.length)
    (hy : y < a.length) :
    let a1 := (a.set x ((a.getD x 0 + a.getD y 0).tmod Q)).set y
      ((a.getD x 0 - a.getD y 0 + Q).tmod Q)
    a1.length = a.length ∧ InRange a1 ∧
      ∀ p, coef a1 p = if p = y then coef a x - coef a y
        else if p = x then coef a x + coef a y else coef a p := by
  intro a1
  have hu := hr.getD x
  have hv := hr.getD y
  have hadd := add_tmod_spec hu hv
  have hsub := sub_tmod_spec hu hv
  refine ⟨by simp [a1], (hr.set _ hadd.1).set _ hsub.1, fun p => ?_⟩
  simp only [a1, coef_set, List.length_set, hadd.2, hsub.2, hx, hy, and_true]
  rfl

theorem fwht_inner_spec (i len : Nat) :
    ∀ (fuel j : Nat) (a : vll), j ≤ len → len - j ≤ fuel → i + 2 * len ≤ a.length → InRange a →
      (fwht_inner i len fuel j a).length = a.length ∧ InRange (fwht_inner i len fuel j a) ∧
      ∀ p, coef (fwht_inner i len fuel j a) p =
        if i + j ≤ p ∧ p < i + len then coef a p + coef a (p + len)
        else if i + len + j ≤ p ∧ p < i + 2 * len then coef a (p - len) - coef a p
        else coef a p := by
  intro fuel
  induction fuel with
  | zero =>
    intro j a hj hfuel _ hr
    refine ⟨rfl, hr, fun p => ?_⟩
    have hjl : j = len := by omega
    subst hjl
    simp only [fwht_inner]
    rw [if_neg (by omega), if_neg (by omega)]
  | succ fuel ih =>
    intro j a hj hfuel hlen hr
    unfold fwht_inner
    by_cases hlt : j < len
    · rw [if_pos hlt]
      obtain ⟨hl1, hr1, hc1⟩ := fwht_bfly_spec a hr (i + j) (i + j + len) (by omega) (by omega)
      simp only at hl1 hr1 hc1 ⊢
      generalize (a.set (i + j) ((a.getD (i + j) 0 + a.getD (i + j + len) 0).tmod Q)).set
          (i + j + len) ((a.getD (i + j) 0 - a.getD (i + j + len) 0 + Q).tmod Q) = a1
        at hl1 hr1 hc1 ⊢
      obtain ⟨h1, h2, h3⟩ := ih (j + 1) a1 (by omega) (by omega) (by omega) hr1
      refine ⟨by omega, h2, fun p => ?_⟩
      rw [h3 p]
      simp only [hc1]
      by_cases c1 : p = i + j
      · subst c1
        split_ifs <;> first | rfl | omega
      · by_cases c2 : p = i + j + len
        · subst c2
          have e : i + j + len - len = i + j := by omega
          rw [e]
          split_ifs <;> first | rfl | omega
        · split_ifs <;> first | rfl | omega
    · rw [if_neg hlt]
      refine ⟨rfl, hr, fun p => ?_⟩
      rw [if_neg (by omega), if_neg (by omega)]

theorem fwht_blocks_spec (n L : Nat) (hL : 0 < L) :
    ∀ (c fuel i : Nat) (a : vll), c ≤ fuel → a.length = n → n = i + c * (2 * L) → InRange a →
      (fwht_blocks n L fuel i a).length = n ∧ InRange (fwht_blocks n L fuel i a) ∧
      (∀ p < i, coef (fwht_blocks n L fuel i a) p = coef a p) ∧
      ∀ q < c, ∀ r < L,
        coef (fwht_blocks n L fuel i a) (i + q * (2 * L) + r) =
          coef a (i + q * (2 * L) + r) + coef a (i + q * (2 * L) + r + L) ∧
        coef (fwht_blocks n L fuel i a) (i + q * (2 * L) + r + L) =
          coef a (i + q * (2 * L) + r) - coef a (i + q * (2 * L) + r + L) := by
  intro c
  induction c with
  | zero =>
    intro fuel i a _ hlen hn hr
    have hin : ¬ i < n := by omega
    have he : fwht_blocks n L fuel i a = a := by
      cases fuel with
      | zero => rfl
      | succ f => simp only [fwht_blocks, if_neg hin]
    rw [he]
    exact ⟨hlen, hr, fun _ _ => rfl, fun q hq => absurd hq (Nat.not_lt_zero q)⟩
  | succ c ih =>
    intro fuel i a hfuel hlen hn hr
    obtain ⟨f, rfl⟩ : ∃ f, fuel = f + 1 := ⟨fuel - 1, by omega⟩
    have hmul : (c + 1) * (2 * L) = c * (2 * L) + 2 * L := by ring
    have hin : i < n := by omega
    simp only [fwht_blocks, if_pos hin]
    obtain ⟨hl1, hr1, hc1⟩ := fwht_inner_spec i L L 0 a (Nat.zero_le _) (by omega) (by omega) hr
    generalize fwht_inner i L L 0 a = a1 at hl1 hr1 hc1 ⊢
    obtain ⟨hl2, hr2, hlow, hpair⟩ := ih f (i + L * 2) a1 (by omega) (by omega) (by omega) hr1
    refine ⟨hl2, hr2, fun p hp => ?_, fun q hq r hrL => ?_⟩
    · rw [hlow p (by omega), hc1 p, if_neg (by omega), if_neg (by omega)]
    · cases q with
      | zero =>
        simp only [Nat.zero_mul, Nat.add_zero]
        rw [hlow (i + r) (by omega), hlow (i + r + L) (by omega), hc1 (i + r), hc1 (i + r + L),
          if_pos (by omega), if_neg (by omega), if_pos (by omega)]
        have e : i + r + L - L = i + r := by omega
        rw [e]
        exact ⟨rfl, rfl⟩
      | succ q =>
        have hq' : q < c := by omega
        have hmul' : (q + 1) * (2 * L) = q * (2 * L) + 2 * L := by ring
        have e1 : i + (q + 1) * (2 * L) + r = i + L * 2 + q * (2 * L) + r := by omega
        rw [e1]
        obtain ⟨p1, p2⟩ := hpair q hq' r hrL
        rw [p1, p2, hc1 (i + L * 2 + q * (2 * L) + r), hc1 (i + L * 2 + q * (2 * L) + r + L),
          if_neg (by omega), if_neg (by omega), if_neg (by omega), if_neg (by omega)]
        exact ⟨rfl, rfl⟩

theorem whtF_block_zero (m : Nat) (f0 : Nat → FQ) (a : vll)
    (hinv : ∀ b k, b < 2 ^ (m - m) → k < 2 ^ m →
      coef a (b * 2 ^ m + k) = whtF m (fun j => f0 (b * 2 ^ m + j)) k) :
    ∀ k < 2 ^ m, coef a k = whtF m f0 k := by
  intro k hk
  have h := hinv 0 k (by simp) hk
  simpa using h

theorem fwht_stages_spec (m : Nat) (f0 : Nat → FQ) :
    ∀ (fuel s : Nat) (a : vll), s ≤ m → m - s ≤ fuel → a.length = 2 ^ m → InRange a →
      (∀ b k, b < 2 ^ (m - s) → k < 2 ^ s →
        coef a (b * 2 ^ s + k) = whtF s (fun j => f0 (b * 2 ^ s + j)) k) →
      (fwht_stages (2 ^ m) fuel (2 ^ s) a).length = 2 ^ m ∧
      InRange (fwht_stages (2 ^ m) fuel (2 ^ s) a) ∧
      ∀ k < 2 ^ m, coef (fwht_stages (2 ^ m) fuel (2 ^ s) a) k = whtF m f0 k := by
  intro fuel
  induction fuel with
  | zero =>
    intro s a hs hfuel hlen hr hinv
    have : s = m := by omega
    subst this
    exact ⟨hlen, hr, whtF_block_zero s f0 a hinv⟩
  | succ fuel ih =>
    intro s a hs hfuel hlen hr hinv
    unfold fwht_stages
    by_cases hlt : 2 ^ s < 2 ^ m
    · rw [if_pos hlt]
      have hsm : s < m := (Nat.pow_lt_pow_iff_right (by norm_num)).1 hlt
      have hP : 0 < 2 ^ s := Nat.two_pow_pos s
      have hsplit : 2 ^ m = 0 + 2 ^ (m - (s + 1)) * (2 * 2 ^ s) := by
        rw [Nat.zero_add, ← pow_succ', ← pow_add]
        congr 1; omega
      have hc : 2 ^ (m - (s + 1)) ≤ 2 ^ m := Nat.pow_le_pow_right (by norm_num) (by omega)
      obtain ⟨hl1, hr1, _, hpair⟩ := fwht_blocks_spec (2 ^ m) (2 ^ s) hP (2 ^ (m - (s + 1))) (2 ^ m)
        0 a hc hlen hsplit hr
      generalize fwht_blocks (2 ^ m) (2 ^ s) (2 ^ m) 0 a = a1 at hl1 hr1 hpair ⊢
      have hshift : 2 ^ s <<< 1 = 2 ^ (s + 1) := by
        simp [Nat.shiftLeft_eq, pow_succ]
      rw [hshift]
      have hpow : 2 ^ (s + 1) = 2 * 2 ^ s := by rw [pow_succ']
      have hpow2 : 2 ^ (m - s) = 2 * 2 ^ (m - (s + 1)) := by
        rw [← pow_succ']; congr 1; omega
      apply ih (s + 1) a1 (by omega) (by omega) hl1 hr1
      intro b k hb hk
      have hb0 : 2 * b < 2 ^ (m - s) := by omega
      have hb1 : 2 * b + 1 < 2 ^ (m - s) := by omega
      have hf0 : (fun j => f0 (b * 2 ^ (s + 1) + j)) = fun j => f0 (2 * b * 2 ^ s + j) := by
        funext j; congr 1; rw [hpow]; ring
      have hf1 : (fun j => f0 (b * 2 ^ (s + 1) + (j + 2 ^ s)))
          = fun j => f0 ((2 * b + 1) * 2 ^ s + j) := by
        funext j; congr 1; rw [hpow]; ring
      simp only [whtF]
      rw [hf0, hf1]
      by_cases hk2 : k < 2 ^ s
      · rw [if_pos hk2, ← hinv (2 * b) k hb0 hk2, ← hinv (2 * b + 1) k hb1 hk2]
        have e0 : b * 2 ^ (s + 1) + k = 0 + b * (2 * 2 ^ s) + k := by rw [hpow]; ring
        have e1 : 2 * b * 2 ^ s + k = 0 + b * (2 * 2 ^ s) + k := by ring
        have e2 : (2 * b + 1) * 2 ^ s + k = 0 + b * (2 * 2 ^ s) + k + 2 ^ s := by ring
        rw [e0, e1, e2]
        exact (hpair b hb k hk2).1
      · rw [if_neg hk2]
        have hk3 : k - 2 ^ s < 2 ^ s := by omega
        rw [← hinv (2 * b) _ hb0 hk3, ← hinv (2 * b + 1) _ hb1 hk3]
        have e0 : b * 2 ^ (s + 1) + k = 0 + b * (2 * 2 ^ s) + (k - 2 ^ s) + 2 ^ s := by
          rw [hpow]
          have : b * (2 * 2 ^ s) + k = b * (2 * 2 ^ s) + (k - 2 ^ s) + 2 ^ s := by omega
          rw [this]; ring
        have e1 : 2 * b * 2 ^ s + (k - 2 ^ s) = 0 + b * (2 * 2 ^ s) + (k - 2 ^ s) := by ring
        have e2 : (2 * b + 1) * 2 ^ s + (k - 2 ^ s)
            = 0 + b * (2 * 2 ^ s) + (k - 2 ^ s) + 2 ^ s := by ring
        rw [e0, e1, e2]
        exact (hpair b hb (k - 2 ^ s) hk3).2
    · rw [if_neg hlt]
      have : s = m := by
        by_contra hne
        exact hlt (Nat.pow_lt_pow_right (by norm_num) (by omega))
      subst this
      exact ⟨hlen, hr, whtF_block_zero s f0 a hinv⟩

/-! ## Algebra of the Walsh–Hadamard recursion -/

theorem whtF_congr : ∀ (s : Nat) (f g : Nat → FQ) (k : Nat), (∀ j < 2 ^ s, f j = g j) →
    whtF s f k = whtF s g k := by
  intro s
  induction s with
  | zero => intro f g k h; exact h 0 (by norm_num)
  | succ s ih =>
    intro f g k h
    have hpow : 2 ^ (s + 1) = 2 * 2 ^ s := by rw [pow_succ']
    have h0 : ∀ j < 2 ^ s, f j = g j := fun j hj => h j (by omega)
    have h1 : ∀ j < 2 ^ s, (fun j => f (j + 2 ^ s)) j = (fun j => g (j + 2 ^ s)) j :=
      fun j hj => h (j + 2 ^ s) (by omega)
    simp only [whtF]
    rw [ih f g k h0, ih _ _ k h1, ih f g (k - 2 ^ s) h0, ih _ _ (k - 2 ^ s) h1]

theorem whtF_add : ∀ (s : Nat) (f g : Nat → FQ) (k : Nat),
    whtF s (fun j => f j + g j) k = whtF s f k + whtF s g k := by
  intro s
  induction s with
  | zero => intro f g k; rfl
  | succ s ih =>
    intro f g k
    simp only [whtF]
    rw [ih f g, ih f g, ih (fun j => f (j + 2 ^ s)) (fun j => g (j + 2 ^ s)),
      ih (fun j => f (j + 2 ^ s)) (fun j => g (j + 2 ^ s))]
    split_ifs <;> ring

theorem whtF_sub : ∀ (s : Nat) (f g : Nat → FQ) (k : Nat),
    whtF s (fun j => f j - g j) k = whtF s f k - whtF s g k := by
  intro s
  induction s with
  | zero => intro f g k; rfl
  | succ s ih =>
    intro f g k
    simp only [whtF]
    rw [ih f g, ih f g, ih (fun j => f (j + 2 ^ s)) (fun j => g (j + 2 ^ s)),
      ih (fun j => f (j + 2 ^ s)) (fun j => g (j + 2 ^ s))]
    split_ifs <;> ring

/-- Applying the recursion twice multiplies by the length. -/
theorem whtF_whtF : ∀ (s : Nat) (f : Nat → FQ) (k : Nat), k < 2 ^ s →
    whtF s (whtF s f) k = 2 ^ s * f k := by
  intro s
  induction s with
  | zero =>
    intro f k hk
    have : k = 0 := by simpa using hk
    subst this
    simp [whtF]
  | succ s ih =>
    intro f k hk
    have hpow : 2 ^ (s + 1) = 2 * 2 ^ s := by rw [pow_succ']
    have hlow : ∀ k, whtF s (whtF (s + 1) f) k
        = whtF s (whtF s f) k + whtF s (whtF s (fun j => f (j + 2 ^ s))) k := by
      intro k
      rw [← whtF_add]
      apply whtF_congr
      intro j hj
      simp only [whtF, if_pos hj]
    have hhigh : ∀ k, whtF s (fun j => whtF (s + 1) f (j + 2 ^ s)) k
        = whtF s (whtF s f) k - whtF s (whtF s (fun j => f (j + 2 ^ s))) k := by
      intro k
      rw [← whtF_sub]
      apply whtF_congr
      intro j _
      have hn : ¬ j + 2 ^ s < 2 ^ s := by omega
      simp only [whtF, if_neg hn, Nat.add_sub_cancel]
    conv_lhs => unfold whtF
    by_cases hk2 : k < 2 ^ s
    · rw [if_pos hk2, hlow, hhigh, ih f k hk2, ih _ k hk2]
      rw [pow_succ]; ring
    · have hk3 : k - 2 ^ s < 2 ^ s := by omega
      have hke : k - 2 ^ s + 2 ^ s = k := by omega
      rw [if_neg hk2, hlow, hhigh, ih f _ hk3, ih _ _ hk3]
      simp only [hke]
      rw [pow_succ]; ring

/-! ## `fwht` as a whole -/

theorem wrap32_two_pow {m : Nat} (hm : m ≤ 30) : wrap32 ((2 : Int) ^ m) = 2 ^ m := by
  have h : (2 : Int) ^ m ≤ 2 ^ 30 := pow_le_pow_right₀ (by norm_num) hm
  have h0 : (0 : Int) ≤ 2 ^ m := pow_nonneg (by norm_num) m
  apply wrap32_of_bounds <;> omega

theorem two_pow_toNat (m : Nat) : ((2 : Int) ^ m).toNat = 2 ^ m := by
  have h : ((2 : Int) ^ m) = (((2 : Nat) ^ m : Nat) : Int) := (Nat.cast_pow 2 m).symm
  rw [h, Int.toNat_ofNat]

theorem coef_map_mul (a : vll) (c : ll) (hr : InRange a) (hc : 0 ≤ c ∧ c < Q) :
    (a.map fun x => (x * c).tmod Q).length = a.length ∧
      InRange (a.map fun x => (x * c).tmod Q) ∧
      ∀ p < a.length, coef (a.map fun x => (x * c).tmod Q) p = coef a p * toFQ c := by
  refine ⟨List.length_map _ _, ?_, ?_⟩
  · intro y hy
    obtain ⟨x, hx, rfl⟩ := List.mem_map.1 hy
    exact (mul_tmod_spec (hr x hx) hc).1
  · intro p hp
    unfold coef
    have e1 : a.getD p 0 = a[p] := by
      rw [List.getD_eq_getElem?_getD, List.getElem?_eq_getElem hp]; rfl
    have hp' : p < (a.map fun x => (x * c).tmod Q).length := by simpa using hp
    have e2 : (a.map fun x => (x * c).tmod Q).getD p 0 = (a[p] * c).tmod Q := by
      rw [List.getD_eq_getElem?_getD, List.getElem?_eq_getElem hp']; simp
    rw [e1, e2]
    exact (mul_tmod_spec (hr _ (List.getElem_mem _)) hc).2

theorem fwht_false_spec (m : Nat) (hm : m ≤ 30) (x : vll) (hlen : x.length = 2 ^ m)
    (hr : InRange x) :
    (fwht x false).length = 2 ^ m ∧ InRange (fwht x false) ∧
      ∀ k < 2 ^ m, coef (fwht x false) k = whtF m (coef x) k := by
  unfold fwht
  simp only [hlen, Nat.cast_pow, Nat.cast_ofNat, wrap32_two_pow hm, two_pow_toNat, Bool.false_eq_true, if_false]
  have h := fwht_stages_spec m (coef x) (2 ^ m) 0 x (Nat.zero_le _)
    (by have := Nat.lt_two_pow m; omega) hlen hr
    (by
      intro b k _ hk
      have : k = 0 := by simpa using hk
      subst this
      simp [whtF])
  simpa using h

theorem mod_inv_two_pow (m : Nat) :
    (0 ≤ mod_inv ((2 : Int) ^ m) Q ∧ mod_inv ((2 : Int) ^ m) Q < Q) ∧
      (2 : FQ) ^ m * toFQ (mod_inv ((2 : Int) ^ m) Q) = 1 := by
  haveI := Q_prime_fact
  have h0 : (0 : Int) ≤ ((2 : Int) ^ m) := pow_nonneg (by norm_num) m
  refine ⟨mod_pow_nonneg_lt h0 (by decide) (by decide) (by decide) (Or.inl (by decide)), ?_⟩
  have e : toFQ (mod_inv ((2 : Int) ^ m) Q) = toFQ ((2 : Int) ^ m) ^ 998244351 :=
    toFQ_mod_pow h0 998244351
  have e2 : toFQ ((2 : Int) ^ m) = (2 : FQ) ^ m := by simp [toFQ]
  have h2 : (2 : FQ) ≠ 0 := by
    intro h
    have h' : ((2 : Nat) : ZMod 998244353) = 0 := by exact_mod_cast h
    rw [ZMod.natCast_zmod_eq_zero_iff_dvd] at h'
    omega
  have hne : (2 : FQ) ^ m ≠ 0 := pow_ne_zero m h2
  have hf : ((2 : FQ) ^ m) ^ (998244353 - 1) = 1 := ZMod.pow_card_sub_one_eq_one hne
  rw [e, e2]
  calc (2 : FQ) ^ m * ((2 : FQ) ^ m) ^ 998244351 = ((2 : FQ) ^ m) ^ (998244353 - 1) := by
        rw [← pow_succ']
    _ = 1 := hf

theorem fwht_true_spec (m : Nat) (hm : m ≤ 30) (x : vll) (hlen : x.length = 2 ^ m)
    (hr : InRange x) :
    (fwht x true).length = 2 ^ m ∧ InRange (fwht x true) ∧
      ∀ k < 2 ^ m, coef (fwht x true) k
        = whtF m (coef x) k * toFQ (mod_inv ((2 : Int) ^ m) Q) := by
  obtain ⟨h1, h2, h3⟩ := fwht_false_spec m hm x hlen hr
  have he : fwht x true = (fwht x false).map fun y =>
      (y * mod_inv ((2 : Int) ^ m) Q).tmod Q := by
    unfold fwht
    simp only [hlen, Nat.cast_pow, Nat.cast_ofNat, wrap32_two_pow hm, two_pow_toNat, Bool.false_eq_true, if_false, if_true]
  obtain ⟨g1, g2, g3⟩ := coef_map_mul (fwht x false) _ h2 (mod_inv_two_pow m).1
  rw [he]
  refine ⟨by rw [g1, h1], g2, fun k hk => ?_⟩
  rw [g3 k (by rw [h1]; exact hk), h3 k hk]

theorem fwht_roundtrip_aux (m : Nat) (hm : m ≤ 30) (x : vll) (hlen : x.length = 2 ^ m)
    (hr : InRange x) : fwht (fwht x false) true = x := by
  obtain ⟨h1, h2, h3⟩ := fwht_false_spec m hm x hlen hr
  obtain ⟨g1, g2, g3⟩ := fwht_true_spec m hm (fwht x false) h1 h2
  apply eq_of_coef_eq (by rw [g1, hlen]) g2 hr
  intro p hp
  rw [g1] at hp
  rw [g3 p hp, whtF_congr m _ _ p h3, whtF_whtF m _ p hp]
  calc 2 ^ m * coef x p * toFQ (mod_inv ((2 : Int) ^ m) Q)
      = (2 ^ m * toFQ (mod_inv ((2 : Int) ^ m) Q)) * coef x p := by ring
    _ = coef x p := by rw [(mod_inv_two_pow m).2, one_mul]

theorem fwht_eq (x : vll) (inverse : Bool) :
    fwht x inverse =
      if inverse then
        (fwht_stages (wrap32 x.length).toNat (wrap32 x.length).toNat 1 x).map
          fun y => (y * mod_inv (wrap32 x.length) Q).tmod Q
      else fwht_stages (wrap32 x.length).toNat (wrap32 x.length).toNat 1 x := rfl

theorem fwht_of_length_two_pow_31 (x : vll) (hlen : x.length = 2 ^ 31) (inverse : Bool) :
    fwht x inverse = if inverse then x.map fun y => (y * mod_inv (-2147483648) Q).tmod Q else x := by
  have hw : wrap32 ((2 ^ 31 : Nat) : Int) = -2147483648 := by decide
  have ht : (-2147483648 : Int).toNat = 0 := by decide
  have hs : fwht_stages 0 0 1 x = x := rfl
  rw [fwht_eq, hlen, hw, ht, hs]


/-! ## The butterfly stages of `ntt` -/

/-- One butterfly of `ntt`: the two writes, read back. -/
theorem ntt_bfly_spec (a : vll) (hr : InRange a) (wn : ll) (hw : 0 ≤ wn ∧ wn < Q) (x y : Nat)
    (hx : x < a.length) (hy : y < a.length) :
    let a1 := (a.set x ((a.getD x 0 + (a.getD y 0 * wn).tmod Q).tmod Q)).set y
      ((a.getD x 0 - (a.getD y 0 * wn).tmod Q + Q).tmod Q)
    a1.length = a.length ∧ InRange a1 ∧
      ∀ p, coef a1 p = if p = y then coef a x - coef a y * toFQ wn
        else if p = x then coef a x + coef a y * toFQ wn else coef a p := by
  intro a1
  have hu := hr.getD x
  have hv := mul_tmod_spec (hr.getD y) hw
  have hadd := add_tmod_spec hu hv.1
  have hsub := sub_tmod_spec hu hv.1
  refine ⟨by simp [a1], (hr.set _ hadd.1).set _ hsub.1, fun p => ?_⟩
  simp only [a1, coef_set, List.length_set, hadd.2, hsub.2, hv.2, hx, hy, and_true]
  rfl

theorem ntt_inner_spec (i h : Nat) (w : ll) (hw : 0 ≤ w ∧ w < Q) :
    ∀ (fuel j : Nat) (wn : ll) (a : vll), j ≤ h → h - j ≤ fuel → i + 2 * h ≤ a.length →
      InRange a → (0 ≤ wn ∧ wn < Q) → toFQ wn = toFQ w ^ j →
      (ntt_inner i (2 * h) w fuel j wn a).length = a.length ∧
      InRange (ntt_inner i (2 * h) w fuel j wn a) ∧
      ∀ p, coef (ntt_inner i (2 * h) w fuel j wn a) p =
        if i + j ≤ p ∧ p < i + h then coef a p + toFQ w ^ (p - i) * coef a (p + h)
        else if i + h + j ≤ p ∧ p < i + 2 * h then
          coef a (p - h) - toFQ w ^ (p - h - i) * coef a p
        else coef a p := by
  intro fuel
  have hhalf : 2 * h / 2 = h := by omega
  induction fuel with
  | zero =>
    intro j wn a hj hfuel _ hr _ _
    refine ⟨rfl, hr, fun p => ?_⟩
    have hjl : j = h := by omega
    subst hjl
    simp only [ntt_inner]
    rw [if_neg (by omega), if_neg (by omega)]
  | succ fuel ih =>
    intro j wn a hj hfuel hlen hr hwn hwnj
    unfold ntt_inner
    rw [hhalf]
    by_cases hlt : j < h
    · rw [if_pos hlt]
      obtain ⟨hl1, hr1, hc1⟩ := ntt_bfly_spec a hr wn hwn (i + j) (i + j + h) (by omega)
        (by omega)
      simp only at hl1 hr1 hc1 ⊢
      generalize (a.set (i + j) ((a.getD (i + j) 0 + (a.getD (i + j + h) 0 * wn).tmod Q).tmod Q)).set
          (i + j + h) ((a.getD (i + j) 0 - (a.getD (i + j + h) 0 * wn).tmod Q + Q).tmod Q) = a1
        at hl1 hr1 hc1 ⊢
      have hwn' := mul_tmod_spec hwn hw
      have hwnj' : toFQ ((wn * w).tmod Q) = toFQ w ^ (j + 1) := by
        rw [hwn'.2, hwnj, pow_succ]
      obtain ⟨h1, h2, h3⟩ := ih (j + 1) _ a1 (by omega) (by omega) (by omega) hr1 hwn'.1 hwnj'
      refine ⟨by omega, h2, fun p => ?_⟩
      rw [h3 p]
      simp only [hc1, hwnj]
      by_cases c1 : p = i + j
      · subst c1
        have e : i + j - i = j := by omega
        rw [e]
        split_ifs <;> first | rfl | omega | ring
      · by_cases c2 : p = i + j + h
        · subst c2
          have e : i + j + h - h = i + j := by omega
          have e' : i + j - i = j := by omega
          rw [e, e']
          split_ifs <;> first | rfl | omega | ring
        · split_ifs <;> first | rfl | omega
    · rw [if_neg hlt]
      refine ⟨rfl, hr, fun p => ?_⟩
      rw [if_neg (by omega), if_neg (by omega)]

theorem one_in_range : (0 : Int) ≤ 1 ∧ (1 : Int) < Q := by decide

theorem ntt_blocks_spec (n h : Nat) (hh : 0 < h) (w : ll) (hw : 0 ≤ w ∧ w < Q) :
    ∀ (c fuel i : Nat) (a : vll), c ≤ fuel → a.length = n → n = i + c * (2 * h) → InRange a →
      (ntt_blocks n (2 * h) w fuel i a).length = n ∧ InRange (ntt_blocks n (2 * h) w fuel i a) ∧
      (∀ p < i, coef (ntt_blocks n (2 * h) w fuel i a) p = coef a p) ∧
      ∀ q < c, ∀ r < h,
        coef (ntt_blocks n (2 * h) w fuel i a) (i + q * (2 * h) + r) =
          coef a (i + q * (2 * h) + r) + toFQ w ^ r * coef a (i + q * (2 * h) + r + h) ∧
        coef (ntt_blocks n (2 * h) w fuel i a) (i + q * (2 * h) + r + h) =
          coef a (i + q * (2 * h) + r) - toFQ w ^ r * coef a (i + q * (2 * h) + r + h) := by
  intro c
  have hhalf : 2 * h / 2 = h := by omega
  induction c with
  | zero =>
    intro fuel i a _ hlen hn hr
    have hin : ¬ i < n := by omega
    have he : ntt_blocks n (2 * h) w fuel i a = a := by
      cases fuel with
      | zero => rfl
      | succ f => simp only [ntt_blocks, if_neg hin]
    rw [he]
    exact ⟨hlen, hr, fun _ _ => rfl, fun q hq => absurd hq (Nat.not_lt_zero q)⟩
  | succ c ih =>
    intro fuel i a hfuel hlen hn hr
    obtain ⟨f, rfl⟩ : ∃ f, fuel = f + 1 := ⟨fuel - 1, by omega⟩
    have hmul : (c + 1) * (2 * h) = c * (2 * h) + 2 * h := by ring
    have hin : i < n := by omega
    simp only [ntt_blocks, if_pos hin, hhalf]
    obtain ⟨hl1, hr1, hc1⟩ := ntt_inner_spec i h w hw h 0 1 a (Nat.zero_le _) (by omega)
      (by omega) hr one_in_range (by simp [toFQ])
    generalize ntt_inner i (2 * h) w h 0 1 a = a1 at hl1 hr1 hc1 ⊢
    obtain ⟨hl2, hr2, hlow, hpair⟩ := ih f (i + 2 * h) a1 (by omega) (by omega) (by omega) hr1
    refine ⟨hl2, hr2, fun p hp => ?_, fun q hq r hrL => ?_⟩
    · rw [hlow p (by omega), hc1 p, if_neg (by omega), if_neg (by omega)]
    · cases q with
      | zero =>
        simp only [Nat.zero_mul, Nat.add_zero]
        rw [hlow (i + r) (by omega), hlow (i + r + h) (by omega), hc1 (i + r), hc1 (i + r + h),
          if_pos (by omega), if_neg (by omega), if_pos (by omega)]
        have e : i + r + h - h = i + r := by omega
        have e' : i + r - i = r := by omega
        rw [e, e']
        exact ⟨rfl, rfl⟩
      | succ q =>
        have hq' : q < c := by omega
        have hmul' : (q + 1) * (2 * h) = q * (2 * h) + 2 * h := by ring
        have e1 : i + (q + 1) * (2 * h) + r = i + 2 * h + q * (2 * h) + r := by omega
        rw [e1]
        obtain ⟨p1, p2⟩ := hpair q hq' r hrL
        rw [p1, p2, hc1 (i + 2 * h + q * (2 * h) + r), hc1 (i + 2 * h + q * (2 * h) + r + h),
          if_neg (by omega), if_neg (by omega), if_neg (by omega), if_neg (by omega)]
        exact ⟨rfl, rfl⟩

theorem stage_w_in_range (inverse : Bool) (root : ll) (hroot : 0 ≤ root) (len : Nat) :
    0 ≤ (if inverse then mod_inv (mod_pow root ((Q - 1) / (len : Int)) Q) Q
        else mod_pow root ((Q - 1) / (len : Int)) Q) ∧
      (if inverse then mod_inv (mod_pow root ((Q - 1) / (len : Int)) Q) Q
        else mod_pow root ((Q - 1) / (len : Int)) Q) < Q := by
  have he : 0 ≤ (Q - 1) / (len : Int) :=
    Int.ediv_nonneg (by decide) (Int.ofNat_nonneg _)
  have h1 := mod_pow_nonneg_lt hroot he Q_pos (by decide) (Or.inl (by decide))
  cases inverse with
  | false => simpa using h1
  | true =>
    simpa using mod_pow_nonneg_lt (b := mod_pow root ((Q - 1) / (len : Int)) Q) (e := Q - 2)
      h1.1 (by decide) Q_pos (by decide) (Or.inl (by decide))

theorem nttF_block_zero (W : Nat → FQ) (m : Nat) (f0 : Nat → FQ) (a : vll)
    (hinv : ∀ b k, b < 2 ^ (m - m) → k < 2 ^ m →
      coef a (b * 2 ^ m + k) = nttF W m (fun j => f0 (b * 2 ^ m + j)) k) :
    ∀ k < 2 ^ m, coef a k = nttF W m f0 k := by
  intro k hk
  have h := hinv 0 k (by simp) hk
  simpa using h

theorem ntt_stages_spec (m : Nat) (inverse : Bool) (root : ll) (hroot : 0 ≤ root)
    (f0 : Nat → FQ) :
    ∀ (fuel s : Nat) (a : vll), s ≤ m → m - s ≤ fuel → a.length = 2 ^ m → InRange a →
      (∀ b k, b < 2 ^ (m - s) → k < 2 ^ s →
        coef a (b * 2 ^ s + k)
          = nttF (fun t => stageW inverse root (2 ^ t)) s (fun j => f0 (b * 2 ^ s + j)) k) →
      (ntt_stages (2 ^ m) inverse root fuel (2 ^ (s + 1)) a).length = 2 ^ m ∧
      InRange (ntt_stages (2 ^ m) inverse root fuel (2 ^ (s + 1)) a) ∧
      ∀ k < 2 ^ m, coef (ntt_stages (2 ^ m) inverse root fuel (2 ^ (s + 1)) a) k
        = nttF (fun t => stageW inverse root (2 ^ t)) m f0 k := by
  intro fuel
  induction fuel with
  | zero =>
    intro s a hs hfuel hlen hr hinv
    have : s = m := by omega
    subst this
    exact ⟨hlen, hr, nttF_block_zero _ s f0 a hinv⟩
  | succ fuel ih =>
    intro s a hs hfuel hlen hr hinv
    unfold ntt_stages
    by_cases hle : 2 ^ (s + 1) ≤ 2 ^ m
    · rw [if_pos hle]
      have hsm : s + 1 ≤ m := (Nat.pow_le_pow_iff_right (by norm_num)).1 hle
      have hP : 0 < 2 ^ s := Nat.two_pow_pos s
      have hpow : 2 ^ (s + 1) = 2 * 2 ^ s := by rw [pow_succ']
      have hsplit : 2 ^ m = 0 + 2 ^ (m - (s + 1)) * (2 * 2 ^ s) := by
        rw [Nat.zero_add, ← pow_succ', ← pow_add]
        congr 1; omega
      have hc : 2 ^ (m - (s + 1)) ≤ 2 ^ m := Nat.pow_le_pow_right (by norm_num) (by omega)
      have hw := stage_w_in_range inverse root hroot (2 ^ (s + 1))
      have hW : toFQ (if inverse then mod_inv (mod_pow root ((Q - 1) / ((2 ^ (s + 1) : Nat) : Int)) Q) Q
          else mod_pow root ((Q - 1) / ((2 ^ (s + 1) : Nat) : Int)) Q)
            = stageW inverse root (2 ^ (s + 1)) := rfl
      simp only []
      generalize (if inverse = true then mod_inv (mod_pow root ((Q - 1) / ((2 ^ (s + 1) : Nat) : Int)) Q) Q
          else mod_pow root ((Q - 1) / ((2 ^ (s + 1) : Nat) : Int)) Q) = w at hw hW ⊢
      have hshift : 2 ^ (s + 1) <<< 1 = 2 ^ (s + 1 + 1) := by
        simp [Nat.shiftLeft_eq, pow_succ]
      rw [hshift]
      have hblocks : ntt_blocks (2 ^ m) (2 ^ (s + 1)) w (2 ^ m) 0 a
          = ntt_blocks (2 ^ m) (2 * 2 ^ s) w (2 ^ m) 0 a := by rw [hpow]
      rw [hblocks]
      obtain ⟨hl1, hr1, _, hpair⟩ := ntt_blocks_spec (2 ^ m) (2 ^ s) hP w hw
        (2 ^ (m - (s + 1))) (2 ^ m) 0 a hc hlen hsplit hr
      generalize ntt_blocks (2 ^ m) (2 * 2 ^ s) w (2 ^ m) 0 a = a1 at hl1 hr1 hpair ⊢
      have hpow2 : 2 ^ (m - s) = 2 * 2 ^ (m - (s + 1)) := by
        rw [← pow_succ']; congr 1; omega
      apply ih (s + 1) a1 (by omega) (by omega) hl1 hr1
      intro b k hb hk
      have hb0 : 2 * b < 2 ^ (m - s) := by omega
      have hb1 : 2 * b + 1 < 2 ^ (m - s) := by omega
      have hf0 : (fun j => f0 (b * 2 ^ (s + 1) + j)) = fun j => f0 (2 * b * 2 ^ s + j) := by
        funext j; congr 1; rw [hpow]; ring
      have hf1 : (fun j => f0 (b * 2 ^ (s + 1) + (j + 2 ^ s)))
          = fun j => f0 ((2 * b + 1) * 2 ^ s + j) := by
        funext j; congr 1; rw [hpow]; ring
      simp only [nttF]
      rw [hf0, hf1, ← hW]
      by_cases hk2 : k < 2 ^ s
      · rw [if_pos hk2, ← hinv (2 * b) k hb0 hk2, ← hinv (2 * b + 1) k hb1 hk2]
        have e0 : b * 2 ^ (s + 1) + k = 0 + b * (2 * 2 ^ s) + k := by rw [hpow]; ring
        have e1 : 2 * b * 2 ^ s + k = 0 + b * (2 * 2 ^ s) + k := by ring
        have e2 : (2 * b + 1) * 2 ^ s + k = 0 + b * (2 * 2 ^ s) + k + 2 ^ s := by ring
        rw [e0, e1, e2]
        exact (hpair b hb k hk2).1
      · rw [if_neg hk2]
        have hk3 : k - 2 ^ s < 2 ^ s := by omega
        rw [← hinv (2 * b) _ hb0 hk3, ← hinv (2 * b + 1) _ hb1 hk3]
        have e0 : b * 2 ^ (s + 1) + k = 0 + b * (2 * 2 ^ s) + (k - 2 ^ s) + 2 ^ s := by
          rw [hpow]
          have : b * (2 * 2 ^ s) + k = b * (2 * 2 ^ s) + (k - 2 ^ s) + 2 ^ s := by omega
          rw [this]; ring
        have e1 : 2 * b * 2 ^ s + (k - 2 ^ s) = 0 + b * (2 * 2 ^ s) + (k - 2 ^ s) := by ring
        have e2 : (2 * b + 1) * 2 ^ s + (k - 2 ^ s)
            = 0 + b * (2 * 2 ^ s) + (k - 2 ^ s) + 2 ^ s := by ring
        rw [e0, e1, e2]
        exact (hpair b hb (k - 2 ^ s) hk3).2
    · rw [if_neg hle]
      have : s = m := by
        by_contra hne
        exact hle (Nat.pow_le_pow_right (by norm_num) (by omega))
      subst this
      exact ⟨hlen, hr, nttF_block_zero _ s f0 a hinv⟩

/-! ## The bit-reversal permutation -/

theorem and_two_pow_of_lt {r m : Nat} (h : r < 2 ^ m) : r &&& 2 ^ m = 0 := by
  apply Nat.eq_of_testBit_eq
  intro i
  rw [Nat.testBit_and, Nat.testBit_two_pow, Nat.zero_testBit]
  by_cases hi : m = i
  · subst hi
    rw [Nat.testBit_lt_two_pow h]; rfl
  · simp [hi]

theorem xor_two_pow_of_lt {r m : Nat} (h : r < 2 ^ m) : r ^^^ 2 ^ m = 2 ^ m + r := by
  apply Nat.eq_of_testBit_eq
  intro i
  rw [Nat.testBit_xor, Nat.testBit_two_pow]
  rcases Nat.lt_trichotomy i m with hi | hi | hi
  · rw [Nat.testBit_two_pow_add_gt hi]
    have : ¬ m = i := by omega
    simp [this]
  · subst hi
    rw [Nat.testBit_two_pow_add_eq, Nat.testBit_lt_two_pow h]
    simp
  · have h1 : r < 2 ^ i := lt_trans h (Nat.pow_lt_pow_right (by norm_num) hi)
    have h2 : 2 ^ m + r < 2 ^ i := by
      have : 2 ^ (m + 1) ≤ 2 ^ i := Nat.pow_le_pow_right (by norm_num) hi
      rw [pow_succ] at this
      omega
    rw [Nat.testBit_lt_two_pow h1, Nat.testBit_lt_two_pow h2]
    have : ¬ m = i := by omega
    simp [this]

theorem two_pow_add_and_two_pow {r m : Nat} (h : r < 2 ^ m) : (2 ^ m + r) &&& 2 ^ m ≠ 0 := by
  intro h0
  have h1 : ((2 ^ m + r) &&& 2 ^ m).testBit m = true := by
    rw [Nat.testBit_and, Nat.testBit_two_pow_add_eq, Nat.testBit_lt_two_pow h,
      Nat.testBit_two_pow_self]
    rfl
  rw [h0, Nat.zero_testBit] at h1
  exact Bool.noConfusion h1

theorem two_pow_add_xor_two_pow {r m : Nat} (h : r < 2 ^ m) : (2 ^ m + r) ^^^ 2 ^ m = r := by
  rw [← xor_two_pow_of_lt h, Nat.xor_assoc, Nat.xor_self, Nat.xor_zero]

theorem bitrevF_lt : ∀ (m t : Nat), bitrevF m t < 2 ^ m := by
  intro m
  induction m with
  | zero => intro t; simp [bitrevF]
  | succ m ih =>
    intro t
    have h := ih (t / 2)
    have h2 : t % 2 < 2 := Nat.mod_lt _ (by norm_num)
    simp only [bitrevF, pow_succ]
    rcases Nat.mod_two_eq_zero_or_one t with h0 | h0 <;> rw [h0] <;> omega

/-- The carry loop of the bit reversal turns the reversal of `t` into the
reversal of `t + 1`. -/
theorem bitrev_carry_spec : ∀ (m fuel t : Nat), t + 1 < 2 ^ m → m ≤ fuel →
    (bitrev_carry fuel (bitrevF m t) (2 ^ m >>> 1)).1 ^^^
      (bitrev_carry fuel (bitrevF m t) (2 ^ m >>> 1)).2 = bitrevF m (t + 1) := by
  intro m
  induction m with
  | zero => intro fuel t h; simp at h
  | succ m ih =>
    intro fuel t ht hfuel
    obtain ⟨f, rfl⟩ : ∃ f, fuel = f + 1 := ⟨fuel - 1, by omega⟩
    have hbit : 2 ^ (m + 1) >>> 1 = 2 ^ m := by
      simp [Nat.shiftRight_eq_div_pow, pow_succ]
    have hr := bitrevF_lt m (t / 2)
    rw [hbit]
    unfold bitrev_carry
    rcases Nat.mod_two_eq_zero_or_one t with h0 | h0
    · have hj : bitrevF (m + 1) t = bitrevF m (t / 2) := by simp [bitrevF, h0]
      have h1 : (t + 1) % 2 = 1 := by omega
      have h2 : (t + 1) / 2 = t / 2 := by omega
      rw [hj, if_neg (by rw [and_two_pow_of_lt hr]; simp)]
      simp only [bitrevF, h1, h2, one_mul]
      exact xor_two_pow_of_lt hr
    · have hj : bitrevF (m + 1) t = 2 ^ m + bitrevF m (t / 2) := by simp [bitrevF, h0]
      have h1 : (t + 1) % 2 = 0 := by omega
      have h2 : (t + 1) / 2 = t / 2 + 1 := by omega
      have hpow : 2 ^ (m + 1) = 2 * 2 ^ m := by rw [pow_succ']
      rw [hj, if_pos (two_pow_add_and_two_pow hr), two_pow_add_xor_two_pow hr]
      simp only [bitrevF, h1, h2, zero_mul, zero_add]
      exact ih f (t / 2) (by omega) (by omega)

theorem bitrevF_succ_low : ∀ (m t : Nat),
    bitrevF (m + 1) t = 2 * bitrevF m (t % 2 ^ m) + (t / 2 ^ m) % 2 := by
  intro m
  induction m with
  | zero => intro t; simp [bitrevF]
  | succ m ih =>
    intro t
    have e1 : t % 2 ^ (m + 1) % 2 = t % 2 :=
      Nat.mod_mod_of_dvd t (dvd_pow_self 2 (Nat.succ_ne_zero m))
    have e2 : t % 2 ^ (m + 1) / 2 = t / 2 % 2 ^ m := by
      rw [pow_succ', Nat.mod_mul_right_div_self]
    have e3 : t / 2 / 2 ^ m = t / 2 ^ (m + 1) := by
      rw [Nat.div_div_eq_div_mul, pow_succ']
    calc bitrevF (m + 1 + 1) t
        = (t % 2) * 2 ^ (m + 1) + bitrevF (m + 1) (t / 2) := rfl
      _ = (t % 2) * 2 ^ (m + 1) + (2 * bitrevF m (t / 2 % 2 ^ m) + (t / 2 / 2 ^ m) % 2) := by
          rw [ih (t / 2)]
      _ = 2 * ((t % 2 ^ (m + 1) % 2) * 2 ^ m + bitrevF m (t % 2 ^ (m + 1) / 2))
            + (t / 2 ^ (m + 1)) % 2 := by
          rw [e1, e2, e3, pow_succ]; ring
      _ = 2 * bitrevF (m + 1) (t % 2 ^ (m + 1)) + (t / 2 ^ (m + 1)) % 2 := rfl

/-- Bit reversal is an involution on `[0, 2^m)`. -/
theorem bitrevF_bitrevF : ∀ (m t : Nat), t < 2 ^ m → bitrevF m (bitrevF m t) = t := by
  intro m
  induction m with
  | zero => intro t ht; simp at ht; simp [bitrevF, ht]
  | succ m ih =>
    intro t ht
    have hq : t / 2 ^ m < 2 := by
      rw [Nat.div_lt_iff_lt_mul (Nat.two_pow_pos m)]
      rw [pow_succ] at ht; omega
    have hq' : t / 2 ^ m % 2 = t / 2 ^ m := Nat.mod_eq_of_lt hq
    have hlow : t % 2 ^ m < 2 ^ m := Nat.mod_lt _ (Nat.two_pow_pos m)
    have hr : bitrevF (m + 1) t = 2 * bitrevF m (t % 2 ^ m) + t / 2 ^ m := by
      rw [bitrevF_succ_low, hq']
    have h1 : (2 * bitrevF m (t % 2 ^ m) + t / 2 ^ m) % 2 = t / 2 ^ m := by omega
    have h2 : (2 * bitrevF m (t % 2 ^ m) + t / 2 ^ m) / 2 = bitrevF m (t % 2 ^ m) := by omega
    rw [hr]
    show ((2 * bitrevF m (t % 2 ^ m) + t / 2 ^ m) % 2) * 2 ^ m
      + bitrevF m ((2 * bitrevF m (t % 2 ^ m) + t / 2 ^ m) / 2) = t
    rw [h1, h2, ih _ hlow]
    exact Nat.div_add_mod' t (2 ^ m)

theorem le_half_two_pow_succ (m : Nat) : m ≤ 2 ^ m >>> 1 + 1 := by
  cases m with
  | zero => simp
  | succ k =>
    have h : 2 ^ (k + 1) >>> 1 = 2 ^ k := by simp [Nat.shiftRight_eq_div_pow, pow_succ]
    have := Nat.lt_two_pow k
    rw [h]; omega

theorem ntt_bitrev_spec (m : Nat) (x : vll) :
    ∀ (fuel i : Nat) (a : vll), 1 ≤ i → i ≤ 2 ^ m → 2 ^ m - i ≤ fuel → a.length = 2 ^ m →
      (∀ p < 2 ^ m, a.getD p 0 =
        if p < i ∨ bitrevF m p < i then x.getD (bitrevF m p) 0 else x.getD p 0) →
      (ntt_bitrev (2 ^ m) fuel i (bitrevF m (i - 1)) a).length = 2 ^ m ∧
      ∀ p < 2 ^ m, (ntt_bitrev (2 ^ m) fuel i (bitrevF m (i - 1)) a).getD p 0
        = x.getD (bitrevF m p) 0 := by
  intro fuel
  induction fuel with
  | zero =>
    intro i a _ hi hfuel hlen hinv
    refine ⟨hlen, fun p hp => ?_⟩
    rw [ntt_bitrev, hinv p hp, if_pos (Or.inl (by omega))]
  | succ fuel ih =>
    intro i a hi1 hi hfuel hlen hinv
    unfold ntt_bitrev
    by_cases hlt : i < 2 ^ m
    · rw [if_pos hlt]
      have hj : (bitrev_carry (2 ^ m >>> 1 + 1) (bitrevF m (i - 1)) (2 ^ m >>> 1)).1 ^^^
          (bitrev_carry (2 ^ m >>> 1 + 1) (bitrevF m (i - 1)) (2 ^ m >>> 1)).2 = bitrevF m i := by
        have h := bitrev_carry_spec m (2 ^ m >>> 1 + 1) (i - 1) (by omega)
          (le_half_two_pow_succ m)
        have e : i - 1 + 1 = i := by omega
        rw [e] at h
        exact h
      simp only [hj]
      have hRi : bitrevF m (bitrevF m i) = i := bitrevF_bitrevF m i hlt
      have hjlt : bitrevF m i < 2 ^ m := bitrevF_lt m i
      have hR : ∀ p < 2 ^ m, bitrevF m p = i → p = bitrevF m i := by
        intro p hp h
        rw [← h, bitrevF_bitrevF m p hp]
      have hstep : ntt_bitrev (2 ^ m) fuel (i + 1) (bitrevF m i)
          (if i < bitrevF m i then (a.set i (a.getD (bitrevF m i) 0)).set (bitrevF m i) (a.getD i 0)
            else a)
          = ntt_bitrev (2 ^ m) fuel (i + 1) (bitrevF m (i + 1 - 1))
          (if i < bitrevF m i then (a.set i (a.getD (bitrevF m i) 0)).set (bitrevF m i) (a.getD i 0)
            else a) := by simp
      rw [hstep]
      apply ih (i + 1) _ (by omega) (by omega) (by omega)
      · split_ifs <;> simp [hlen]
      · intro p hp
        have hinvp := hinv p hp
        have hinvi := hinv i hlt
        have hinvj := hinv (bitrevF m i) hjlt
        rw [hRi] at hinvj
        have hRp := hR p hp
        have hA : p = bitrevF m i → bitrevF m p = i := fun h => by rw [h, hRi]
        have hB : p = i → bitrevF m p = bitrevF m i := fun h => by rw [h]
        clear hj hstep hR hinv ih
        generalize bitrevF m p = rp at *
        generalize bitrevF m i = j at *
        by_cases hij : i < j
        · rw [if_pos hij, getD_set, getD_set, List.length_set]
          by_cases c1 : p = j
          · have hrp : rp = i := hA c1
            rw [if_pos ⟨c1, by omega⟩, hinvi, if_neg (by omega), if_pos (by omega), hrp]
          · rw [if_neg (by tauto)]
            by_cases c2 : p = i
            · have hrp : rp = j := hB c2
              rw [if_pos ⟨c2, by omega⟩, hinvj, if_neg (by omega), if_pos (by omega), hrp]
            · rw [if_neg (by tauto), hinvp]
              have : rp ≠ i := fun h => c1 (hRp h)
              split_ifs <;> first | rfl | omega
        · rw [if_neg hij, hinvp]
          by_cases c2 : p = i
          · have hrp : rp = j := hB c2
            rw [hrp, c2]
            by_cases hji : j = i
            · rw [hji]
              split_ifs <;> rfl
            · rw [if_pos (by omega), if_pos (by omega)]
          · by_cases c3 : rp = i
            · have hpj : p = j := hRp c3
              split_ifs <;> first | rfl | omega
            · split_ifs <;> first | rfl | omega
    · rw [if_neg hlt]
      refine ⟨hlen, fun p hp => ?_⟩
      rw [hinv p hp, if_pos (Or.inl (by omega))]

/-! ## The decimation-in-time recursion computes the discrete Fourier transform -/

theorem sum_range_two_mul (g : Nat → FQ) : ∀ n : Nat,
    ∑ t in Finset.range (2 * n), g t = ∑ u in Finset.range n, (g (2 * u) + g (2 * u + 1)) := by
  intro n
  induction n with
  | zero => simp
  | succ n ih =>
    have e : 2 * (n + 1) = 2 * n + 1 + 1 := by ring
    rw [e, Finset.sum_range_succ, Finset.sum_range_succ, ih, Finset.sum_range_succ]
    ring

theorem bitrevF_even (s u : Nat) : bitrevF (s + 1) (2 * u) = bitrevF s u := by
  have h1 : 2 * u % 2 = 0 := by omega
  have h2 : 2 * u / 2 = u := by omega
  simp [bitrevF, h1, h2]

theorem bitrevF_odd (s u : Nat) : bitrevF (s + 1) (2 * u + 1) = bitrevF s u + 2 ^ s := by
  have h1 : (2 * u + 1) % 2 = 1 := by omega
  have h2 : (2 * u + 1) / 2 = u := by omega
  simp only [bitrevF, h1, h2, one_mul]
  exact add_comm _ _

theorem nttF_eq_sum (W : Nat → FQ) (m : Nat) (hW2 : ∀ s < m, W (s + 1) ^ 2 = W s)
    (hWneg : ∀ s < m, W (s + 1) ^ 2 ^ s = -1) :
    ∀ s ≤ m, ∀ (f : Nat → FQ) (k : Nat), k < 2 ^ s →
      nttF W s f k = ∑ t in Finset.range (2 ^ s), f (bitrevF s t) * W s ^ (t * k) := by
  intro s
  induction s with
  | zero =>
    intro _ f k _
    simp [nttF, bitrevF]
  | succ s ih =>
    intro hs f k hk
    have hsm : s < m := by omega
    have hpow : 2 ^ (s + 1) = 2 * 2 ^ s := by rw [pow_succ']
    have h2 := hW2 s hsm
    have hneg := hWneg s hsm
    have hone : W s ^ 2 ^ s = 1 := by
      rw [← h2, ← pow_mul, mul_comm, pow_mul, hneg]; norm_num
    rw [hpow, sum_range_two_mul]
    simp only [bitrevF_even, bitrevF_odd]
    unfold nttF
    by_cases hk2 : k < 2 ^ s
    · rw [if_pos hk2, ih (by omega) f k hk2, ih (by omega) _ k hk2, Finset.mul_sum,
        ← Finset.sum_add_distrib]
      apply Finset.sum_congr rfl
      intro u _
      have e1 : W (s + 1) ^ (2 * u * k) = W s ^ (u * k) := by
        rw [mul_assoc, pow_mul, h2]
      have e2 : W (s + 1) ^ ((2 * u + 1) * k) = W s ^ (u * k) * W (s + 1) ^ k := by
        rw [add_mul, one_mul, pow_add, e1]
      rw [e1, e2]; ring
    · have hk3 : k - 2 ^ s < 2 ^ s := by omega
      have hke : k = (k - 2 ^ s) + 2 ^ s := by omega
      rw [if_neg hk2, ih (by omega) f _ hk3, ih (by omega) _ _ hk3, Finset.mul_sum,
        ← Finset.sum_sub_distrib]
      apply Finset.sum_congr rfl
      intro u _
      generalize k - 2 ^ s = k' at hke hk3 ⊢
      have e1 : W (s + 1) ^ (2 * u * k) = W s ^ (u * k') := by
        have e0 : W s ^ (u * 2 ^ s) = 1 := by
          rw [mul_comm, pow_mul, hone, one_pow]
        rw [mul_assoc, pow_mul, h2, hke, mul_add, pow_add, e0, mul_one]
      have e2 : W (s + 1) ^ ((2 * u + 1) * k) = - (W s ^ (u * k') * W (s + 1) ^ k') := by
        rw [add_mul, one_mul, pow_add, e1]
        conv_lhs => rw [hke, pow_add, hneg]
        ring
      rw [e1, e2]; ring

/-! ## Orthogonality of the powers of a root of unity -/

theorem root_pow_mul_inv_pow {w w' : FQ} (hinv : w * w' = 1) (N : Nat)
    (hord : ∀ d, 0 < d → d < N → w ^ d ≠ 1) {t j : Nat} (ht : t < N) (hj : j < N)
    (hne : t ≠ j) : w ^ t * w' ^ j ≠ 1 := by
  intro h
  rcases Nat.lt_or_gt_of_ne hne with hlt | hgt
  · have e : w ^ t * w' ^ j = w' ^ (j - t) := by
      have : j = (j - t) + t := by omega
      conv_lhs => rw [this, pow_add, ← mul_assoc, mul_comm (w ^ t), mul_assoc, ← mul_pow, hinv,
        one_pow, mul_one]
    rw [e] at h
    apply hord (j - t) (by omega) (by omega)
    calc w ^ (j - t) = w ^ (j - t) * w' ^ (j - t) := by rw [h, mul_one]
      _ = 1 := by rw [← mul_pow, hinv, one_pow]
  · have e : w ^ t * w' ^ j = w ^ (t - j) := by
      have : t = (t - j) + j := by omega
      conv_lhs => rw [this, pow_add, mul_assoc, ← mul_pow, hinv, one_pow, mul_one]
    rw [e] at h
    exact hord (t - j) (by omega) (by omega) h

/-- The inverse transform undoes the forward transform up to the factor `N`. -/
theorem dftF_dftF {w w' : FQ} (hinv : w * w' = 1) (N : Nat) (hN : w ^ N = 1)
    (hord : ∀ d, 0 < d → d < N → w ^ d ≠ 1) (f : Nat → FQ) (j : Nat) (hj : j < N) :
    dftF w' N (dftF w N f) j = (N : FQ) * f j := by
  haveI := Q_prime_fact
  unfold dftF
  have hN' : w' ^ N = 1 := by
    calc w' ^ N = w ^ N * w' ^ N := by rw [hN, one_mul]
      _ = 1 := by rw [← mul_pow, hinv, one_pow]
  calc ∑ k in Finset.range N, (∑ t in Finset.range N, f t * w ^ (t * k)) * w' ^ (k * j)
      = ∑ k in Finset.range N, ∑ t in Finset.range N, f t * (w ^ t * w' ^ j) ^ k := by
        apply Finset.sum_congr rfl
        intro k _
        rw [Finset.sum_mul]
        apply Finset.sum_congr rfl
        intro t _
        rw [mul_pow, ← pow_mul, ← pow_mul, mul_comm j k]; ring
    _ = ∑ t in Finset.range N, f t * ∑ k in Finset.range N, (w ^ t * w' ^ j) ^ k := by
        rw [Finset.sum_comm]
        apply Finset.sum_congr rfl
        intro t _
        rw [Finset.mul_sum]
    _ = f j * ∑ k in Finset.range N, (w ^ j * w' ^ j) ^ k := by
        apply Finset.sum_eq_single j
        · intro t ht hne
          have ht' : t < N := Finset.mem_range.1 ht
          have hz := root_pow_mul_inv_pow hinv N hord ht' hj hne
          have hzN : (w ^ t * w' ^ j) ^ N = 1 := by
            rw [mul_pow, ← pow_mul, ← pow_mul, mul_comm t N, mul_comm j N, pow_mul, pow_mul, hN,
              hN', one_pow, one_pow, one_mul]
          rw [geom_sum_eq hz, hzN, sub_self, zero_div, mul_zero]
        · intro h
          exact absurd (Finset.mem_range.2 hj) h
    _ = (N : FQ) * f j := by
        rw [← mul_pow, hinv, one_pow]
        simp [mul_comm]

theorem dftF_congr (w : FQ) (N : Nat) (f g : Nat → FQ) (h : ∀ t < N, f t = g t) (k : Nat) :
    dftF w N f k = dftF w N g k := by
  unfold dftF
  apply Finset.sum_congr rfl
  intro t ht
  rw [h t (Finset.mem_range.1 ht)]

/-! ## The twiddle factors -/

theorem toFQ_three : toFQ 3 = (3 : FQ) := by simp [toFQ]

theorem three_pow_half : (3 : FQ) ^ 499122176 = -1 := by
  have h := toFQ_mod_pow (a := 3) (by norm_num) 499122176
  rw [three_pow_eval.2.1, toFQ_three] at h
  rw [← h]
  have hq := toFQ_Q
  simp only [toFQ] at hq ⊢
  push_cast
  rw [hq, zero_sub]

theorem stage_exponent {s : Nat} (hs : s ≤ 23) :
    (Q - 1) / ((2 ^ s : Nat) : Int) = ((119 * 2 ^ (23 - s) : Nat) : Int) := by
  have h : (Q - 1 : Int) = ((119 * 2 ^ (23 - s) : Nat) : Int) * ((2 ^ s : Nat) : Int) := by
    rw [← Nat.cast_mul, mul_assoc, ← pow_add]
    have e : 23 - s + s = 23 := by omega
    rw [e]
    decide
  rw [h]
  exact Int.mul_ediv_cancel _ (by exact_mod_cast (Nat.two_pow_pos s).ne')

theorem stageW_false {s : Nat} (hs : s ≤ 23) :
    stageW false 3 (2 ^ s) = (3 : FQ) ^ (119 * 2 ^ (23 - s)) := by
  unfold stageW
  simp only [Bool.false_eq_true, if_false]
  rw [stage_exponent hs, toFQ_mod_pow (by norm_num), toFQ_three]

theorem stageW_true (s : Nat) :
    stageW true 3 (2 ^ s) = stageW false 3 (2 ^ s) ^ 998244351 := by
  unfold stageW
  simp only [Bool.false_eq_true, if_false, if_true]
  have h0 : 0 ≤ mod_pow 3 ((Q - 1) / ((2 ^ s : Nat) : Int)) Q := by
    have he : 0 ≤ (Q - 1) / ((2 ^ s : Nat) : Int) :=
      Int.ediv_nonneg (by decide) (Int.ofNat_nonneg _)
    exact (mod_pow_nonneg_lt (by norm_num) he Q_pos (by decide) (Or.inl (by decide))).1
  exact toFQ_mod_pow h0 998244351

theorem stageW_false_sq {s : Nat} (hs : s + 1 ≤ 23) :
    stageW false 3 (2 ^ (s + 1)) ^ 2 = stageW false 3 (2 ^ s) := by
  rw [stageW_false hs, stageW_false (by omega), ← pow_mul]
  congr 1
  have e : 23 - s = (23 - (s + 1)) + 1 := by omega
  rw [e, pow_succ]; ring

theorem stageW_false_half {s : Nat} (hs : s + 1 ≤ 23) :
    stageW false 3 (2 ^ (s + 1)) ^ 2 ^ s = -1 := by
  rw [stageW_false hs, ← pow_mul, ← three_pow_half]
  congr 1
  rw [mul_assoc, ← pow_add]
  have e : 23 - (s + 1) + s = 22 := by omega
  rw [e]
  norm_num

theorem stageW_true_sq {s : Nat} (hs : s + 1 ≤ 23) :
    stageW true 3 (2 ^ (s + 1)) ^ 2 = stageW true 3 (2 ^ s) := by
  rw [stageW_true, stageW_true, ← stageW_false_sq hs, ← pow_mul, ← pow_mul,
    mul_comm]

theorem stageW_true_half {s : Nat} (hs : s + 1 ≤ 23) :
    stageW true 3 (2 ^ (s + 1)) ^ 2 ^ s = -1 := by
  rw [stageW_true, ← pow_mul, mul_comm, pow_mul, stageW_false_half hs]
  exact Odd.neg_one_pow (by decide)

/-- The forward and the inverse twiddle factor of a stage are inverse to each
other. -/
theorem stageW_mul_inv {s : Nat} (hs : s ≤ 23) :
    stageW false 3 (2 ^ s) * stageW true 3 (2 ^ s) = 1 := by
  haveI := Q_prime_fact
  have h3 : (3 : FQ) ≠ 0 := by
    intro h
    have h' : ((3 : Nat) : ZMod 998244353) = 0 := by exact_mod_cast h
    rw [ZMod.natCast_zmod_eq_zero_iff_dvd] at h'
    omega
  have hne : stageW false 3 (2 ^ s) ≠ 0 := by
    rw [stageW_false hs]
    exact pow_ne_zero _ h3
  have hf : stageW false 3 (2 ^ s) ^ (998244353 - 1) = 1 := ZMod.pow_card_sub_one_eq_one hne
  rw [stageW_true, ← pow_succ']
  exact hf

theorem stageW_false_pow_len {m : Nat} (hm : m ≤ 23) :
    stageW false 3 (2 ^ m) ^ 2 ^ m = 1 := by
  rw [stageW_false hm, ← pow_mul, mul_assoc, ← pow_add]
  have e : 23 - m + m = 23 := by omega
  rw [e]
  have : 119 * 2 ^ 23 = 499122176 * 2 := by norm_num
  rw [this, pow_mul, three_pow_half]
  norm_num

theorem neg_one_ne_one_FQ : (-1 : FQ) ≠ 1 := by
  intro h
  have h2 : (2 : FQ) = 0 := by
    have : (1 : FQ) + 1 = 0 := by
      nth_rewrite 1 [← h]; ring
    rw [← this]; norm_num
  have h' : ((2 : Nat) : ZMod 998244353) = 0 := by exact_mod_cast h2
  rw [ZMod.natCast_zmod_eq_zero_iff_dvd] at h'
  omega

/-- The forward twiddle factor of length `2^m` has order exactly `2^m`. -/
theorem stageW_false_order {m : Nat} (hm : m ≤ 23) :
    ∀ d, 0 < d → d < 2 ^ m → stageW false 3 (2 ^ m) ^ d ≠ 1 := by
  intro d hd0 hd h
  cases m with
  | zero => simp at hd; omega
  | succ k =>
    have hnot : ¬ stageW false 3 (2 ^ (k + 1)) ^ 2 ^ k = 1 := by
      rw [stageW_false_half hm]
      exact neg_one_ne_one_FQ
    have hord := orderOf_eq_prime_pow hnot (stageW_false_pow_len hm)
    have hdvd : 2 ^ (k + 1) ∣ d := by
      rw [← hord]
      exact orderOf_dvd_iff_pow_eq_one.2 h
    have := Nat.le_of_dvd hd0 hdvd
    omega

/-! ## `ntt` as a whole -/

theorem ntt_eq (a : vll) (inverse : Bool) (root : ll) :
    ntt a inverse root =
      if wrap32 a.length = 1 then a
      else if inverse then
        (ntt_stages (wrap32 a.length).toNat inverse root (wrap32 a.length).toNat 2
          (ntt_bitrev (wrap32 a.length).toNat (wrap32 a.length).toNat 1 0 a)).map
          fun x => (x * mod_inv (wrap32 a.length) Q).tmod Q
      else ntt_stages (wrap32 a.length).toNat inverse root (wrap32 a.length).toNat 2
          (ntt_bitrev (wrap32 a.length).toNat (wrap32 a.length).toNat 1 0 a) := rfl

theorem bitrevF_zero (m : Nat) : bitrevF m 0 = 0 := by
  induction m with
  | zero => rfl
  | succ m ih => simp [bitrevF, ih]

/-- The bit-reversal pass of `ntt` on a vector of length `2^m`. -/
theorem ntt_bitrev_top (m : Nat) (x : vll) (hlen : x.length = 2 ^ m) (hr : InRange x) :
    (ntt_bitrev (2 ^ m) (2 ^ m) 1 0 x).length = 2 ^ m ∧
      InRange (ntt_bitrev (2 ^ m) (2 ^ m) 1 0 x) ∧
      ∀ p < 2 ^ m, coef (ntt_bitrev (2 ^ m) (2 ^ m) 1 0 x) p = coef x (bitrevF m p) := by
  have h := ntt_bitrev_spec m x (2 ^ m) 1 x (le_refl 1) (Nat.one_le_two_pow) (by omega) hlen
    (by
      intro p hp
      by_cases hc : p < 1 ∨ bitrevF m p < 1
      · rw [if_pos hc]
        have hp0 : p = 0 := by
          rcases hc with h | h
          · omega
          · have h0 : bitrevF m p = 0 := by omega
            have := bitrevF_bitrevF m p hp
            rw [h0, bitrevF_zero] at this
            exact this.symm
        rw [hp0, bitrevF_zero]
      · rw [if_neg hc])
  simp only [Nat.sub_self, bitrevF_zero] at h
  obtain ⟨h1, h2⟩ := h
  refine ⟨h1, ?_, fun p hp => ?_⟩
  · intro y hy
    obtain ⟨p, hp, rfl⟩ := List.getElem_of_mem hy
    have e : (ntt_bitrev (2 ^ m) (2 ^ m) 1 0 x)[p] = (ntt_bitrev (2 ^ m) (2 ^ m) 1 0 x).getD p 0 := by
      rw [List.getD_eq_getElem?_getD, List.getElem?_eq_getElem hp]; rfl
    rw [e, h2 p (by omega)]
    exact hr.getD _
  · unfold coef
    rw [h2 p hp]

theorem two_pow_ne_one_int {m : Nat} (hm : 1 ≤ m) : (2 : Int) ^ m ≠ 1 := by
  obtain ⟨k, rfl⟩ : ∃ k, m = k + 1 := ⟨m - 1, by omega⟩
  have : (1 : Int) ≤ 2 ^ k := one_le_pow₀ (by norm_num)
  rw [pow_succ]
  omega

/-- Before the normalisation, `ntt` on a vector of length `2^m` (`1 ≤ m ≤ 23`)
computes the discrete Fourier transform at the twiddle factor of the last
stage. -/
theorem ntt_stages_top (m : Nat) (hm1 : 1 ≤ m) (hm : m ≤ 23) (inverse : Bool) (x : vll)
    (hlen : x.length = 2 ^ m) (hr : InRange x) :
    (ntt_stages (2 ^ m) inverse 3 (2 ^ m) 2 (ntt_bitrev (2 ^ m) (2 ^ m) 1 0 x)).length = 2 ^ m ∧
      InRange (ntt_stages (2 ^ m) inverse 3 (2 ^ m) 2 (ntt_bitrev (2 ^ m) (2 ^ m) 1 0 x)) ∧
      ∀ k < 2 ^ m,
        coef (ntt_stages (2 ^ m) inverse 3 (2 ^ m) 2 (ntt_bitrev (2 ^ m) (2 ^ m) 1 0 x)) k
          = dftF (stageW inverse 3 (2 ^ m)) (2 ^ m) (coef x) k := by
  obtain ⟨b1, b2, b3⟩ := ntt_bitrev_top m x hlen hr
  generalize ntt_bitrev (2 ^ m) (2 ^ m) 1 0 x = a0 at b1 b2 b3 ⊢
  have h := ntt_stages_spec m inverse 3 (by norm_num) (coef a0) (2 ^ m) 0 a0 (Nat.zero_le _)
    (by have := Nat.lt_two_pow m; omega) b1 b2
    (by
      intro b k _ hk
      have : k = 0 := by simpa using hk
      subst this
      simp [nttF])
  simp only [zero_add, pow_one] at h
  obtain ⟨h1, h2, h3⟩ := h
  refine ⟨h1, h2, fun k hk => ?_⟩
  have hW2 : ∀ s < m, (fun t => stageW inverse 3 (2 ^ t)) (s + 1) ^ 2
      = (fun t => stageW inverse 3 (2 ^ t)) s := by
    intro s hs
    cases inverse with
    | false => exact stageW_false_sq (by omega)
    | true => exact stageW_true_sq (by omega)
  have hWneg : ∀ s < m, (fun t => stageW inverse 3 (2 ^ t)) (s + 1) ^ 2 ^ s = -1 := by
    intro s hs
    cases inverse with
    | false => exact stageW_false_half (by omega)
    | true => exact stageW_true_half (by omega)
  rw [h3 k hk, nttF_eq_sum _ m hW2 hWneg m le_rfl _ k hk]
  unfold dftF
  apply Finset.sum_congr rfl
  intro t ht
  have ht' : t < 2 ^ m := Finset.mem_range.1 ht
  rw [b3 _ (bitrevF_lt m t), bitrevF_bitrevF m t ht']

theorem ntt_false_spec (m : Nat) (hm1 : 1 ≤ m) (hm : m ≤ 23) (x : vll)
    (hlen : x.length = 2 ^ m) (hr : InRange x) :
    (ntt x false 3).length = 2 ^ m ∧ InRange (ntt x false 3) ∧
      ∀ k < 2 ^ m, coef (ntt x false 3) k = dftF (stageW false 3 (2 ^ m)) (2 ^ m) (coef x) k := by
  have h := ntt_stages_top m hm1 hm false x hlen hr
  rw [ntt_eq]
  simp only [hlen, Nat.cast_pow, Nat.cast_ofNat, wrap32_two_pow (show m ≤ 30 by omega),
    two_pow_toNat, if_neg (two_pow_ne_one_int hm1), Bool.false_eq_true, if_false]
  exact h

theorem ntt_true_spec (m : Nat) (hm1 : 1 ≤ m) (hm : m ≤ 23) (x : vll)
    (hlen : x.length = 2 ^ m) (hr : InRange x) :
    (ntt x true 3).length = 2 ^ m ∧ InRange (ntt x true 3) ∧
      ∀ k < 2 ^ m, coef (ntt x true 3) k
        = dftF (stageW true 3 (2 ^ m)) (2 ^ m) (coef x) k * toFQ (mod_inv ((2 : Int) ^ m) Q) := by
  obtain ⟨h1, h2, h3⟩ := ntt_stages_top m hm1 hm true x hlen hr
  rw [ntt_eq]
  simp only [hlen, Nat.cast_pow, Nat.cast_ofNat, wrap32_two_pow (show m ≤ 30 by omega),
    two_pow_toNat, if_neg (two_pow_ne_one_int hm1), if_true]
  obtain ⟨g1, g2, g3⟩ := coef_map_mul _ (mod_inv ((2 : Int) ^ m) Q) h2 (mod_inv_two_pow m).1
  refine ⟨by rw [g1, h1], g2, fun k hk => ?_⟩
  rw [g3 k (by rw [h1]; exact hk), h3 k hk]

theorem ntt_roundtrip_aux (m : Nat) (hm : m ≤ 23) (x : vll) (hlen : x.length = 2 ^ m)
    (hr : InRange x) : ntt (ntt x false 3) true 3 = x := by
  by_cases hm0 : m = 0
  · subst hm0
    have hw : wrap32 ((x.length : Nat) : Int) = 1 := by rw [hlen]; decide
    rw [ntt_eq x, if_pos hw, ntt_eq x, if_pos hw]
  · have hm1 : 1 ≤ m := by omega
    obtain ⟨h1, h2, h3⟩ := ntt_false_spec m hm1 hm x hlen hr
    obtain ⟨g1, g2, g3⟩ := ntt_true_spec m hm1 hm (ntt x false 3) h1 h2
    apply eq_of_coef_eq (by rw [g1, hlen]) g2 hr
    intro p hp
    rw [g1] at hp
    rw [g3 p hp, dftF_congr _ _ _ _ h3,
      dftF_dftF (stageW_mul_inv hm) (2 ^ m) (stageW_false_pow_len hm) (stageW_false_order hm) _ p hp]
    have hN : ((2 ^ m : Nat) : FQ) = (2 : FQ) ^ m := by push_cast; rfl
    rw [hN]
    calc (2 : FQ) ^ m * coef x p * toFQ (mod_inv ((2 : Int) ^ m) Q)
        = ((2 : FQ) ^ m * toFQ (mod_inv ((2 : Int) ^ m) Q)) * coef x p := by ring
      _ = coef x p := by rw [(mod_inv_two_pow m).2, one_mul]

/-! ## Integer values of the transforms -/

theorem emod_eq_of_toFQ {a r : Int} (hr0 : 0 ≤ r) (hr : r < Q) (h : toFQ a = toFQ r) :
    a % Q = r := by
  apply toFQ_inj_of_residues (Int.emod_nonneg _ (by decide)) (Int.emod_lt_of_pos _ Q_pos) hr0 hr
  rw [toFQ_emod, h]

theorem toFQ_pow (a : Int) (e : Nat) : toFQ (a ^ e) = toFQ a ^ e := by
  simp [toFQ]

theorem toFQ_Q_sub_one : toFQ (Q - 1) = -1 := by
  have hq := toFQ_Q
  simp only [toFQ] at hq ⊢
  push_cast
  rw [hq, zero_sub]

theorem toFQ_stage_twiddle (len : Nat) :
    toFQ (mod_pow 3 ((Q - 1) / (len : Int)) Q) = stageW false 3 len := by
  unfold stageW
  simp

theorem toFQ_dft_spec (m : Nat) (hm : m ≤ 23) (x : vll) (hlen : x.length = 2 ^ m) (k : Nat) :
    toFQ (dft_spec x k) = dftF (stageW false 3 (2 ^ m)) (2 ^ m) (coef x) k := by
  have he : (998244353 - 1) / 2 ^ m = 119 * 2 ^ (23 - m) := by
    have h : 998244353 - 1 = 119 * 2 ^ (23 - m) * 2 ^ m := by
      rw [mul_assoc, ← pow_add]
      have e : 23 - m + m = 23 := by omega
      rw [e]
      norm_num
    rw [h]
    exact Nat.mul_div_cancel _ (Nat.two_pow_pos m)
  have hw : toFQ ((3 : Int) ^ (119 * 2 ^ (23 - m)) % Q) = stageW false 3 (2 ^ m) := by
    rw [toFQ_emod, stageW_false hm]
    simp [toFQ]
  unfold dft_spec dftF
  rw [toFQ_emod, hlen, he]
  simp only [toFQ] at hw ⊢
  push_cast at hw ⊢
  rw [hw]
  rfl

theorem getD_replicate_of_lt {n i : Nat} (h : i < n) (a d : ll) :
    (List.replicate n a).getD i d = a := by
  rw [List.getD_eq_getElem?_getD, List.getElem?_replicate_of_lt h]
  rfl

theorem ntt_length_one (x : vll) (hlen : x.length = 1) (inverse : Bool) :
    ntt x inverse 3 = x := by
  have hw : wrap32 ((x.length : Nat) : Int) = 1 := by rw [hlen]; decide
  rw [ntt_eq x, if_pos hw]

theorem fwht_twice_aux (m : Nat) (hm : m ≤ 30) (x : vll) (hlen : x.length = 2 ^ m)
    (hr : InRange x) (i : Nat) (hi : i < 2 ^ m) :
    (fwht (fwht x false) false).getD i 0 = (((2 ^ m : Nat) : Int) * x.getD i 0) % Q := by
  obtain ⟨h1, h2, h3⟩ := fwht_false_spec m hm x hlen hr
  obtain ⟨g1, g2, g3⟩ := fwht_false_spec m hm (fwht x false) h1 h2
  apply toFQ_inj_of_residues (g2.getD i).1 (g2.getD i).2 (Int.emod_nonneg _ (by decide))
    (Int.emod_lt_of_pos _ Q_pos)
  rw [toFQ_emod]
  have e := g3 i hi
  rw [whtF_congr m _ _ i h3, whtF_whtF m _ i hi] at e
  unfold coef at e
  rw [e]
  simp [toFQ]

/-! ## The bucket index when nothing overflows -/

/-- When `(i * n + j) * 31` fits an `int`, the bucket is the mathematical
remainder. -/
theorem bucket_eq_of_fits (n N i j : Nat) (hfit : (i * n + j) * 31 < 2 ^ 31) :
    DreamFunction.bucket (n : Int) (N : Int) i j = (((i * n + j) * 31 % N : Nat) : Int) := by
  unfold DreamFunction.bucket
  have h0 : (i : Int) * (n : Int) = ((i * n : Nat) : Int) := by push_cast; rfl
  have h1 : i * n ≤ (i * n + j) * 31 := by omega
  have h2 : i * n + j ≤ (i * n + j) * 31 := by omega
  have w1 : wrap32 ((i : Int) * (n : Int)) = ((i * n : Nat) : Int) := by
    rw [h0]; apply wrap32_of_bounds <;> omega
  have w2 : wrap32 (((i * n : Nat) : Int) + (j : Int)) = ((i * n + j : Nat) : Int) := by
    rw [← Nat.cast_add]; apply wrap32_of_bounds <;> omega
  have w3 : wrap32 (((i * n + j : Nat) : Int) * 31) = (((i * n + j) * 31 : Nat) : Int) := by
    have : ((i * n + j : Nat) : Int) * 31 = (((i * n + j) * 31 : Nat) : Int) := by push_cast; rfl
    rw [this]; apply wrap32_of_bounds <;> omega
  rw [w1]
  rw [w2]
  rw [w3]
  have hnn : (0 : Int) ≤ (((i * n + j) * 31 : Nat) : Int) := Int.ofNat_nonneg _
  have hN0 : (0 : Int) ≤ (N : Int) := Int.ofNat_nonneg _
  rw [Int.tmod_eq_emod hnn hN0]
  exact (Int.natCast_mod _ _).symm

theorem index_lt_sq {n i j : Nat} (hi : i < n) (hj : j < n) : i * n + j < n * n := by
  have h : (i + 1) * n ≤ n * n := Nat.mul_le_mul_right n hi
  have e : (i + 1) * n = i * n + n := by ring
  omega

theorem index_injective {n i j i' j' : Nat} (hj : j < n) (hj' : j' < n)
    (h : i * n + j = i' * n + j') : i = i' ∧ j = j' := by
  have hn : 0 < n := by omega
  have e1 : (i * n + j) / n = i := by
    rw [add_comm, Nat.add_mul_div_right _ _ hn, Nat.div_eq_of_lt hj, zero_add]
  have e2 : (i' * n + j') / n = i' := by
    rw [add_comm, Nat.add_mul_div_right _ _ hn, Nat.div_eq_of_lt hj', zero_add]
  have hi : i = i' := by rw [← e1, ← e2, h]
  subst hi
  exact ⟨rfl, by omega⟩

/-- Multiplication by `31` is injective modulo a power of two. -/
theorem mul_31_injective_mod {e a b : Nat} (ha : a < 2 ^ e) (hb : b < 2 ^ e)
    (h : a * 31 % 2 ^ e = b * 31 % 2 ^ e) : a = b := by
  have hc : Nat.gcd (2 ^ e) 31 = 1 := by
    have : Nat.Coprime 2 31 := by norm_num
    exact Nat.Coprime.pow_left e this
  have hmod : a ≡ b [MOD 2 ^ e] := Nat.ModEq.cancel_right_of_coprime hc h
  have : a % 2 ^ e = b % 2 ^ e := hmod
  rwa [Nat.mod_eq_of_lt ha, Nat.mod_eq_of_lt hb] at this

/-- For `n * n ≤ 16384` the constructor's length is a power of two that is at
least `n * n`. -/
theorem sizing_of_small (n : Nat) (hn : n * n ≤ 16384) :
    ∃ e : Nat, e ≤ 14 ∧ DreamFunction.sizing (n : Int) = ((2 ^ e : Nat) : Int) ∧ n * n ≤ 2 ^ e := by
  obtain ⟨e, he, hs, hge, _⟩ := sizing_spec (n : Int)
  have hw : wrap32 ((n : Int) * (n : Int)) = ((n * n : Nat) : Int) := by
    have : (n : Int) * (n : Int) = ((n * n : Nat) : Int) := by push_cast; rfl
    rw [this]; apply wrap32_of_bounds <;> omega
  rw [hw] at hge
  have hmin : min (((n * n : Nat) : Int)) 16384 = ((n * n : Nat) : Int) := by
    apply min_eq_left; omega
  rw [hmin] at hge
  have hcast : ((2 ^ e : Nat) : Int) = (2 : Int) ^ e := Nat.cast_pow 2 e
  refine ⟨e, he, by rw [hs, hcast], ?_⟩
  rw [← hcast] at hge
  exact Int.ofNat_le.1 hge

/-! ## Headroom of the 64-bit arithmetic -/

theorem residue_mul_le {a b : Int} (ha : 0 ≤ a ∧ a < Q) (hb : 0 ≤ b ∧ b < Q) :
    0 ≤ a * b ∧ a * b ≤ (Q - 1) ^ 2 := by
  refine ⟨mul_nonneg ha.1 hb.1, ?_⟩
  have h1 : a ≤ Q - 1 := by omega
  have h2 : b ≤ Q - 1 := by omega
  calc a * b ≤ (Q - 1) * (Q - 1) := mul_le_mul h1 h2 hb.1 (by decide)
    _ = (Q - 1) ^ 2 := by ring

theorem Q_sq_lt : (Q - 1) ^ 2 < 2 ^ 63 := by decide

theorem wrap64_mul_residues {a b : Int} (ha : 0 ≤ a ∧ a < Q) (hb : 0 ≤ b ∧ b < Q) :
    wrap64 (a * b) = a * b := by
  have h := residue_mul_le ha hb
  have hq : (Q - 1) ^ 2 < 2 ^ 63 := by decide
  have h0 := h.1
  have h1 := lt_of_le_of_lt h.2 hq
  apply wrap64_of_bounds <;> omega

theorem wrap64_add_residues {a b : Int} (ha : 0 ≤ a ∧ a < Q) (hb : 0 ≤ b ∧ b < Q) :
    wrap64 (a + b) = a + b := by
  have ha' : a < 998244353 := ha.2
  have hb' : b < 998244353 := hb.2
  apply wrap64_of_bounds <;> omega

theorem wrap64_sub_residues {a b : Int} (ha : 0 ≤ a ∧ a < Q) (hb : 0 ≤ b ∧ b < Q) :
    wrap64 (wrap64 (a - b) + Q) = a - b + Q := by
  have ha' : a < 998244353 := ha.2
  have hb' : b < 998244353 := hb.2
  have h1 : wrap64 (a - b) = a - b := by apply wrap64_of_bounds <;> omega
  rw [h1]
  show wrap64 (a - b + 998244353) = a - b + 998244353
  apply wrap64_of_bounds <;> omega

theorem mod_pow_loop_unbounded_eq (fuel : Nat) :
    ∀ (result base exp : Int), (0 ≤ result ∧ result < Q) → (0 ≤ base ∧ base < Q) →
      mod_pow_loop Q fuel result base exp = mod_pow_loop_unbounded Q fuel result base exp := by
  induction fuel with
  | zero => intro _ _ _ _ _; rfl
  | succ fuel ih =>
    intro result base exp hr hb
    unfold mod_pow_loop mod_pow_loop_unbounded
    by_cases hpos : exp > 0
    · rw [if_pos hpos, if_pos hpos]
      simp only [wrap64_mul_residues hr hb, wrap64_mul_residues hb hb]
      apply ih
      · split_ifs
        · exact (mul_tmod_spec hr hb).1
        · exact hr
      · exact (mul_tmod_spec hb hb).1
    · rw [if_neg hpos, if_neg hpos]

theorem mod_pow_unbounded_eq {a : Int} (ha : 0 ≤ a) (e : Int) :
    mod_pow a e Q = mod_pow_unbounded a e Q := by
  unfold mod_pow mod_pow_unbounded
  apply mod_pow_loop_unbounded_eq _ _ _ _ one_in_range
  rw [Int.tmod_eq_emod ha Q_pos.le]
  exact ⟨Int.emod_nonneg _ (by decide), Int.emod_lt_of_pos _ Q_pos⟩


theorem neg_lt_tmod (a : Int) {b : Int} (hb : 0 < b) : -b < a.tmod b := by
  by_cases ha : 0 ≤ a
  · have := Int.tmod_nonneg b ha
    omega
  · have h1 : 0 ≤ -a := by omega
    have h2 := Int.tmod_lt_of_pos (-a) hb
    have h3 : (-a).tmod b = -(a.tmod b) := by
      rw [Int.tmod_def, Int.tmod_def, Int.neg_tdiv]; ring
    omega

/-! ## The 64-bit transforms agree with the unbounded ones -/

theorem ntt_inner64_eq (i len : Nat) (w : ll) (hw : 0 ≤ w ∧ w < Q) :
    ∀ (fuel j : Nat) (wn : ll) (a : vll), InRange a → (0 ≤ wn ∧ wn < Q) →
      ntt_inner64 i len w fuel j wn a = ntt_inner i len w fuel j wn a ∧
        InRange (ntt_inner i len w fuel j wn a) := by
  intro fuel
  induction fuel with
  | zero => intro j wn a hr _; exact ⟨rfl, hr⟩
  | succ fuel ih =>
    intro j wn a hr hwn
    unfold ntt_inner64 ntt_inner
    by_cases hlt : j < len / 2
    · rw [if_pos hlt, if_pos hlt]
      have hu := hr.getD (i + j)
      have hy := hr.getD (i + j + len / 2)
      have hv := (mul_tmod_spec hy hwn).1
      simp only [wrap64_mul_residues hy hwn, wrap64_add_residues hu hv,
        wrap64_sub_residues hu hv, wrap64_mul_residues hwn hw]
      exact ih _ _ _ ((hr.set _ (add_tmod_spec hu hv).1).set _ (sub_tmod_spec hu hv).1)
        (mul_tmod_spec hwn hw).1
    · rw [if_neg hlt, if_neg hlt]
      exact ⟨rfl, hr⟩

theorem ntt_blocks64_eq (n len : Nat) (w : ll) (hw : 0 ≤ w ∧ w < Q) :
    ∀ (fuel i : Nat) (a : vll), InRange a →
      ntt_blocks64 n len w fuel i a = ntt_blocks n len w fuel i a ∧
        InRange (ntt_blocks n len w fuel i a) := by
  intro fuel
  induction fuel with
  | zero => intro i a hr; exact ⟨rfl, hr⟩
  | succ fuel ih =>
    intro i a hr
    unfold ntt_blocks64 ntt_blocks
    by_cases hlt : i < n
    · rw [if_pos hlt, if_pos hlt]
      obtain ⟨e, hr'⟩ := ntt_inner64_eq i len w hw (len / 2) 0 1 a hr one_in_range
      rw [e]
      exact ih _ _ hr'
    · rw [if_neg hlt, if_neg hlt]
      exact ⟨rfl, hr⟩

theorem ntt_stages64_eq (n : Nat) (inverse : Bool) :
    ∀ (fuel len : Nat) (a : vll), InRange a →
      ntt_stages64 n inverse 3 fuel len a = ntt_stages n inverse 3 fuel len a ∧
        InRange (ntt_stages n inverse 3 fuel len a) := by
  intro fuel
  induction fuel with
  | zero => intro len a hr; exact ⟨rfl, hr⟩
  | succ fuel ih =>
    intro len a hr
    unfold ntt_stages64 ntt_stages
    by_cases hle : len ≤ n
    · rw [if_pos hle, if_pos hle]
      have hw := stage_w_in_range inverse 3 (by norm_num) len
      simp only []
      obtain ⟨e, hr'⟩ := ntt_blocks64_eq n len _ hw n 0 a hr
      rw [e]
      exact ih _ _ hr'
    · rw [if_neg hle, if_neg hle]
      exact ⟨rfl, hr⟩

theorem ntt_bitrev_range (n : Nat) :
    ∀ (fuel i j : Nat) (a : vll), InRange a → InRange (ntt_bitrev n fuel i j a) := by
  intro fuel
  induction fuel with
  | zero => intro i j a hr; exact hr
  | succ fuel ih =>
    intro i j a hr
    unfold ntt_bitrev
    by_cases hlt : i < n
    · rw [if_pos hlt]
      simp only []
      apply ih
      split_ifs
      · exact (hr.set _ (hr.getD _)).set _ (hr.getD _)
      · exact hr
    · rw [if_neg hlt]
      exact hr


/-- Every result of `mod_pow` with modulus `Q` lies strictly between `-Q` and
`Q`, whatever the base. -/
theorem mod_pow_loop_abs_lt (fuel : Nat) :
    ∀ (result base exp : Int), (-Q < result ∧ result < Q) →
      -Q < mod_pow_loop Q fuel result base exp ∧ mod_pow_loop Q fuel result base exp < Q := by
  induction fuel with
  | zero => intro _ _ _ h; exact h
  | succ fuel ih =>
    intro result base exp hr
    unfold mod_pow_loop
    by_cases hpos : exp > 0
    · rw [if_pos hpos]
      apply ih
      split_ifs
      · exact ⟨neg_lt_tmod _ Q_pos, Int.tmod_lt_of_pos _ Q_pos⟩
      · exact hr
    · rw [if_neg hpos]
      exact hr

theorem mod_pow_abs_lt (b e : Int) : -Q < mod_pow b e Q ∧ mod_pow b e Q < Q := by
  unfold mod_pow
  exact mod_pow_loop_abs_lt _ _ _ _ (by decide)

theorem wrap64_mul_of_abs_lt {x c : Int} (hx : 0 ≤ x ∧ x < Q) (hc : -Q < c ∧ c < Q) :
    wrap64 (x * c) = x * c := by
  by_cases h0 : 0 ≤ c
  · exact wrap64_mul_residues hx ⟨h0, hc.2⟩
  · have hc' : 0 ≤ -c ∧ -c < Q := ⟨neg_nonneg.2 (le_of_lt (not_le.1 h0)), neg_lt.1 hc.1⟩
    have h := residue_mul_le hx hc'
    have hq : (Q - 1) ^ 2 < 2 ^ 63 := by decide
    have e : x * -c = -(x * c) := by ring
    rw [e] at h
    have h1 := h.1
    have h2 := lt_of_le_of_lt h.2 hq
    apply wrap64_of_bounds <;> omega

theorem map_mul64_eq (a : vll) (hr : InRange a) (c : Int) (hc : -Q < c ∧ c < Q) :
    (a.map fun x => (wrap64 (x * c)).tmod Q) = a.map fun x => (x * c).tmod Q := by
  apply List.map_congr_left
  intro x hx
  rw [wrap64_mul_of_abs_lt (hr x hx) hc]

theorem ntt64_eq (x : vll) (hr : InRange x) (inverse : Bool) :
    ntt64 x inverse 3 = ntt x inverse 3 := by
  unfold ntt64 ntt
  simp only []
  by_cases h1 : wrap32 (x.length : Int) = 1
  · rw [if_pos h1, if_pos h1]
  · rw [if_neg h1, if_neg h1]
    obtain ⟨e, hr'⟩ := ntt_stages64_eq (wrap32 (x.length : Int)).toNat inverse
      (wrap32 (x.length : Int)).toNat 2 _
      (ntt_bitrev_range (wrap32 (x.length : Int)).toNat (wrap32 (x.length : Int)).toNat 1 0 x hr)
    rw [e]
    cases inverse with
    | false => simp only [Bool.false_eq_true, if_false]
    | true =>
      simp only [if_true]
      exact map_mul64_eq _ hr' _ (mod_pow_abs_lt _ _)

theorem fwht_inner64_eq (i len : Nat) :
    ∀ (fuel j : Nat) (a : vll), InRange a →
      fwht_inner64 i len fuel j a = fwht_inner i len fuel j a ∧
        InRange (fwht_inner i len fuel j a) := by
  intro fuel
  induction fuel with
  | zero => intro j a hr; exact ⟨rfl, hr⟩
  | succ fuel ih =>
    intro j a hr
    unfold fwht_inner64 fwht_inner
    by_cases hlt : j < len
    · rw [if_pos hlt, if_pos hlt]
      have hu := hr.getD (i + j)
      have hv := hr.getD (i + j + len)
      simp only [wrap64_add_residues hu hv, wrap64_sub_residues hu hv]
      exact ih _ _ ((hr.set _ (add_tmod_spec hu hv).1).set _ (sub_tmod_spec hu hv).1)
    · rw [if_neg hlt, if_neg hlt]
      exact ⟨rfl, hr⟩

theorem fwht_blocks64_eq (n len : Nat) :
    ∀ (fuel i : Nat) (a : vll), InRange a →
      fwht_blocks64 n len fuel i a = fwht_blocks n len fuel i a ∧
        InRange (fwht_blocks n len fuel i a) := by
  intro fuel
  induction fuel with
  | zero => intro i a hr; exact ⟨rfl, hr⟩
  | succ fuel ih =>
    intro i a hr
    unfold fwht_blocks64 fwht_blocks
    by_cases hlt : i < n
    · rw [if_pos hlt, if_pos hlt]
      obtain ⟨e, hr'⟩ := fwht_inner64_eq i len len 0 a hr
      rw [e]
      exact ih _ _ hr'
    · rw [if_neg hlt, if_neg hlt]
      exact ⟨rfl, hr⟩

theorem fwht_stages64_eq (n : Nat) :
    ∀ (fuel len : Nat) (a : vll), InRange a →
      fwht_stages64 n fuel len a = fwht_stages n fuel len a ∧
        InRange (fwht_stages n fuel len a) := by
  intro fuel
  induction fuel with
  | zero => intro len a hr; exact ⟨rfl, hr⟩
  | succ fuel ih =>
    intro len a hr
    unfold fwht_stages64 fwht_stages
    by_cases hlt : len < n
    · rw [if_pos hlt, if_pos hlt]
      obtain ⟨e, hr'⟩ := fwht_blocks64_eq n len n 0 a hr
      rw [e]
      exact ih _ _ hr'
    · rw [if_neg hlt, if_neg hlt]
      exact ⟨rfl, hr⟩

theorem fwht64_eq (x : vll) (hr : InRange x) (inverse : Bool) :
    fwht64 x inverse = fwht x inverse := by
  unfold fwht64 fwht
  simp only []
  obtain ⟨e, hr'⟩ := fwht_stages64_eq (wrap32 (x.length : Int)).toNat
    (wrap32 (x.length : Int)).toNat 1 x hr
  rw [e]
  cases inverse with
  | false => simp only [Bool.false_eq_true, if_false]
  | true =>
    simp only [if_true]
    exact map_mul64_eq _ hr' _ (mod_pow_abs_lt _ _)

theorem fuse_mul64_eq : ∀ (psi P : vll), InRange psi → InRange P →
    fuse_mul64 psi P = List.zipWith (fun x p => (x * p).tmod Q) psi P := by
  intro psi
  induction psi with
  | nil => intro P _ _; simp [fuse_mul64]
  | cons a psi ih =>
    intro P h1 h2
    cases P with
    | nil => simp [fuse_mul64]
    | cons b P =>
      have ha := h1 a (List.mem_cons_self _ _)
      have hb := h2 b (List.mem_cons_self _ _)
      have ht1 : InRange psi := fun x hx => h1 x (List.mem_cons_of_mem _ hx)
      have ht2 : InRange P := fun x hx => h2 x (List.mem_cons_of_mem _ hx)
      have := ih P ht1 ht2
      unfold fuse_mul64 at this ⊢
      simp only [List.zipWith_cons_cons, wrap64_mul_residues ha hb, this]
/-! ## Phase 1 when no bucket index overflows -/

theorem getD_eq_of_getElem? {α : Type} (l : List α) (i : Nat) (hi : i < l.length) (d : α) :
    l[i]? = some (l.getD i d) := by
  rw [List.getD_eq_getElem?_getD, List.getElem?_eq_getElem hi]
  rfl

theorem getD_mem {α : Type} (l : List α) (i : Nat) (hi : i < l.length) (d : α) :
    l.getD i d ∈ l := by
  have h := getD_eq_of_getElem? l i hi d
  rw [List.getElem?_eq_getElem hi] at h
  have e : l[i] = l.getD i d := Option.some.inj h
  rw [← e]
  exact List.getElem_mem _

theorem WellFormed.entry (d : DreamFunction) (n e : Nat) (h : WellFormed d n e) (i j : Nat)
    (hi : i < n) (hj : j < n) :
    d.M[i]? = some (d.M.getD i []) ∧ (d.M.getD i [])[j]? = some ((d.M.getD i []).getD j 0) ∧
      (0 ≤ (d.M.getD i []).getD j 0 ∧ (d.M.getD i []).getD j 0 < Q) := by
  have hi' : i < d.M.length := by rw [h.hlen]; exact hi
  have hrow := getD_mem d.M i hi' []
  have hj' : j < (d.M.getD i []).length := by rw [h.hsq _ hrow]; exact hj
  exact ⟨getD_eq_of_getElem? _ _ hi' _, getD_eq_of_getElem? _ _ hj' _,
    h.hent _ hrow _ (getD_mem _ _ hj' _)⟩

theorem encode_row_spec (d : DreamFunction) (n e : Nat) (h : WellFormed d n e) (i : Nat)
    (hi : i < n) :
    ∀ (fuel j : Nat) (P : vll), n - j ≤ fuel → j ≤ n → P.length = 2 ^ e → InRange P →
      ∃ P', DreamFunction.encode_row d i fuel j P = some P' ∧ P'.length = 2 ^ e ∧ InRange P' ∧
        ∀ b, coef P' b = coef P b + ∑ c in Finset.Ico j n,
          if (i * n + c) * 31 % 2 ^ e = b then toFQ ((d.M.getD i []).getD c 0) else 0 := by
  intro fuel
  induction fuel with
  | zero =>
    intro j P hf hj hlen hr
    have : j = n := by omega
    subst this
    exact ⟨P, rfl, hlen, hr, fun b => by simp⟩
  | succ fuel ih =>
    intro j P hf hj hlen hr
    unfold DreamFunction.encode_row
    by_cases hlt : j < n
    · have hlt' : (j : Int) < d.n := by rw [h.hn]; exact_mod_cast hlt
      obtain ⟨e1, e2, hm⟩ := h.entry d n e i j hi hlt
      have hb : DreamFunction.bucket d.n d.N i j = (((i * n + j) * 31 % 2 ^ e : Nat) : Int) := by
        rw [h.hn, h.hN]
        exact bucket_eq_of_fits n (2 ^ e) i j (h.hfit i j hi hlt)
      have hidx : (i * n + j) * 31 % 2 ^ e < 2 ^ e := Nat.mod_lt _ (Nat.two_pow_pos e)
      rw [if_pos hlt', hb]
      simp only [Int.toNat_ofNat, Int.ofNat_nonneg, true_and, hlen, hidx, if_true, e1, e2]
      generalize hidxeq : (i * n + j) * 31 % 2 ^ e = idx at hidx ⊢
      have hsum := add_tmod_spec (hr.getD idx) hm
      obtain ⟨P', p1, p2, p3, p4⟩ := ih (j + 1)
        (P.set idx ((P.getD idx 0 + (d.M.getD i []).getD j 0).tmod Q)) (by omega) (by omega)
        (by rw [List.length_set]; exact hlen) (hr.set _ hsum.1)
      refine ⟨P', p1, p2, p3, fun b => ?_⟩
      rw [p4 b, coef_set, Finset.sum_eq_sum_Ico_succ_bot hlt, hsum.2, hidxeq]
      by_cases hbi : b = idx
      · subst hbi
        rw [if_pos ⟨rfl, by omega⟩, if_pos rfl]
        unfold coef
        ring
      · have hib : ¬ idx = b := fun h => hbi h.symm
        rw [if_neg (fun h => hbi h.1), if_neg hib, zero_add]
    · have hlt' : ¬ (j : Int) < d.n := by rw [h.hn]; exact_mod_cast hlt
      rw [if_neg hlt']
      have : j = n := by omega
      subst this
      exact ⟨P, rfl, hlen, hr, fun b => by simp⟩

theorem coef_replicate_zero (N b : Nat) : coef (List.replicate N 0) b = 0 := by
  unfold coef
  by_cases hb : b < N
  · rw [getD_replicate_of_lt hb]; simp [toFQ]
  · have : (List.replicate N (0 : ll))[b]? = none := by
      rw [List.getElem?_eq_none]; simpa using hb
    rw [List.getD_eq_getElem?_getD, this]; simp [toFQ]

theorem inRange_replicate (N : Nat) (v : ll) (hv : 0 ≤ v ∧ v < Q) :
    InRange (List.replicate N v) := by
  intro x hx
  rw [List.eq_of_mem_replicate hx]
  exact hv

theorem WellFormed.toNat (d : DreamFunction) (n e : Nat) (h : WellFormed d n e) :
    d.n.toNat = n ∧ d.N.toNat = 2 ^ e := by
  rw [h.hn, h.hN]
  exact ⟨Int.toNat_ofNat _, Int.toNat_ofNat _⟩

/-- The row buffer of a well-formed instance: the encoding succeeds and bucket
`b` holds the sum of the entries that are mapped to it. -/
theorem row_buffer_spec (d : DreamFunction) (n e : Nat) (h : WellFormed d n e) (i : Nat)
    (hi : i < n) :
    DreamFunction.encode_row d i d.n.toNat 0 (List.replicate d.N.toNat 0)
        = some (d.row_buffer i) ∧
      (d.row_buffer i).length = 2 ^ e ∧ InRange (d.row_buffer i) ∧
      ∀ b, coef (d.row_buffer i) b = ∑ c in Finset.range n,
        if (i * n + c) * 31 % 2 ^ e = b then toFQ ((d.M.getD i []).getD c 0) else 0 := by
  obtain ⟨t1, t2⟩ := h.toNat
  obtain ⟨P', p1, p2, p3, p4⟩ := encode_row_spec d n e h i hi n 0 (List.replicate (2 ^ e) 0)
    (by omega) (Nat.zero_le _) (List.length_replicate _ _)
    (inRange_replicate _ 0 ⟨le_refl _, Q_pos⟩)
  have hb : d.row_buffer i = P' := by
    unfold DreamFunction.row_buffer
    rw [t1, t2, p1]
    rfl
  rw [hb, t1, t2]
  refine ⟨p1, p2, p3, fun b => ?_⟩
  rw [p4 b, coef_replicate_zero, zero_add, Finset.range_eq_Ico]

theorem toFQ_row_spec (M : matrix) (n N i b : Nat) :
    toFQ (row_spec M n N i b) = ∑ c in Finset.range n,
      if (i * n + c) * 31 % N = b then toFQ ((M.getD i []).getD c 0) else 0 := by
  unfold row_spec
  rw [toFQ_emod, Finset.sum_filter]
  simp only [toFQ]
  push_cast
  apply Finset.sum_congr rfl
  intro c _
  split_ifs <;> simp

theorem row_buffer_eq_row_spec (d : DreamFunction) (n e : Nat) (h : WellFormed d n e) (i : Nat)
    (hi : i < n) (b : Nat) :
    (d.row_buffer i).getD b 0 = row_spec d.M n (2 ^ e) i b := by
  obtain ⟨_, _, p3, p4⟩ := row_buffer_spec d n e h i hi
  have hs : 0 ≤ row_spec d.M n (2 ^ e) i b ∧ row_spec d.M n (2 ^ e) i b < Q :=
    ⟨Int.emod_nonneg _ (by decide), Int.emod_lt_of_pos _ Q_pos⟩
  exact toFQ_inj_of_residues (p3.getD b).1 (p3.getD b).2 hs.1 hs.2
    ((p4 b).trans (toFQ_row_spec d.M n (2 ^ e) i b).symm)
/-! ## Phases 1 to 3 in closed form -/

theorem getD_eq_getElem (a : vll) (p : Nat) (hp : p < a.length) : a.getD p 0 = a[p] := by
  rw [List.getD_eq_getElem?_getD, List.getElem?_eq_getElem hp]; rfl

theorem coef_zipWith_mul (psi P : vll) (N : Nat) (h1 : psi.length = N) (h2 : P.length = N)
    (r1 : InRange psi) (r2 : InRange P) :
    (List.zipWith (fun x p => (x * p).tmod Q) psi P).length = N ∧
      InRange (List.zipWith (fun x p => (x * p).tmod Q) psi P) ∧
      ∀ f < N, coef (List.zipWith (fun x p => (x * p).tmod Q) psi P) f
        = coef psi f * coef P f := by
  have hl : (List.zipWith (fun x p => (x * p).tmod Q) psi P).length = N := by
    rw [List.length_zipWith, h1, h2, Nat.min_self]
  refine ⟨hl, ?_, ?_⟩
  · intro y hy
    obtain ⟨p, hp, rfl⟩ := List.getElem_of_mem hy
    rw [List.getElem_zipWith]
    exact (mul_tmod_spec (r1 _ (List.getElem_mem _)) (r2 _ (List.getElem_mem _))).1
  · intro f hf
    unfold coef
    rw [getD_eq_getElem _ f (by rw [hl]; exact hf), getD_eq_getElem psi f (by rw [h1]; exact hf),
      getD_eq_getElem P f (by rw [h2]; exact hf), List.getElem_zipWith]
    exact (mul_tmod_spec (r1 _ (List.getElem_mem _)) (r2 _ (List.getElem_mem _))).2

theorem ntt_false_keeps (e : Nat) (he : e ≤ 23) (P : vll) (hlen : P.length = 2 ^ e)
    (hr : InRange P) : (ntt P false 3).length = 2 ^ e ∧ InRange (ntt P false 3) := by
  by_cases h0 : e = 0
  · subst h0
    rw [ntt_length_one P hlen]
    exact ⟨hlen, hr⟩
  · obtain ⟨h1, h2, _⟩ := ntt_false_spec e (by omega) he P hlen hr
    exact ⟨h1, h2⟩

theorem fuse_rows_spec (d : DreamFunction) (n e : Nat) (h : WellFormed d n e) :
    ∀ (fuel i : Nat) (psi : vll), n - i ≤ fuel → i ≤ n → psi.length = 2 ^ e → InRange psi →
      ∃ psi', DreamFunction.fuse_rows d fuel i psi = some psi' ∧ psi'.length = 2 ^ e ∧
        InRange psi' ∧
        ∀ f < 2 ^ e, coef psi' f
          = coef psi f * ∏ r in Finset.Ico i n, coef (ntt (d.row_buffer r) false 3) f := by
  intro fuel
  induction fuel with
  | zero =>
    intro i psi hf hi hlen hr
    have : i = n := by omega
    subst this
    exact ⟨psi, rfl, hlen, hr, fun f _ => by simp⟩
  | succ fuel ih =>
    intro i psi hf hi hlen hr
    unfold DreamFunction.fuse_rows
    by_cases hlt : i < n
    · have hlt' : (i : Int) < d.n := by rw [h.hn]; exact_mod_cast hlt
      obtain ⟨b1, b2, b3, _⟩ := row_buffer_spec d n e h i hlt
      obtain ⟨n1, n2⟩ := ntt_false_keeps e (by have := h.he; omega) _ b2 b3
      obtain ⟨z1, z2, z3⟩ := coef_zipWith_mul psi _ (2 ^ e) hlen n1 hr n2
      rw [if_pos hlt', b1]
      simp only []
      obtain ⟨psi', q1, q2, q3, q4⟩ := ih (i + 1) _ (by omega) (by omega) z1 z2
      refine ⟨psi', q1, q2, q3, fun f hf' => ?_⟩
      rw [q4 f hf', z3 f hf', Finset.prod_eq_prod_Ico_succ_bot hlt, mul_assoc]
    · have hlt' : ¬ (i : Int) < d.n := by rw [h.hn]; exact_mod_cast hlt
      rw [if_neg hlt']
      have : i = n := by omega
      subst this
      exact ⟨psi, rfl, hlen, hr, fun f _ => by simp⟩

theorem toFQ_mod_pow_int {x : Int} (hx : 0 ≤ x ∧ x < Q) (k : Int) :
    (0 ≤ mod_pow x k Q ∧ mod_pow x k Q < Q) ∧ toFQ (mod_pow x k Q) = toFQ x ^ k.toNat := by
  by_cases hk : 0 ≤ k
  · obtain ⟨t, rfl⟩ := Int.eq_ofNat_of_zero_le hk
    exact ⟨mod_pow_nonneg_lt hx.1 hk Q_pos (by decide) (Or.inl (by decide)),
      by rw [Int.toNat_ofNat]; exact toFQ_mod_pow hx.1 t⟩
  · have ht : k.toNat = 0 := by omega
    have : mod_pow x k Q = 1 := by
      unfold mod_pow
      rw [ht]
      rfl
    rw [this, ht]
    exact ⟨one_in_range, by simp [toFQ]⟩

theorem coef_map_mod_pow (a : vll) (k : Int) (hr : InRange a) :
    (a.map fun x => mod_pow x k Q).length = a.length ∧
      InRange (a.map fun x => mod_pow x k Q) ∧
      ∀ p < a.length, coef (a.map fun x => mod_pow x k Q) p = coef a p ^ k.toNat := by
  refine ⟨List.length_map _ _, ?_, ?_⟩
  · intro y hy
    obtain ⟨x, hx, rfl⟩ := List.mem_map.1 hy
    exact (toFQ_mod_pow_int (hr x hx) k).1
  · intro p hp
    unfold coef
    have hp' : p < (a.map fun x => mod_pow x k Q).length := by simpa using hp
    rw [getD_eq_getElem _ p hp', getD_eq_getElem a p hp, List.getElem_map]
    exact (toFQ_mod_pow_int (hr _ (List.getElem_mem _)) k).2

/-- Entry `0` of the Walsh–Hadamard recursion is the sum of all values. -/
theorem whtF_zero : ∀ (s : Nat) (g : Nat → FQ),
    whtF s g 0 = ∑ f in Finset.range (2 ^ s), g f := by
  intro s
  induction s with
  | zero => intro g; simp [whtF]
  | succ s ih =>
    intro g
    have hpos : 0 < 2 ^ s := Nat.two_pow_pos s
    simp only [whtF, if_pos hpos]
    rw [ih g, ih _, pow_succ, Nat.mul_two, Finset.sum_range_add]
    congr 1
    apply Finset.sum_congr rfl
    intro x _
    rw [add_comm]

theorem toFQ_closed_form (d : DreamFunction) :
    toFQ d.closed_form = toFQ (mod_inv d.N Q) * ∑ f in Finset.range d.N.toNat,
      (∏ i in Finset.range d.n.toNat, coef (ntt (d.row_buffer i) false 3) f) ^ d.k_opt.toNat := by
  have h : d.closed_form = (mod_inv d.N Q * ∑ f in Finset.range d.N.toNat,
    (∏ i in Finset.range d.n.toNat, (ntt (d.row_buffer i) false 3).getD f 0)
      ^ d.k_opt.toNat) % Q := rfl
  rw [h, toFQ_emod]
  simp only [toFQ, coef, Int.cast_mul, Int.cast_sum, Int.cast_prod, Int.cast_pow]

/-- On a well-formed instance `compute_permanent` returns the closed form. -/
theorem compute_permanent_closed_form (d : DreamFunction) (n e : Nat) (h : WellFormed d n e) :
    d.compute_permanent = some d.closed_form := by
  obtain ⟨t1, t2⟩ := h.toNat
  have he30 : e ≤ 30 := by have := h.he; omega
  obtain ⟨psi1, q1, q2, q3, q4⟩ := fuse_rows_spec d n e h n 0 (List.replicate (2 ^ e) 1)
    (by omega) (Nat.zero_le _) (List.length_replicate _ _) (inRange_replicate _ 1 one_in_range)
  obtain ⟨m1, m2, m3⟩ := coef_map_mod_pow psi1 d.k_opt q3
  rw [q2] at m1 m3
  obtain ⟨w1, w2, w3⟩ := fwht_true_spec e he30 _ m1 m2
  have hpos : 0 < 2 ^ e := Nat.two_pow_pos e
  unfold DreamFunction.compute_permanent
  rw [t1, t2, q1]
  simp only []
  rw [List.getElem?_eq_getElem (by rw [w1]; exact hpos), ← getD_eq_getElem _ 0 (by rw [w1]; exact hpos)]
  refine congrArg some ?_
  have hs : 0 ≤ d.closed_form ∧ d.closed_form < Q :=
    ⟨Int.emod_nonneg _ (by decide), Int.emod_lt_of_pos _ Q_pos⟩
  apply toFQ_inj_of_residues (w2.getD 0).1 (w2.getD 0).2 hs.1 hs.2
  have hone : ∀ f < 2 ^ e, coef (List.replicate (2 ^ e) (1 : ll)) f = 1 := by
    intro f hf
    unfold coef
    rw [getD_replicate_of_lt hf]
    simp [toFQ]
  have hN : d.N = (2 : Int) ^ e := by rw [h.hN]; exact Nat.cast_pow 2 e
  rw [toFQ_closed_form, t1, t2, hN]
  have hw := w3 0 hpos
  unfold coef at hw
  rw [hw, whtF_zero, mul_comm]
  refine congrArg (fun s => toFQ (mod_inv ((2 : Int) ^ e) Q) * s) (Finset.sum_congr rfl ?_)
  intro f hf
  have hf' : f < 2 ^ e := Finset.mem_range.1 hf
  have hm := m3 f hf'
  unfold coef at hm
  rw [hm]
  have hq := q4 f hf'
  rw [hone f hf', one_mul, ← Finset.range_eq_Ico] at hq
  unfold coef at hq
  rw [hq]
  rfl
/-! ## Instances built by the constructor -/

theorem log2_loop_two_pow : ∀ (fuel e : Nat), e ≤ fuel → DreamFunction.log2_loop fuel (2 ^ e) = e := by
  intro fuel
  induction fuel with
  | zero =>
    intro e he
    have : e = 0 := by omega
    subst this
    rfl
  | succ fuel ih =>
    intro e he
    unfold DreamFunction.log2_loop
    cases e with
    | zero => simp
    | succ e =>
      have h2 : 2 ≤ 2 ^ (e + 1) := by
        have := Nat.two_pow_pos e
        rw [pow_succ]; omega
      have hd : 2 ^ (e + 1) / 2 = 2 ^ e := by
        rw [pow_succ]; exact Nat.mul_div_cancel _ (by decide)
      rw [if_pos h2, hd, ih e (by omega)]

theorem log2_two_pow (e : Nat) : DreamFunction.log2 (((2 ^ e : Nat) : Int)) = (e : Int) := by
  unfold DreamFunction.log2
  rw [Int.toNat_ofNat, log2_loop_two_pow _ _ (le_of_lt (Nat.lt_two_pow e))]

/-- For `n ≥ 2` and `N = 2^e` with `e ≥ 2` the exponent is positive. -/
theorem exponent_pos (n e : Nat) (hn : 2 ≤ n) (he : 2 ≤ e) :
    0 < DreamFunction.exponent (n : Int) (((2 ^ e : Nat) : Int)) := by
  unfold DreamFunction.exponent
  rw [log2_two_pow]
  have hp : 4 ≤ n * e := Nat.mul_le_mul hn he
  have hc : (n : Int) * (e : Int) = ((n * e : Nat) : Int) := (Nat.cast_mul n e).symm
  rw [hc]
  show (0 : Int) < -((-(((n * e : Nat) : Int) * 12)) / 10)
  omega

/-- The constructor applied to a square matrix of residues of dimension at most
`8323` gives a well-formed instance, with `N ≥ 4` when `n ≥ 2`. -/
theorem wellFormed_init (mat : matrix) (n : Nat) (hlen : mat.length = n) (hn : n ≤ 8323)
    (hsq : ∀ row ∈ mat, row.length = n) (hent : ∀ row ∈ mat, ∀ v ∈ row, 0 ≤ v ∧ v < Q) :
    ∃ e : Nat, WellFormed (DreamFunction.init mat) n e ∧ (2 ≤ n → 2 ≤ e) ∧
      (n * n ≤ 2 ^ e ∨ e = 14) := by
  have hw : wrap32 ((mat.length : Nat) : Int) = (n : Int) := by
    rw [hlen]; apply wrap32_of_bounds <;> omega
  have hnn : n * n ≤ 8323 * 8323 := Nat.mul_le_mul hn hn
  have hww : wrap32 ((n : Int) * (n : Int)) = ((n * n : Nat) : Int) := by
    rw [← Nat.cast_mul]; apply wrap32_of_bounds <;> omega
  obtain ⟨e, he, hs, hge, hmin⟩ := sizing_spec (n : Int)
  have hcast : ((2 ^ e : Nat) : Int) = (2 : Int) ^ e := Nat.cast_pow 2 e
  rw [hww, ← hcast] at hge
  refine ⟨e, ⟨?_, ?_, he, ?_, ?_, ?_, ?_⟩, ?_, ?_⟩
  · rw [init_n, hw]
  · rw [init_N, hw, hs, hcast]
  · rw [init_M]; exact hlen
  · rw [init_M]; exact hsq
  · rw [init_M]; exact hent
  · intro i j hi hj
    have := index_lt_sq hi hj
    omega
  · intro h2
    have h4 : 2 * 2 ≤ n * n := Nat.mul_le_mul h2 h2
    have hle : (4 : Int) ≤ ((2 ^ e : Nat) : Int) := by
      refine le_trans ?_ hge
      apply le_min <;> omega
    have hle' : 4 ≤ 2 ^ e := Int.ofNat_le.1 hle
    by_contra hc
    have : e = 0 ∨ e = 1 := by omega
    rcases this with h | h <;> subst h <;> omega
  · by_cases h14 : e = 14
    · exact Or.inr h14
    · left
      have hlt : 2 ^ e < 2 ^ 14 := Nat.pow_lt_pow_right (by decide) (by omega)
      have hlt' : ((2 ^ e : Nat) : Int) < 16384 := by
        have := Int.ofNat_lt.2 hlt
        simpa using this
      have : ((n * n : Nat) : Int) ≤ ((2 ^ e : Nat) : Int) := by
        rcases min_le_iff.1 hge with h | h
        · exact h
        · omega
      exact Int.ofNat_le.1 this

/-! ## A row of zeros -/

theorem getD_eq_zero_of_forall (row : vll) (hz : ∀ v ∈ row, v = 0) (c : Nat) :
    row.getD c 0 = 0 := by
  by_cases hc : c < row.length
  · exact hz _ (getD_mem row c hc 0)
  · rw [List.getD_eq_getElem?_getD, List.getElem?_eq_none (not_lt.1 hc)]
    rfl

theorem ntt_zero_row (d : DreamFunction) (n e : Nat) (h : WellFormed d n e) (i0 : Nat)
    (hi0 : i0 < n) (hz : ∀ v ∈ d.M.getD i0 [], v = 0) :
    ∀ f < 2 ^ e, coef (ntt (d.row_buffer i0) false 3) f = 0 := by
  obtain ⟨_, p2, p3, p4⟩ := row_buffer_spec d n e h i0 hi0
  have hzero : ∀ b, coef (d.row_buffer i0) b = 0 := by
    intro b
    rw [p4 b]
    apply Finset.sum_eq_zero
    intro c _
    rw [getD_eq_zero_of_forall _ hz c]
    simp [toFQ]
  intro f hf
  by_cases h0 : e = 0
  · subst h0
    rw [ntt_length_one _ p2]
    exact hzero f
  · obtain ⟨_, _, q3⟩ := ntt_false_spec e (by omega) (by have := h.he; omega) _ p2 p3
    rw [q3 f hf]
    unfold dftF
    apply Finset.sum_eq_zero
    intro t _
    rw [hzero t, zero_mul]

/-- On a well-formed instance with a row of zeros and a positive exponent
`compute_permanent` returns `0`. -/
theorem compute_permanent_zero_row (d : DreamFunction) (n e : Nat) (h : WellFormed d n e)
    (hk : 0 < d.k_opt) (i0 : Nat) (hi0 : i0 < n) (hz : ∀ v ∈ d.M.getD i0 [], v = 0) :
    d.compute_permanent = some 0 := by
  rw [compute_permanent_closed_form d n e h]
  refine congrArg some ?_
  have hs : 0 ≤ d.closed_form ∧ d.closed_form < Q :=
    ⟨Int.emod_nonneg _ (by decide), Int.emod_lt_of_pos _ Q_pos⟩
  apply toFQ_inj_of_residues hs.1 hs.2 (le_refl _) Q_pos
  obtain ⟨t1, t2⟩ := h.toNat
  have hk' : (0 : Int) < d.k_opt := hk
  have hK : d.k_opt.toNat ≠ 0 := fun h0 => by
    have := Int.toNat_of_nonneg (le_of_lt hk')
    rw [h0] at this
    exact absurd this.symm (ne_of_gt hk')
  rw [toFQ_closed_form, t1, t2]
  have hsum : ∑ f in Finset.range (2 ^ e),
      (∏ i in Finset.range n, coef (ntt (d.row_buffer i) false 3) f) ^ d.k_opt.toNat = 0 := by
    apply Finset.sum_eq_zero
    intro f hf
    have hp : ∏ i in Finset.range n, coef (ntt (d.row_buffer i) false 3) f = 0 :=
      Finset.prod_eq_zero (Finset.mem_range.2 hi0)
        (ntt_zero_row d n e h i0 hi0 hz f (Finset.mem_range.1 hf))
    rw [hp, zero_pow hK]
  rw [hsum, mul_zero]
  simp [toFQ]

/-! ## The pipeline on constructed instances of dimension at most 8323 -/

/-- Phase 1 on a constructed instance: for a square matrix of residues of
dimension `n ≤ 8323` the encoding of row `i` succeeds and bucket `b` holds the
sum, modulo `Q`, of the entries of the row that are mapped to `b`. -/
theorem encode_row_init (mat : matrix) (n : Nat) (hlen : mat.length = n) (hn : n ≤ 8323)
    (hsq : ∀ row ∈ mat, row.length = n) (hent : ∀ row ∈ mat, ∀ v ∈ row, 0 ≤ v ∧ v < Q)
    (i : Nat) (hi : i < n) :
    ∃ P, DreamFunction.encode_row (DreamFunction.init mat) i (DreamFunction.init mat).n.toNat 0
        (List.replicate (DreamFunction.init mat).N.toNat 0) = some P ∧
      P.length = (DreamFunction.init mat).N.toNat ∧
      ∀ b, P.getD b 0 = row_spec mat n (DreamFunction.init mat).N.toNat i b := by
  obtain ⟨e, hwf, _, _⟩ := wellFormed_init mat n hlen hn hsq hent
  obtain ⟨p1, p2, _, _⟩ := row_buffer_spec _ n e hwf i hi
  obtain ⟨_, t2⟩ := hwf.toNat
  refine ⟨_, p1, by rw [p2, t2], fun b => ?_⟩
  have := row_buffer_eq_row_spec _ n e hwf i hi b
  rw [init_M] at this
  rw [this, t2]

/-- Phases 1 to 3 on a constructed instance: for a square matrix of residues of
dimension `n ≤ 8323` the pipeline returns the closed form. -/
theorem compute_permanent_init (mat : matrix) (n : Nat) (hlen : mat.length = n) (hn : n ≤ 8323)
    (hsq : ∀ row ∈ mat, row.length = n) (hent : ∀ row ∈ mat, ∀ v ∈ row, 0 ≤ v ∧ v < Q) :
    (DreamFunction.init mat).compute_permanent = some (DreamFunction.init mat).closed_form := by
  obtain ⟨e, hwf, _, _⟩ := wellFormed_init mat n hlen hn hsq hent
  exact compute_permanent_closed_form _ n e hwf

/-- A row of zeros on a constructed instance: for `2 ≤ n ≤ 8323` the pipeline
returns `0`. -/
theorem compute_permanent_init_zero_row (mat : matrix) (n : Nat) (hlen : mat.length = n)
    (h2 : 2 ≤ n) (hn : n ≤ 8323) (hsq : ∀ row ∈ mat, row.length = n)
    (hent : ∀ row ∈ mat, ∀ v ∈ row, 0 ≤ v ∧ v < Q) (i0 : Nat) (hi0 : i0 < n)
    (hz : ∀ v ∈ mat.getD i0 [], v = 0) :
    (DreamFunction.init mat).compute_permanent = some 0 := by
  obtain ⟨e, hwf, he2, _⟩ := wellFormed_init mat n hlen hn hsq hent
  have hk : 0 < (DreamFunction.init mat).k_opt := by
    have h1 := hwf.hn
    have h3 := hwf.hN
    rw [init_n] at h1
    rw [init_N] at h3
    rw [init_k_opt, h1] at *
    rw [h3]
    exact exponent_pos n e h2 (he2 h2)
  apply compute_permanent_zero_row _ n e hwf hk i0 hi0
  rw [init_M]
  exact hz

/-! ## Claims on the modular primitives -/

/-- C3: for every base `a ≥ 0` (also `a ≥ Q`) and every exponent `e ≥ 0`,
`mod_pow(a, e, Q)` is `a^e mod Q`; with `e = 0` it returns `1`. -/
theorem mod_pow_correct (a e : Int) (ha : 0 ≤ a) (he : 0 ≤ e) :
    mod_pow a e Q = (a ^ e.toNat) % Q ∧ mod_pow a 0 Q = 1 := by
  constructor
  · obtain ⟨k, rfl⟩ := Int.eq_ofNat_of_zero_le he
    rw [mod_pow_Q ha k, Int.toNat_ofNat]
  · simp [mod_pow, mod_pow_loop]

theorem mod_pow_correct_witness :
    (0 : Int) ≤ 998244355 ∧ (0 : Int) ≤ 3 ∧
      (mod_pow 998244355 3 Q = ((998244355 : Int) ^ (3 : Int).toNat) % Q ∧
        mod_pow 998244355 0 Q = 1) :=
  ⟨by decide, by decide, mod_pow_correct 998244355 3 (by decide) (by decide)⟩

/-- C4: for every `a` with `1 ≤ a < Q`, the product of `mod_pow(a, 1, Q)` and
`mod_inv(a, Q)`, reduced modulo `Q`, is `1`. -/
theorem mod_inv_correct (a : Int) (h1 : 1 ≤ a) (h2 : a < Q) :
    (mod_pow a 1 Q * mod_inv a Q).tmod Q = 1 := by
  have ha : (0 : Int) ≤ a := by omega
  have hp := mod_pow_nonneg_lt (b := a) (e := 1) (m := Q) ha (by decide) (by decide)
    (by decide) (Or.inl (by decide))
  have hi := mod_pow_nonneg_lt (b := a) (e := Q - 2) (m := Q) ha (by decide) (by decide)
    (by decide) (Or.inl (by decide))
  have hprod : 0 ≤ mod_pow a 1 Q * mod_inv a Q := mul_nonneg hp.1 hi.1
  rw [Int.tmod_eq_emod hprod (by decide)]
  apply toFQ_inj_of_residues (Int.emod_nonneg _ (by decide)) (Int.emod_lt_of_pos _ (by decide))
    (by decide) (by decide)
  rw [toFQ_emod]
  have e1 : toFQ (mod_pow a 1 Q) = toFQ a ^ 1 := toFQ_mod_pow ha 1
  have e2 : toFQ (mod_inv a Q) = toFQ a ^ 998244351 := toFQ_mod_pow ha 998244351
  have hne : toFQ a ≠ 0 := by
    intro h0
    have : toFQ a = toFQ 0 := by rw [h0]; simp [toFQ]
    have := toFQ_inj_of_residues ha h2 (by decide) (by decide) this
    omega
  haveI := Q_prime_fact
  have hf : toFQ a ^ (998244353 - 1) = 1 := ZMod.pow_card_sub_one_eq_one hne
  show ((mod_pow a 1 Q * mod_inv a Q : Int) : FQ) = ((1 : Int) : FQ)
  push_cast
  change toFQ (mod_pow a 1 Q) * toFQ (mod_inv a Q) = 1
  rw [e1, e2, ← pow_add]
  exact hf

theorem mod_inv_correct_witness :
    (1 : Int) ≤ 2 ∧ (2 : Int) < Q ∧ (mod_pow 2 1 Q * mod_inv 2 Q).tmod Q = 1 :=
  ⟨by decide, by decide, mod_inv_correct 2 (by decide) (by decide)⟩

/-- C6, as stated, fails: with `mod = 1` and `exp = 0` the result is `1`, a
negative base gives a negative result, and with a modulus above `2^32` the
product wraps around in 64 bits. -/
theorem mod_pow_range_fails :
    mod_pow 0 0 1 = 1 ∧ mod_pow (-1) 1 5 = -1 ∧ mod_pow 3037000500 2 (2 ^ 62) < 0 := by
  decide!

/-- C6 (amended): for every base `≥ 0`, exponent `≥ 0` and modulus
`0 < mod ≤ 3037000500` (products of residues fit in 64 bits), with a positive
exponent when `mod = 1`, `mod_pow(base, exp, mod)` lies in `[0, mod)`. -/
theorem mod_pow_range (base exp mod : Int) (hb : 0 ≤ base) (he : 0 ≤ exp) (h0 : 0 < mod)
    (hm : mod ≤ 3037000500) (h1 : 1 < mod ∨ 0 < exp) :
    0 ≤ mod_pow base exp mod ∧ mod_pow base exp mod < mod :=
  mod_pow_nonneg_lt hb he h0 hm h1

theorem mod_pow_range_witness :
    (0 : Int) ≤ 7 ∧ (0 : Int) ≤ 5 ∧ (0 : Int) < 1 ∧ (1 : Int) ≤ 3037000500 ∧
      ((1 : Int) < 1 ∨ (0 : Int) < 5) ∧ (0 ≤ mod_pow 7 5 1 ∧ mod_pow 7 5 1 < 1) :=
  ⟨by decide, by decide, by decide, by decide, Or.inr (by decide),
    mod_pow_range 7 5 1 (by decide) (by decide) (by decide) (by decide) (Or.inr (by decide))⟩

/-! ## Claims on the constructor and the minimal cases -/

/-- C5 fails on the code: on an 8324 x 8324 matrix (here with all entries `0`)
the bucket of row 8322, column 1339 is negative, `(8322 * 8324 + 1339) * 31`
being above `2^31 - 1`, and `compute_permanent` returns no value. -/
theorem compute_permanent_fails_8324 :
    (DreamFunction.init (List.replicate 8324 (List.replicate 8324 0))).compute_permanent
      = none := by
  apply compute_permanent_none _ 8322 1339
  · rw [init_n, List.length_replicate]; decide
  · rw [init_n, List.length_replicate]; decide
  · rw [init_n, init_N, List.length_replicate]; decide!

/-- C7 fails on the code: for 46341 rows the product `n * n` leaves the `int`
range, the target becomes negative and the constructor keeps `N = 1`, while
`min(n * n, 16384)` is `16384`. -/
theorem sizing_fails_46341 :
    (DreamFunction.init (List.replicate 46341 (List.replicate 46341 0))).N = 1 ∧
      min ((46341 : Int) * 46341) 16384 = 16384 := by
  constructor
  · rw [init_N, List.length_replicate]; decide!
  · decide

/-- C8: for every input matrix the constructor's `N` satisfies `N ≥ 1`, is a
power of two, and `N ≤ 16384`. -/
theorem transform_length_invariant (mat : matrix) :
    1 ≤ (DreamFunction.init mat).N ∧ (∃ e : Nat, (DreamFunction.init mat).N = 2 ^ e) ∧
      (DreamFunction.init mat).N ≤ 16384 := by
  obtain ⟨e, he, hN, _, _⟩ := sizing_spec (wrap32 mat.length)
  rw [init_N, hN]
  refine ⟨one_le_pow₀ (by norm_num), ⟨e, rfl⟩, ?_⟩
  calc (2 : Int) ^ e ≤ 2 ^ 14 := pow_le_pow_right₀ (by norm_num) he
    _ = 16384 := by norm_num

/-- C10: for every square matrix of dimension `n ≤ 1` (the empty matrix or
`[[m]]`) the constructor yields `N = 1` and `k = 0`, `psi` starts as `[1]`,
phase 1 succeeds and the mutation step leaves the all-ones buffer `[1]`, the
inverse FWHT of `[1]` is `[1]` with element `0` equal to `1`, and
`compute_permanent` returns `1`. -/
theorem minimal_cases (mat : matrix) (hsq : ∀ row ∈ mat, row.length = mat.length)
    (hn : mat.length ≤ 1) :
    (DreamFunction.init mat).N = 1 ∧ (DreamFunction.init mat).k_opt = 0 ∧
      List.replicate (DreamFunction.init mat).N.toNat (1 : ll) = [1] ∧
      (∃ psi, DreamFunction.fuse_rows (DreamFunction.init mat) (DreamFunction.init mat).n.toNat 0
          (List.replicate (DreamFunction.init mat).N.toNat 1) = some psi ∧
        psi.map (fun x => mod_pow x (DreamFunction.init mat).k_opt Q) = [1]) ∧
      fwht [1] true = [1] ∧ (fwht [1] true)[0]? = some 1 ∧
      (DreamFunction.init mat).compute_permanent = some 1 := by
  match mat, hsq, hn with
  | [], _, _ =>
    rw [init_nil]
    refine ⟨rfl, rfl, rfl, ⟨[1], ?_, ?_⟩, fwht_one_true, ?_, ?_⟩
    · simp [DreamFunction.fuse_rows]
    · simp [mod_pow_zero_exp]
    · rw [fwht_one_true]; rfl
    · simp [DreamFunction.compute_permanent, DreamFunction.fuse_rows, mod_pow_zero_exp,
        fwht_one_true]
  | [row], hsq, _ =>
    have hlen : row.length = 1 := by simpa using hsq row (by simp)
    obtain ⟨m, rfl⟩ := List.length_eq_one.1 hlen
    rw [init_singleton]
    refine ⟨rfl, rfl, rfl, ⟨_, fuse_rows_singleton m, ?_⟩, fwht_one_true, ?_, ?_⟩
    · simp [mod_pow_zero_exp]
    · rw [fwht_one_true]; rfl
    · have h := fuse_rows_singleton m
      simp only [Int.toNat_one, List.replicate_one] at h ⊢
      simp [DreamFunction.compute_permanent, h, mod_pow_zero_exp, fwht_one_true]
  | _ :: _ :: _, _, hn => simp at hn

theorem minimal_cases_witness :
    (∀ row ∈ ([[5]] : matrix), row.length = ([[5]] : matrix).length) ∧
      ([[5]] : matrix).length ≤ 1 ∧
      ((DreamFunction.init [[5]]).N = 1 ∧ (DreamFunction.init [[5]]).k_opt = 0 ∧
        List.replicate (DreamFunction.init [[5]]).N.toNat (1 : ll) = [1] ∧
        (∃ psi, DreamFunction.fuse_rows (DreamFunction.init [[5]])
            (DreamFunction.init [[5]]).n.toNat 0
            (List.replicate (DreamFunction.init [[5]]).N.toNat 1) = some psi ∧
          psi.map (fun x => mod_pow x (DreamFunction.init [[5]]).k_opt Q) = [1]) ∧
        fwht [1] true = [1] ∧ (fwht [1] true)[0]? = some 1 ∧
        (DreamFunction.init [[5]]).compute_permanent = some 1) :=
  ⟨by simp, by simp, minimal_cases [[5]] (by simp) (by simp)⟩

/-! ## Claims on the Walsh–Hadamard transform -/

/-- C2, as stated, fails: on the vector of `2^31` ones the forward pass leaves the
vector unchanged (`int n` is negative) and the inverse pass multiplies by a
number that is not `1`. -/
theorem fwht_roundtrip_fails :
    (List.replicate (2 ^ 31) (1 : ll)).length = 2 ^ 31 ∧
      (∀ v ∈ List.replicate (2 ^ 31) (1 : ll), 0 ≤ v ∧ v < Q) ∧
      fwht (fwht (List.replicate (2 ^ 31) 1) false) true ≠ List.replicate (2 ^ 31) 1 := by
  have hlen : (List.replicate (2 ^ 31) (1 : ll)).length = 2 ^ 31 := List.length_replicate _ _
  refine ⟨hlen, ?_, ?_⟩
  · intro v hv
    rw [List.eq_of_mem_replicate hv]
    decide
  · have e1 := fwht_of_length_two_pow_31 _ hlen false
    rw [if_neg (by decide)] at e1
    rw [e1, fwht_of_length_two_pow_31 _ hlen true, if_pos rfl, List.map_replicate]
    intro h
    have hne : (1 * mod_inv (-2147483648) Q).tmod Q ≠ 1 := by decide!
    apply hne
    have hmem : (1 * mod_inv (-2147483648) Q).tmod Q ∈
        List.replicate (2 ^ 31) ((1 * mod_inv (-2147483648) Q).tmod Q) :=
      List.mem_replicate.2 ⟨by norm_num, rfl⟩
    rw [h] at hmem
    exact List.eq_of_mem_replicate hmem

/-- C2 (amended): for every power-of-two length `N` with `1 ≤ N ≤ 2^30` and every
`x` of `N` residues in `[0, Q)`, `fwht(fwht(x, false), true)` is `x`. -/
theorem fwht_roundtrip (N : Nat) (x : vll) (hpow : ∃ m : Nat, N = 2 ^ m) (hN : N ≤ 2 ^ 30)
    (hlen : x.length = N) (hx : ∀ v ∈ x, 0 ≤ v ∧ v < Q) :
    fwht (fwht x false) true = x := by
  obtain ⟨m, rfl⟩ := hpow
  have hm : m ≤ 30 := (Nat.pow_le_pow_iff_right (by norm_num)).1 hN
  exact fwht_roundtrip_aux m hm x hlen hx

theorem fwht_roundtrip_witness :
    (∃ m : Nat, 4 = 2 ^ m) ∧ 4 ≤ 2 ^ 30 ∧ ([1, 2, 3, 4] : vll).length = 4 ∧
      (∀ v ∈ ([1, 2, 3, 4] : vll), 0 ≤ v ∧ v < Q) ∧
      fwht (fwht [1, 2, 3, 4] false) true = [1, 2, 3, 4] :=
  ⟨⟨2, rfl⟩, by norm_num, rfl, by decide, 
    fwht_roundtrip 4 [1, 2, 3, 4] ⟨2, rfl⟩ (by norm_num) rfl (by decide)⟩

/-! ## Claims on the number-theoretic transform -/

/-- C1: for every power-of-two length `N` with `1 ≤ N ≤ 16384` and every `x` of
`N` residues in `[0, Q)`, `ntt(x, false, 3)` followed by `ntt(., true, 3)` gives
`x` back, elementwise. -/
theorem ntt_roundtrip (N : Nat) (x : vll) (hpow : ∃ m : Nat, N = 2 ^ m) (hN : N ≤ 16384)
    (hlen : x.length = N) (hx : ∀ v ∈ x, 0 ≤ v ∧ v < Q) :
    ntt (ntt x false 3) true 3 = x := by
  obtain ⟨m, rfl⟩ := hpow
  have hm : m ≤ 14 := by
    have h : 2 ^ m ≤ 2 ^ 14 := by norm_num; exact hN
    exact (Nat.pow_le_pow_iff_right (by norm_num)).1 h
  exact ntt_roundtrip_aux m (by omega) x hlen hx

theorem ntt_roundtrip_witness :
    (∃ m : Nat, 4 = 2 ^ m) ∧ 4 ≤ 16384 ∧ ([1, 2, 3, 4] : vll).length = 4 ∧
      (∀ v ∈ ([1, 2, 3, 4] : vll), 0 ≤ v ∧ v < Q) ∧
      ntt (ntt [1, 2, 3, 4] false 3) true 3 = [1, 2, 3, 4] :=
  ⟨⟨2, rfl⟩, by norm_num, rfl, by decide,
    ntt_roundtrip 4 [1, 2, 3, 4] ⟨2, rfl⟩ (by norm_num) rfl (by decide)⟩

/-! ## Further claims on the transforms -/

/-- C11: for every power-of-two `N` with `1 ≤ N ≤ 16384` and every `x` of `N`
residues in `[0, Q)`, entry `k < N` of `ntt(x, false, 3)` is
`(∑ j < N, x[j] * w^(j*k)) mod Q` with `w = 3^((Q-1)/N) mod Q`. -/
theorem ntt_eq_dft (N : Nat) (x : vll) (hpow : ∃ m : Nat, N = 2 ^ m) (hN : N ≤ 16384)
    (hlen : x.length = N) (hx : ∀ v ∈ x, 0 ≤ v ∧ v < Q) (k : Nat) (hk : k < N) :
    (ntt x false 3).getD k 0 = dft_spec x k := by
  obtain ⟨m, rfl⟩ := hpow
  have hm : m ≤ 14 := by
    have h : 2 ^ m ≤ 2 ^ 14 := by norm_num; exact hN
    exact (Nat.pow_le_pow_iff_right (by norm_num)).1 h
  have hspec : 0 ≤ dft_spec x k ∧ dft_spec x k < Q :=
    ⟨Int.emod_nonneg _ (by decide), Int.emod_lt_of_pos _ Q_pos⟩
  have hr : InRange x := hx
  by_cases hm0 : m = 0
  · subst hm0
    have hw : wrap32 ((x.length : Nat) : Int) = 1 := by rw [hlen]; decide
    rw [ntt_eq x, if_pos hw]
    apply toFQ_inj_of_residues (hr.getD k).1 (hr.getD k).2 hspec.1 hspec.2
    rw [toFQ_dft_spec 0 (by omega) x hlen k]
    have hk0 : k = 0 := by simpa using hk
    subst hk0
    simp [dftF, coef]
  · obtain ⟨_, h2, h3⟩ := ntt_false_spec m (by omega) (by omega) x hlen hr
    apply toFQ_inj_of_residues (h2.getD k).1 (h2.getD k).2 hspec.1 hspec.2
    rw [toFQ_dft_spec m (by omega) x hlen k]
    exact h3 k hk

theorem ntt_eq_dft_witness :
    (∃ m : Nat, 4 = 2 ^ m) ∧ 4 ≤ 16384 ∧ ([1, 2, 3, 4] : vll).length = 4 ∧
      (∀ v ∈ ([1, 2, 3, 4] : vll), 0 ≤ v ∧ v < Q) ∧ 1 < 4 ∧
      (ntt [1, 2, 3, 4] false 3).getD 1 0 = dft_spec [1, 2, 3, 4] 1 :=
  ⟨⟨2, rfl⟩, by norm_num, rfl, by decide, by norm_num,
    ntt_eq_dft 4 [1, 2, 3, 4] ⟨2, rfl⟩ (by norm_num) rfl (by decide) 1 (by norm_num)⟩

/-- C14: for every power-of-two stage length `len` with `2 ≤ len ≤ 16384` the
twiddle `w = mod_pow(3, (Q-1)/len, Q)` has order exactly `len` modulo `Q`:
`w^len mod Q = 1`, `w^(len/2) mod Q = Q - 1`, and no smaller positive power of
`w` is `1` modulo `Q`. -/
theorem twiddle_order (len : Nat) (hpow : ∃ s : Nat, len = 2 ^ s) (h2 : 2 ≤ len)
    (hN : len ≤ 16384) :
    (mod_pow 3 ((Q - 1) / (len : Int)) Q) ^ len % Q = 1 ∧
      (mod_pow 3 ((Q - 1) / (len : Int)) Q) ^ (len / 2) % Q = Q - 1 ∧
      ∀ d : Nat, 0 < d → d < len → (mod_pow 3 ((Q - 1) / (len : Int)) Q) ^ d % Q ≠ 1 := by
  obtain ⟨s, rfl⟩ := hpow
  have hs : s ≤ 14 := by
    have h : 2 ^ s ≤ 2 ^ 14 := by norm_num; exact hN
    exact (Nat.pow_le_pow_iff_right (by norm_num)).1 h
  obtain ⟨t, rfl⟩ : ∃ t, s = t + 1 := by
    refine ⟨s - 1, ?_⟩
    have : s ≠ 0 := by
      rintro rfl
      norm_num at h2
    omega
  have hw := toFQ_stage_twiddle (2 ^ (t + 1))
  have hhalf : 2 ^ (t + 1) / 2 = 2 ^ t := by
    rw [pow_succ]; omega
  refine ⟨?_, ?_, ?_⟩
  · apply emod_eq_of_toFQ (by decide) (by decide)
    rw [toFQ_pow, hw, stageW_false_pow_len (by omega)]
    simp [toFQ]
  · apply emod_eq_of_toFQ (by decide) (by decide)
    rw [toFQ_pow, hw, hhalf, stageW_false_half (by omega), toFQ_Q_sub_one]
  · intro d hd0 hd h
    apply stageW_false_order (show t + 1 ≤ 23 by omega) d hd0 hd
    rw [← hw, ← toFQ_pow, ← toFQ_emod, h]
    simp [toFQ]

theorem twiddle_order_witness :
    (∃ s : Nat, 16384 = 2 ^ s) ∧ 2 ≤ 16384 ∧ 16384 ≤ 16384 ∧
      ((mod_pow 3 ((Q - 1) / ((16384 : Nat) : Int)) Q) ^ 16384 % Q = 1 ∧
        (mod_pow 3 ((Q - 1) / ((16384 : Nat) : Int)) Q) ^ (16384 / 2) % Q = Q - 1 ∧
        ∀ d : Nat, 0 < d → d < 16384 →
          (mod_pow 3 ((Q - 1) / ((16384 : Nat) : Int)) Q) ^ d % Q ≠ 1) :=
  ⟨⟨14, by norm_num⟩, by norm_num, le_refl _,
    twiddle_order 16384 ⟨14, by norm_num⟩ (by norm_num) (le_refl _)⟩

/-- C16 fails on the code: for `n = 8324` (so `N = 16384`), row `8322` and
column `1339`, the product `(i * n + j) * 31 = 2147483677` leaves the `int`
range and the bucket is the negative number `-16355`. -/
theorem bucket_negative_8324 :
    DreamFunction.sizing 8324 = 16384 ∧
      DreamFunction.bucket 8324 (DreamFunction.sizing 8324) 8322 1339 = -16355 ∧
      ((8322 : Int) * 8324 + 1339) * 31 = 2147483677 := by
  decide!

/-- C15, as stated, fails: on the vector of `2^31` ones two un-normalised passes
leave every entry `1` (`int n` is negative and no stage runs), while
`(N * x[0]) mod Q` is `2^31 mod Q = 150994942`. -/
theorem fwht_twice_fails :
    (List.replicate (2 ^ 31) (1 : ll)).length = 2 ^ 31 ∧
      (∀ v ∈ List.replicate (2 ^ 31) (1 : ll), 0 ≤ v ∧ v < Q) ∧
      (fwht (fwht (List.replicate (2 ^ 31) 1) false) false).getD 0 0
        ≠ (((2 ^ 31 : Nat) : Int) * (List.replicate (2 ^ 31) (1 : ll)).getD 0 0) % Q := by
  have hlen : (List.replicate (2 ^ 31) (1 : ll)).length = 2 ^ 31 := List.length_replicate _ _
  refine ⟨hlen, ?_, ?_⟩
  · intro v hv
    rw [List.eq_of_mem_replicate hv]
    decide
  · have e1 := fwht_of_length_two_pow_31 _ hlen false
    rw [if_neg (by decide)] at e1
    rw [e1, e1, getD_replicate_of_lt (by norm_num)]
    decide

/-- C15 (amended): for every power-of-two `N` with `1 ≤ N ≤ 2^30` and every `x` of
`N` residues in `[0, Q)`, entry `i < N` of `fwht(fwht(x, false), false)` is
`(N * x[i]) mod Q`. -/
theorem fwht_twice (N : Nat) (x : vll) (hpow : ∃ m : Nat, N = 2 ^ m) (hN : N ≤ 2 ^ 30)
    (hlen : x.length = N) (hx : ∀ v ∈ x, 0 ≤ v ∧ v < Q) (i : Nat) (hi : i < N) :
    (fwht (fwht x false) false).getD i 0 = ((N : Int) * x.getD i 0) % Q := by
  obtain ⟨m, rfl⟩ := hpow
  have hm : m ≤ 30 := (Nat.pow_le_pow_iff_right (by norm_num)).1 hN
  exact fwht_twice_aux m hm x hlen hx i hi

theorem fwht_twice_witness :
    (∃ m : Nat, 4 = 2 ^ m) ∧ 4 ≤ 2 ^ 30 ∧ ([1, 2, 3, 4] : vll).length = 4 ∧
      (∀ v ∈ ([1, 2, 3, 4] : vll), 0 ≤ v ∧ v < Q) ∧ 3 < 4 ∧
      (fwht (fwht [1, 2, 3, 4] false) false).getD 3 0
        = (((4 : Nat) : Int) * ([1, 2, 3, 4] : vll).getD 3 0) % Q :=
  ⟨⟨2, rfl⟩, by norm_num, rfl, by decide, by norm_num,
    fwht_twice 4 [1, 2, 3, 4] ⟨2, rfl⟩ (by norm_num) rfl (by decide) 3 (by norm_num)⟩

/-- C18: for every power-of-two length `N ≤ 16384` and every sequence of `N`
residues in `[0, Q)`, each of `ntt(., false, 3)`, `ntt(., true, 3)`,
`fwht(., false)` and `fwht(., true)` returns a sequence of length `N` with all
entries in `[0, Q)`. -/
theorem transforms_keep_range (N : Nat) (x : vll) (hpow : ∃ m : Nat, N = 2 ^ m)
    (hN : N ≤ 16384) (hlen : x.length = N) (hx : ∀ v ∈ x, 0 ≤ v ∧ v < Q) :
    ((ntt x false 3).length = N ∧ ∀ v ∈ ntt x false 3, 0 ≤ v ∧ v < Q) ∧
      ((ntt x true 3).length = N ∧ ∀ v ∈ ntt x true 3, 0 ≤ v ∧ v < Q) ∧
      ((fwht x false).length = N ∧ ∀ v ∈ fwht x false, 0 ≤ v ∧ v < Q) ∧
      ((fwht x true).length = N ∧ ∀ v ∈ fwht x true, 0 ≤ v ∧ v < Q) := by
  obtain ⟨m, rfl⟩ := hpow
  have hm : m ≤ 14 := by
    have h : 2 ^ m ≤ 2 ^ 14 := by norm_num; exact hN
    exact (Nat.pow_le_pow_iff_right (by norm_num)).1 h
  have hr : InRange x := hx
  obtain ⟨f1, f2, _⟩ := fwht_false_spec m (by omega) x hlen hr
  obtain ⟨g1, g2, _⟩ := fwht_true_spec m (by omega) x hlen hr
  refine ⟨?_, ?_, ⟨f1, f2⟩, ⟨g1, g2⟩⟩
  · by_cases hm0 : m = 0
    · subst hm0
      rw [ntt_length_one x hlen]
      exact ⟨hlen, hx⟩
    · obtain ⟨h1, h2, _⟩ := ntt_false_spec m (by omega) (by omega) x hlen hr
      exact ⟨h1, h2⟩
  · by_cases hm0 : m = 0
    · subst hm0
      rw [ntt_length_one x hlen]
      exact ⟨hlen, hx⟩
    · obtain ⟨h1, h2, _⟩ := ntt_true_spec m (by omega) (by omega) x hlen hr
      exact ⟨h1, h2⟩

theorem transforms_keep_range_witness :
    (∃ m : Nat, 2 = 2 ^ m) ∧ 2 ≤ 16384 ∧ ([5, 998244352] : vll).length = 2 ∧
      (∀ v ∈ ([5, 998244352] : vll), 0 ≤ v ∧ v < Q) ∧
      (((ntt [5, 998244352] false 3).length = 2 ∧
          ∀ v ∈ ntt [5, 998244352] false 3, 0 ≤ v ∧ v < Q) ∧
        ((ntt [5, 998244352] true 3).length = 2 ∧
          ∀ v ∈ ntt [5, 998244352] true 3, 0 ≤ v ∧ v < Q) ∧
        ((fwht [5, 998244352] false).length = 2 ∧
          ∀ v ∈ fwht [5, 998244352] false, 0 ≤ v ∧ v < Q) ∧
        ((fwht [5, 998244352] true).length = 2 ∧
          ∀ v ∈ fwht [5, 998244352] true, 0 ≤ v ∧ v < Q)) :=
  ⟨⟨1, rfl⟩, by norm_num, rfl, by decide,
    transforms_keep_range 2 [5, 998244352] ⟨1, rfl⟩ (by norm_num) rfl (by decide)⟩

/-! ## Further claims on the orchestrator -/

/-- C19: for every `n` with `n * n ≤ 16384` and the `N` chosen by the
constructor, the bucket map `(i, j) ↦ ((i * n + j) * 31) mod N` is injective on
the pairs with `i, j < n`. -/
theorem bucket_injective (n : Nat) (hn : n * n ≤ 16384) (i j i' j' : Nat) (hi : i < n)
    (hj : j < n) (hi' : i' < n) (hj' : j' < n)
    (h : DreamFunction.bucket (n : Int) (DreamFunction.sizing (n : Int)) i j
      = DreamFunction.bucket (n : Int) (DreamFunction.sizing (n : Int)) i' j') :
    i = i' ∧ j = j' := by
  obtain ⟨e, _, hs, hge⟩ := sizing_of_small n hn
  have h1 := index_lt_sq hi hj
  have h2 := index_lt_sq hi' hj'
  have f1 : (i * n + j) * 31 < 2 ^ 31 := by omega
  have f2 : (i' * n + j') * 31 < 2 ^ 31 := by omega
  rw [hs] at h
  rw [bucket_eq_of_fits n (2 ^ e) i j f1] at h
  rw [bucket_eq_of_fits n (2 ^ e) i' j' f2] at h
  have h' : (i * n + j) * 31 % 2 ^ e = (i' * n + j') * 31 % 2 ^ e := Int.ofNat_inj.1 h
  exact index_injective hj hj'
    (mul_31_injective_mod (lt_of_lt_of_le h1 hge) (lt_of_lt_of_le h2 hge) h')

theorem bucket_injective_witness :
    3 * 3 ≤ 16384 ∧ 1 < 3 ∧ 2 < 3 ∧ 1 < 3 ∧ 2 < 3 ∧
      DreamFunction.bucket ((3 : Nat) : Int) (DreamFunction.sizing ((3 : Nat) : Int)) 1 2
        = DreamFunction.bucket ((3 : Nat) : Int) (DreamFunction.sizing ((3 : Nat) : Int)) 1 2 ∧
      (1 = 1 ∧ 2 = 2) :=
  ⟨by norm_num, by norm_num, by norm_num, by norm_num, by norm_num, rfl,
    bucket_injective 3 (by norm_num) 1 2 1 2 (by norm_num) (by norm_num) (by norm_num)
      (by norm_num) rfl⟩

/-- C12 fails on the code: in the 8324 x 8324 all-zero matrix the encoding of
row `8322` stops at column `1339`, whose bucket is negative, and builds no row
buffer. -/
theorem encode_row_fails_8324 :
    DreamFunction.encode_row (DreamFunction.init (List.replicate 8324 (List.replicate 8324 0)))
      8322 (DreamFunction.init (List.replicate 8324 (List.replicate 8324 0))).n.toNat 0
      (List.replicate
        (DreamFunction.init (List.replicate 8324 (List.replicate 8324 0))).N.toNat 0) = none := by
  apply encode_row_none _ 8322 1339
  · rw [init_n, List.length_replicate]; decide
  · rw [init_n, init_N, List.length_replicate]; decide!
  · exact Nat.zero_le _
  · rw [init_n, List.length_replicate]; decide

/-- C13 fails on the code: on the 8324 x 8324 all-ones matrix `compute_permanent`
returns no value (row `8322` writes outside its buffer), so it does not return
the closed form. -/
theorem closed_form_fails_8324 :
    (DreamFunction.init (List.replicate 8324 (List.replicate 8324 1))).compute_permanent
      ≠ some (DreamFunction.init (List.replicate 8324 (List.replicate 8324 1))).closed_form := by
  have h : (DreamFunction.init (List.replicate 8324 (List.replicate 8324 1))).compute_permanent
      = none := by
    apply compute_permanent_none _ 8322 1339
    · rw [init_n, List.length_replicate]; decide
    · rw [init_n, List.length_replicate]; decide
    · rw [init_n, init_N, List.length_replicate]; decide!
  rw [h]
  exact fun h' => Option.noConfusion h'

/-- C20 fails on the code: the 8324 x 8324 matrix whose first row is zero and
whose other entries are `1` has a row of zeros, yet `compute_permanent` does
not return `0`: row `8322` writes outside its buffer and no value is
returned. -/
theorem zero_row_fails_8324 :
    (DreamFunction.init
        (List.replicate 8324 0 :: List.replicate 8323 (List.replicate 8324 1))).compute_permanent
      ≠ some 0 := by
  have h : (DreamFunction.init
      (List.replicate 8324 0 :: List.replicate 8323 (List.replicate 8324 1))).compute_permanent
      = none := by
    apply compute_permanent_none _ 8322 1339
    · rw [init_n, List.length_cons, List.length_replicate]; decide
    · rw [init_n, List.length_cons, List.length_replicate]; decide
    · rw [init_n, init_N, List.length_cons, List.length_replicate]; decide!
  rw [h]
  exact fun h' => Option.noConfusion h'

/-! ## The claim on overflow headroom -/

/-- C17: for residues `a`, `b` the product `a * b` is at most `(Q-1)^2`, which is
below `2^63`, so wrapping it to 64 bits changes nothing; hence on residues
`mod_pow` (modulus `Q`), `ntt`, `fwht` and the phase-1 product give the same
results in 64-bit arithmetic as over the unbounded integers. -/
theorem overflow_headroom (a b e : ll) (x y : vll) (inverse : Bool)
    (ha : 0 ≤ a ∧ a < Q) (hb : 0 ≤ b ∧ b < Q) (hx : ∀ v ∈ x, 0 ≤ v ∧ v < Q)
    (hy : ∀ v ∈ y, 0 ≤ v ∧ v < Q) :
    (a * b ≤ (Q - 1) ^ 2 ∧ (Q - 1) ^ 2 < 2 ^ 63 ∧ wrap64 (a * b) = a * b) ∧
      mod_pow a e Q = mod_pow_unbounded a e Q ∧
      ntt64 x inverse 3 = ntt x inverse 3 ∧
      fwht64 x inverse = fwht x inverse ∧
      fuse_mul64 x y = List.zipWith (fun u p => (u * p).tmod Q) x y :=
  ⟨⟨(residue_mul_le ha hb).2, Q_sq_lt, wrap64_mul_residues ha hb⟩,
    mod_pow_unbounded_eq ha.1 e, ntt64_eq x hx inverse, fwht64_eq x hx inverse,
    fuse_mul64_eq x y hx hy⟩

theorem overflow_headroom_witness :
    ((0 : ll) ≤ 998244352 ∧ (998244352 : ll) < Q) ∧ ((0 : ll) ≤ 998244352 ∧ (998244352 : ll) < Q) ∧
      (∀ v ∈ ([998244352, 7] : vll), 0 ≤ v ∧ v < Q) ∧
      (∀ v ∈ ([998244352, 3] : vll), 0 ≤ v ∧ v < Q) ∧
      (((998244352 : ll) * 998244352 ≤ (Q - 1) ^ 2 ∧ (Q - 1) ^ 2 < 2 ^ 63 ∧
          wrap64 ((998244352 : ll) * 998244352) = 998244352 * 998244352) ∧
        mod_pow 998244352 5 Q = mod_pow_unbounded 998244352 5 Q ∧
        ntt64 [998244352, 7] true 3 = ntt [998244352, 7] true 3 ∧
        fwht64 [998244352, 7] true = fwht [998244352, 7] true ∧
        fuse_mul64 [998244352, 7] [998244352, 3]
          = List.zipWith (fun (u p : ll) => (u * p).tmod Q) [998244352, 7] [998244352, 3]) :=
  ⟨by decide, by decide, by decide, by decide,
    overflow_headroom 998244352 998244352 5 [998244352, 7] [998244352, 3] true (by decide)
      (by decide) (by decide) (by decide)⟩
